import Mathlib

/-!
# Connect Four with Monte Carlo tree search: a verification development

Shallow embedding of `connectfour.c` and `mcts.c`.

* A C `int` is an `Int`; the counters of the search stay far below `2^31`
  (they are bounded by the iteration budget), so no wrap-around is modelled.
* `int board[ROWS][COLS]` is a function from a row and a column to the cell
  value.  Only cells with `0 ≤ r < ROWS` and `0 ≤ c < COLS` exist in C, and the
  embedded code reads no other cell wherever the C code stays inside the array.
* The search tree lives in an arena (`List MCTSNode`); a node pointer is an
  index into the arena, the `NULL` pointer is `none`.
* `rand()` and `malloc()` are answered by an `Oracle`: the value of the k-th call
  of `rand()`, and whether the k-th call of `malloc()` succeeds.  `free()` has no
  observable effect and is not modelled.
* The `double` arithmetic of `ucb1` is a parameter (`DoubleOps`).
-/

namespace ConnectFour

/-! ## defines.h -/

def ROWS : Nat := 6
def COLS : Nat := 7
def CONNECT_LEN : Nat := 4

def EMPTY : Int := 0
def PLAYER1 : Int := 1
def PLAYER2 : Int := 2

def MCTS_ITERATIONS : Nat := 10000

/-- The C array `int board[ROWS][COLS]`, read as `board r c`. -/
abbrev Board := Int → Int → Int

/-! ## connectfour.c -/

/-- The function `init_board`: every cell is set to `EMPTY`. -/
def init_board : Board := fun _ _ => EMPTY

/-- The function `is_valid_location`: `col >= 0 && col < COLS && board[0][col] == EMPTY`. -/
def is_valid_location (board : Board) (col : Int) : Bool :=
  decide (col ≥ 0) && decide (col < COLS) && (board 0 col == EMPTY)

/-- The loop of `get_next_open_row`, with `n` rows still to inspect: the row looked at
is `r = n - 1`, and the loop counts `r` down to `0`. -/
def get_next_open_row_from (board : Board) (col : Int) : Nat → Int
  | 0 => -1
  | n + 1 => if board (n : Int) col == EMPTY then (n : Int) else get_next_open_row_from board col n

/-- The function `get_next_open_row`: the first empty row from the bottom, or `-1`. -/
def get_next_open_row (board : Board) (col : Int) : Int :=
  get_next_open_row_from board col ROWS

/-- The function `drop_piece`: writes `player` into `board[row][col]` when the
indices are in range, and does nothing otherwise. -/
def drop_piece (board : Board) (row col player : Int) : Board :=
  if row ≥ 0 ∧ row < ROWS ∧ col ≥ 0 ∧ col < COLS then
    fun r c => if r = row ∧ c = col then player else board r c
  else board

/-- The function `copy_board`: a `memcpy` of the whole array. -/
def copy_board (src : Board) : Board := src

/-- Horizontal scan of `check_win`: `r` in `[0, ROWS)`, `c` in `[0, COLS - CONNECT_LEN]`,
the inner loop tests `board[r][c + i]` for `i < CONNECT_LEN`. -/
def check_win_horizontal (board : Board) (player : Int) : Bool :=
  (List.range ROWS).any fun r =>
    (List.range (COLS - CONNECT_LEN + 1)).any fun c =>
      (List.range CONNECT_LEN).all fun i => board (r : Int) ((c : Int) + (i : Int)) == player

/-- Vertical scan of `check_win`: `c` in `[0, COLS)`, `r` in `[0, ROWS - CONNECT_LEN]`,
the inner loop tests `board[r + i][c]`. -/
def check_win_vertical (board : Board) (player : Int) : Bool :=
  (List.range COLS).any fun c =>
    (List.range (ROWS - CONNECT_LEN + 1)).any fun r =>
      (List.range CONNECT_LEN).all fun i => board ((r : Int) + (i : Int)) (c : Int) == player

/-- First diagonal scan of `check_win`: `r` in `[0, ROWS - CONNECT_LEN]`,
`c` in `[0, COLS - CONNECT_LEN]`, the inner loop tests `board[r + i][c + i]`. -/
def check_win_diag_down (board : Board) (player : Int) : Bool :=
  (List.range (ROWS - CONNECT_LEN + 1)).any fun r =>
    (List.range (COLS - CONNECT_LEN + 1)).any fun c =>
      (List.range CONNECT_LEN).all fun i =>
        board ((r : Int) + (i : Int)) ((c : Int) + (i : Int)) == player

/-- Second diagonal scan of `check_win`: `r` in `[CONNECT_LEN - 1, ROWS)`,
`c` in `[0, COLS - CONNECT_LEN]`, the inner loop tests `board[r - i][c + i]`. -/
def check_win_diag_up (board : Board) (player : Int) : Bool :=
  (List.range' (CONNECT_LEN - 1) (ROWS - (CONNECT_LEN - 1))).any fun r =>
    (List.range (COLS - CONNECT_LEN + 1)).any fun c =>
      (List.range CONNECT_LEN).all fun i =>
        board ((r : Int) - (i : Int)) ((c : Int) + (i : Int)) == player

/-- The function `check_win`: the four scans in the order of the source; each returns
`true` at the first full window. -/
def check_win (board : Board) (player : Int) : Bool :=
  check_win_horizontal board player || check_win_vertical board player ||
    check_win_diag_down board player || check_win_diag_up board player

/-- The function `is_board_full`: `false` at the first empty cell of the top row. -/
def is_board_full (board : Board) : Bool :=
  (List.range COLS).all fun c => board 0 (c : Int) != EMPTY

/-- The function `check_game_over`: the winner, `0` for a draw, `-1` when the game goes on. -/
def check_game_over (board : Board) : Int :=
  if check_win board PLAYER1 then PLAYER1
  else if check_win board PLAYER2 then PLAYER2
  else if is_board_full board then 0
  else -1

/-- The loop of `get_valid_moves`: the columns `c = 0 .. COLS-1` with
`is_valid_location(board, c)`, stored in the order they are met. -/
def valid_columns (board : Board) : List Int :=
  ((List.range COLS).map fun (c : Nat) => (c : Int)).filter fun c => is_valid_location board c

/-- The function `get_valid_moves`; `ok` tells whether its `malloc` succeeded.  On failure
it returns `NULL` (`none`) and sets `*num_moves = 0`; otherwise the array holds the valid
columns and `*num_moves` is its length. -/
def get_valid_moves (ok : Bool) (board : Board) : Option (List Int) :=
  if ok then some (valid_columns board) else none

/-- The value left in `*num_moves` by `get_valid_moves`. -/
def num_moves (moves : Option (List Int)) : Nat :=
  match moves with
  | none => 0
  | some l => l.length

/-- A turn as `main` composes it for the human player: `is_valid_location`, then
`get_next_open_row`, then (when the row is not `-1`) `drop_piece`.  `none` is a
rejected move. -/
def apply_move (board : Board) (col player : Int) : Option Board :=
  if is_valid_location board col then
    let row := get_next_open_row board col
    if row != -1 then some (drop_piece board row col player) else none
  else none

/-! ## mcts.c -/

/-- The structure `MCTSNode`.  `children` holds `children[0 .. num_children)` and
`untried_moves` holds `untried_moves[0 .. num_untried_moves)`; pointers are arena indices. -/
structure MCTSNode where
  board : Board
  player : Int
  move : Int
  parent : Option Nat
  children : List Nat
  wins : Int
  visits : Int
  untried_moves : List Int
  is_terminal : Bool
  terminal_winner : Int

/-- The heap of nodes: the node allocated k-th (counting from zero) has address `k`. -/
abbrev Tree := List MCTSNode

/-- The environment of a run: what each call of `rand()` returns and whether each call of
`malloc()` succeeds. -/
structure Oracle where
  rand : Nat → Nat
  malloc_ok : Nat → Bool

/-- How many calls of `rand()` and of `malloc()` have been made so far. -/
structure Calls where
  rands : Nat
  mallocs : Nat

/-- The `double` operations used by `ucb1` and `select_node`. -/
structure DoubleOps where
  D : Type
  neg_one : D
  dbl_max : D
  ratio : Int → Int → D
  ucb : Int → Int → Int → D
  gt : D → D → Bool

/-- The largest value of a C `int`, the type of the counters `wins` and `visits` and of the
loop variable of the search. -/
def INT_MAX : Int := 2147483647

/-- A C `double` (IEEE 754 binary64): a NaN, an infinity with its sign, or a finite value
given as a sign and a magnitude (a zero keeps its sign). -/
inductive F64
  | nan
  | inf (neg : Bool)
  | fin (neg : Bool) (mag : ℚ)
deriving DecidableEq, Repr

/-- Rounding of a positive rational to the nearest binary64 magnitude, ties to even: the
spacing is `2 ^ (e - 52)` where `e` is the binary exponent of `q`, and not below that of
the subnormal numbers. -/
def round_mag (q : ℚ) : ℚ :=
  let e : Int := max (Int.log 2 q) (-1022)
  let ulp : ℚ := (2 : ℚ) ^ (e - 52)
  let n : ℚ := q / ulp
  let f : Int := ⌊n⌋
  let r : ℚ := n - f
  let m : Int :=
    if r < 1 / 2 then f
    else if 1 / 2 < r then f + 1
    else if f % 2 = 0 then f else f + 1
  (m : ℚ) * ulp

/-- The `double` of sign `neg` nearest to the magnitude `q ≥ 0`; a magnitude that rounds
to `2 ^ 1024` overflows to the infinity. -/
def F64.of_mag (neg : Bool) (q : ℚ) : F64 :=
  if q = 0 then F64.fin neg 0
  else if (2 : ℚ) ^ (1024 : Int) ≤ round_mag q then F64.inf neg
  else F64.fin neg (round_mag q)

/-- The `double` nearest to a rational. -/
def F64.of_rat (q : ℚ) : F64 := if q < 0 then F64.of_mag true (-q) else F64.of_mag false q

/-- The conversion `(double)i` of an integer. -/
def F64.of_int (i : Int) : F64 := F64.of_rat (i : ℚ)

/-- The rational value of a finite `double`. -/
def signed (neg : Bool) (q : ℚ) : ℚ := if neg then -q else q

/-- The sum `x + y` of two `double`s. -/
def F64.add : F64 → F64 → F64
  | F64.nan, _ => F64.nan
  | _, F64.nan => F64.nan
  | F64.inf a, F64.inf b => if a = b then F64.inf a else F64.nan
  | F64.inf a, F64.fin _ _ => F64.inf a
  | F64.fin _ _, F64.inf b => F64.inf b
  | F64.fin a x, F64.fin b y =>
    if signed a x + signed b y = 0 then F64.fin (a && b) 0
    else F64.of_rat (signed a x + signed b y)

/-- The product `x * y` of two `double`s. -/
def F64.mul : F64 → F64 → F64
  | F64.nan, _ => F64.nan
  | _, F64.nan => F64.nan
  | F64.inf a, F64.inf b => F64.inf (xor a b)
  | F64.inf a, F64.fin b y => if y = 0 then F64.nan else F64.inf (xor a b)
  | F64.fin a x, F64.inf b => if x = 0 then F64.nan else F64.inf (xor a b)
  | F64.fin a x, F64.fin b y => F64.of_mag (xor a b) (x * y)

/-- The quotient `x / y` of two `double`s. -/
def F64.div : F64 → F64 → F64
  | F64.nan, _ => F64.nan
  | _, F64.nan => F64.nan
  | F64.inf _, F64.inf _ => F64.nan
  | F64.inf a, F64.fin b _ => F64.inf (xor a b)
  | F64.fin a _, F64.inf b => F64.fin (xor a b) 0
  | F64.fin a x, F64.fin b y =>
    if y = 0 then (if x = 0 then F64.nan else F64.inf (xor a b))
    else F64.of_mag (xor a b) (x / y)

/-- A rational between the floor and the ceiling of `2 ^ k * sqrt q`, divided by `2 ^ k`,
with `k` so large that it rounds to the same `double` as `sqrt q`: the integer square root,
plus one half when the root is not exact. -/
def sqrt_approx (q : ℚ) : ℚ :=
  let k : Nat := (64 - Int.log 2 q / 2).toNat
  let big : ℚ := q * (4 : ℚ) ^ k
  let a : Nat := Nat.sqrt ⌊big⌋₊
  ((a : ℚ) + (if ((a * a : Nat) : ℚ) = big then 0 else 1 / 2)) / (2 : ℚ) ^ k

/-- The function `sqrt` of `math.h`, correctly rounded. -/
def F64.sqrt : F64 → F64
  | F64.nan => F64.nan
  | F64.inf neg => if neg then F64.nan else F64.inf false
  | F64.fin neg x =>
    if x = 0 then F64.fin neg 0
    else if neg then F64.nan
    else F64.of_mag false (sqrt_approx x)

/-- The first `k` terms of the series `z + z^3/3 + z^5/5 + ...` of `artanh z`. -/
def atanh_sum (z : ℚ) : Nat → ℚ
  | 0 => 0
  | k + 1 => atanh_sum z k + z ^ (2 * k + 1) / ((2 * k + 1 : Nat) : ℚ)

/-- The number of terms of the series used for the logarithm: with `z ≤ 1/3` the rest of
the series is below `2 ^ (-128)`. -/
def LOG_TERMS : Nat := 40

/-- A rational within `2 ^ (-115)` of the natural logarithm of `q > 0`: with
`q = 2 ^ e * m` and `1 ≤ m < 2`, `ln q = e * ln 2 + ln m` and
`ln m = 2 * artanh ((m - 1) / (m + 1))`, `ln 2 = 2 * artanh (1 / 3)`. -/
def ln_approx (q : ℚ) : ℚ :=
  let e : Int := Int.log 2 q
  let m : ℚ := q / (2 : ℚ) ^ e
  (e : ℚ) * (2 * atanh_sum (1 / 3) LOG_TERMS) + 2 * atanh_sum ((m - 1) / (m + 1)) LOG_TERMS

/-- The function `log` of `math.h` (the natural logarithm).  The C standard leaves its
accuracy to the library; the value taken here is the `double` nearest to the logarithm. -/
def F64.log : F64 → F64
  | F64.nan => F64.nan
  | F64.inf neg => if neg then F64.nan else F64.inf false
  | F64.fin neg x =>
    if x = 0 then F64.inf true
    else if neg then F64.nan
    else F64.of_rat (ln_approx x)

/-- The comparison `x > y` of two `double`s: false when one of them is a NaN. -/
def F64.gt : F64 → F64 → Bool
  | F64.nan, _ => false
  | _, F64.nan => false
  | F64.inf a, F64.inf b => !a && b
  | F64.inf a, F64.fin _ _ => !a
  | F64.fin _ _, F64.inf b => b
  | F64.fin a x, F64.fin b y => decide (signed b y < signed a x)

/-- The constant `UCB_C` of `defines.h`: the `double` nearest to `1.414`. -/
def UCB_C : F64 := F64.of_rat (1414 / 1000)

/-- The C semantics of the `double` operations: `-1.0`, `DBL_MAX`,
`(double)wins / visits`, `(double)wins / visits + UCB_C * sqrt(log((double)pv) / visits)`
with `UCB_C = 1.414`, and `>`, in IEEE 754 binary64 arithmetic with rounding to nearest. -/
def c_double : DoubleOps where
  D := F64
  neg_one := F64.fin true 1
  dbl_max := F64.fin false ((2 : ℚ) ^ (1024 : Int) - (2 : ℚ) ^ (971 : Int))
  ratio := fun wins visits => F64.div (F64.of_int wins) (F64.of_int visits)
  ucb := fun wins visits pv =>
    F64.add (F64.div (F64.of_int wins) (F64.of_int visits))
      (F64.mul UCB_C (F64.sqrt (F64.div (F64.log (F64.of_int pv)) (F64.of_int visits))))
  gt := F64.gt

/-- The fields `create_node` writes once the node itself is allocated; `ok_moves` tells
whether the `malloc` inside `get_valid_moves` succeeds (it is only called for a
non-terminal board). -/
def new_node (ok_moves : Bool) (parent : Option Nat) (move : Int) (board : Board)
    (player : Int) : MCTSNode :=
  let winner := check_game_over (copy_board board)
  if winner != -1 then
    { board := copy_board board, player := player, move := move, parent := parent,
      children := [], wins := 0, visits := 0, untried_moves := [],
      is_terminal := true, terminal_winner := winner }
  else
    { board := copy_board board, player := player, move := move, parent := parent,
      children := [], wins := 0, visits := 0,
      untried_moves := (get_valid_moves ok_moves (copy_board board)).getD [],
      is_terminal := false, terminal_winner := -1 }

/-- The function `create_node`: returns the heap, the call counters and the new pointer
(`none` is `NULL`, when `malloc` fails). -/
def create_node (o : Oracle) (t : Tree) (s : Calls) (parent : Option Nat) (move : Int)
    (board : Board) (player : Int) : Tree × Calls × Option Nat :=
  if o.malloc_ok s.mallocs then
    if check_game_over (copy_board board) != -1 then
      (t ++ [new_node true parent move board player],
        { rands := s.rands, mallocs := s.mallocs + 1 }, some t.length)
    else
      (t ++ [new_node (o.malloc_ok (s.mallocs + 1)) parent move board player],
        { rands := s.rands, mallocs := s.mallocs + 2 }, some t.length)
  else (t, { rands := s.rands, mallocs := s.mallocs + 1 }, none)

/-- The function `ucb1` on the node at address `i`; `none` when a pointer it follows
is dangling. -/
def ucb1 (fl : DoubleOps) (t : Tree) (i : Nat) : Option fl.D :=
  match t[i]? with
  | none => none
  | some node =>
    if node.visits == 0 then some fl.dbl_max
    else
      match node.parent with
      | none => some (fl.ratio node.wins node.visits)
      | some p =>
        match t[p]? with
        | none => none
        | some pn =>
          if pn.visits == 0 then some (fl.ratio node.wins node.visits)
          else some (fl.ucb node.wins node.visits pn.visits)

/-- The `for` loop of `select_node` over `children[i]`, carrying `best_score` and
`best_child`. -/
def best_child_loop (fl : DoubleOps) (t : Tree) :
    List Nat → fl.D → Option Nat → Option (Option Nat)
  | [], _, best => some best
  | c :: cs, best_score, best =>
    match ucb1 fl t c with
    | none => none
    | some score =>
      if fl.gt score best_score then best_child_loop fl t cs score (some c)
      else best_child_loop fl t cs best_score best

/-- The function `expand_node` on the node at address `i`.  When the `children` array is
already full, the C code frees the new node and still returns its pointer; here the node
stays on the heap, linked to no parent's `children`. -/
def expand_node (o : Oracle) (t : Tree) (s : Calls) (i : Nat) : Option (Tree × Calls × Nat) :=
  match t[i]? with
  | none => none
  | some node =>
    if node.is_terminal || node.untried_moves.length == 0 then some (t, s, i)
    else
      let move_index := o.rand s.rands % node.untried_moves.length
      let s1 : Calls := { rands := s.rands + 1, mallocs := s.mallocs }
      match node.untried_moves[move_index]? with
      | none => none
      | some move_col =>
        let next_board := copy_board node.board
        let row := get_next_open_row next_board move_col
        if row != -1 then
          let next_board := drop_piece next_board row move_col node.player
          let next_player := if node.player == PLAYER1 then PLAYER2 else PLAYER1
          match create_node o t s1 (some i) move_col next_board next_player with
          | (t1, s2, none) => some (t1, s2, i)
          | (t1, s2, some new_child) =>
            let children :=
              if node.children.length < COLS then node.children ++ [new_child]
              else node.children
            let untried :=
              (node.untried_moves.set move_index
                (node.untried_moves.getD (node.untried_moves.length - 1) 0)).dropLast
            some (t1.set i { node with children := children, untried_moves := untried },
              s2, new_child)
        else some (t, s1, i)

/-- The function `select_node`, started at address `i`; each pass of its `while` loop
uses one unit of `fuel`. -/
def select_node (fl : DoubleOps) (o : Oracle) :
    Nat → Tree → Calls → Nat → Option (Tree × Calls × Nat)
  | 0, _, _, _ => none
  | fuel + 1, t, s, i =>
    match t[i]? with
    | none => none
    | some node =>
      if node.is_terminal then some (t, s, i)
      else if node.untried_moves.length > 0 then expand_node o t s i
      else if node.children.length == 0 then some (t, s, i)
      else
        match best_child_loop fl t node.children fl.neg_one none with
        | none => none
        | some none => some (t, s, i)
        | some (some best_child) => select_node fl o fuel t s best_child

/-- The `while (winner == -1)` loop of `simulate_random_playout`; each pass uses one
unit of `fuel`. -/
def playout_loop (o : Oracle) : Nat → Board → Int → Int → Calls → Option (Int × Calls)
  | 0, _, _, _, _ => none
  | fuel + 1, temp_board, current_player, winner, s =>
    if winner != -1 then some (winner, s)
    else
      let valid_moves := get_valid_moves (o.malloc_ok s.mallocs) temp_board
      let s1 : Calls := { rands := s.rands, mallocs := s.mallocs + 1 }
      if num_moves valid_moves == 0 || valid_moves.isNone then
        let w := check_game_over temp_board
        some (if w == -1 then 0 else w, s1)
      else
        let s2 : Calls := { rands := s1.rands + 1, mallocs := s1.mallocs }
        match (valid_moves.getD [])[o.rand s1.rands % num_moves valid_moves]? with
        | none => none
        | some random_move_col =>
          let row := get_next_open_row temp_board random_move_col
          if row != -1 then
            let temp_board := drop_piece temp_board row random_move_col current_player
            let winner := check_game_over temp_board
            let current_player := if current_player == PLAYER1 then PLAYER2 else PLAYER1
            playout_loop o fuel temp_board current_player winner s2
          else some (0, s2)

/-- A bound on the passes of the playout loop: one per cell of the board, one more for a
first mover that is not a player, and the final test of the loop condition. -/
def PLAYOUT_FUEL : Nat := ROWS * COLS + 2

/-- The function `simulate_random_playout` on the node at address `i`. -/
def simulate_random_playout (o : Oracle) (t : Tree) (s : Calls) (i : Nat) :
    Option (Int × Calls) :=
  match t[i]? with
  | none => none
  | some node =>
    playout_loop o PLAYOUT_FUEL (copy_board node.board) node.player node.terminal_winner s

/-- The `while (current_node != NULL)` loop of `backpropagate`; each pass uses one unit of
`fuel`. -/
def backpropagate_loop : Nat → Tree → Option Nat → Int → Option Tree
  | _, t, none, _ => some t
  | 0, _, some _, _ => none
  | fuel + 1, t, some i, simulation_winner =>
    match t[i]? with
    | none => none
    | some node =>
      let wins :=
        if simulation_winner != 0 && node.player != simulation_winner then node.wins + 1
        else node.wins
      backpropagate_loop fuel (t.set i { node with visits := node.visits + 1, wins := wins })
        node.parent simulation_winner

/-- The function `backpropagate` from the node at address `i`.  A parent chain without a
cycle has at most as many nodes as the heap. -/
def backpropagate (t : Tree) (i : Nat) (simulation_winner : Int) : Option Tree :=
  backpropagate_loop t.length t (some i) simulation_winner

/-- The main loop of `mcts_get_best_move`: `iters` rounds of selection, playout and
backpropagation.  A descent in a tree without a cycle passes at most as many nodes as
the heap holds. -/
def mcts_loop (fl : DoubleOps) (o : Oracle) : Nat → Tree → Calls → Nat → Option (Tree × Calls)
  | 0, t, s, _ => some (t, s)
  | n + 1, t, s, root =>
    match select_node fl o t.length t s root with
    | none => none
    | some (t1, s1, leaf) =>
      match simulate_random_playout o t1 s1 leaf with
      | none => none
      | some (simulation_result, s2) =>
        match backpropagate t1 leaf simulation_result with
        | none => none
        | some t2 => mcts_loop fl o n t2 s2 root

/-- The final `for` loop of `mcts_get_best_move` over the children of the root, carrying
`most_visits` and `best_child`. -/
def most_visited_loop (t : Tree) : List Nat → Int → Option Nat → Option (Option Nat)
  | [], _, best => some best
  | c :: cs, most_visits, best =>
    match t[c]? with
    | none => none
    | some child =>
      if child.visits > most_visits then most_visited_loop t cs child.visits (some c)
      else most_visited_loop t cs most_visits best

/-- The end of `mcts_get_best_move`: the move of the most visited child, or one of the
two fallbacks. -/
def choose_move (o : Oracle) (t : Tree) (s : Calls) (root : Nat) (current_board : Board) :
    Option Int :=
  match t[root]? with
  | none => none
  | some rn =>
    match most_visited_loop t rn.children (-1) none with
    | none => none
    | some (some best_child) =>
      match t[best_child]? with
      | none => none
      | some bc => some bc.move
    | some none =>
      if rn.untried_moves.length > 0 then
        rn.untried_moves[o.rand s.rands % rn.untried_moves.length]?
      else
        let valid := get_valid_moves (o.malloc_ok s.mallocs) current_board
        if num_moves valid > 0 then (valid.getD [])[0]? else some (-1)

/-- The function `mcts_get_best_move` with the iteration budget as an argument, run on a
fresh heap.  The result `none` means that the model got stuck (a dangling pointer or no
fuel left); `some (-1)` is the failure value of the C function. -/
def mcts_search (fl : DoubleOps) (o : Oracle) (iters : Nat) (current_board : Board)
    (current_player : Int) : Option Int :=
  match create_node o [] { rands := 0, mallocs := 0 } none (-1) current_board current_player with
  | (_, _, none) => some (-1)
  | (t, s, some root) =>
    match t[root]? with
    | none => none
    | some rn =>
      if rn.is_terminal then some (-1)
      else if rn.untried_moves.length == 0 && rn.children.length == 0 then some (-1)
      else
        match mcts_loop fl o iters t s root with
        | none => none
        | some (t1, s1) => choose_move o t1 s1 root current_board

/-- The function `mcts_get_best_move`: the budget is the constant `MCTS_ITERATIONS`. -/
def mcts_get_best_move (fl : DoubleOps) (o : Oracle) (current_board : Board)
    (current_player : Int) : Option Int :=
  mcts_search fl o MCTS_ITERATIONS current_board current_player

/-! ## Specification-side definitions -/

/-- The cell `(r, c)` is a cell of the board. -/
def InBounds (r c : Int) : Prop := 0 ≤ r ∧ r < ROWS ∧ 0 ≤ c ∧ c < COLS

/-- The `CONNECT_LEN` cells that start at `(r, c)` and advance by `(dr, dc)` are all cells
of the board and all hold `player`. -/
def IsWindow (board : Board) (player r c dr dc : Int) : Prop :=
  ∀ i : Int, 0 ≤ i → i < CONNECT_LEN →
    InBounds (r + i * dr) (c + i * dc) ∧ board (r + i * dr) (c + i * dc) = player

/-- Some window along a row `(0, 1)`, a column `(1, 0)`, a down-right diagonal `(1, 1)` or an
up-right diagonal `(-1, 1)` is filled by `player`. -/
def HasWindow (board : Board) (player : Int) : Prop :=
  ∃ r c : Int, IsWindow board player r c 0 1 ∨ IsWindow board player r c 1 0 ∨
    IsWindow board player r c 1 1 ∨ IsWindow board player r c (-1) 1

/-- Every cell of the top row is occupied. -/
def TopRowOccupied (board : Board) : Prop :=
  ∀ c : Int, 0 ≤ c → c < COLS → board 0 c ≠ EMPTY

/-- The mover after `turn`, as `main` and the search switch it:
`(turn == PLAYER1) ? PLAYER2 : PLAYER1`. -/
def other_player (turn : Int) : Int := if turn == PLAYER1 then PLAYER2 else PLAYER1

/-- The positions of a legal game with alternating turns: `LegalPosition board turn` says
that `board` is reached from the empty board by legal drops, the players alternating, no
move being made after `check_game_over` reports an end, and that `turn` is the next mover. -/
inductive LegalPosition : Board → Int → Prop
  | start (first : Int) (h : first = PLAYER1 ∨ first = PLAYER2) : LegalPosition init_board first
  | move (board : Board) (turn col : Int) (h : LegalPosition board turn)
      (hgo : check_game_over board = -1) (hvalid : is_valid_location board col = true) :
      LegalPosition (drop_piece board (get_next_open_row board col) col turn) (other_player turn)

/-- The test of `check_game_over` with the two players tried in the other order. -/
def check_game_over_swapped (board : Board) : Int :=
  if check_win board PLAYER2 then PLAYER2
  else if check_win board PLAYER1 then PLAYER1
  else if is_board_full board then 0
  else -1

/-- The node `n` stored at address `i` of the heap `t` is well linked: its parent has a
smaller address, its children have larger addresses, are nodes of the heap that point
back to `i` and were reached by a move that is legal on the board of `n`, and its
untried moves are legal on its board. -/
structure NodeOK (t : Tree) (i : Nat) (n : MCTSNode) : Prop where
  parent_lt : ∀ p, n.parent = some p → p < i
  child_gt : ∀ c ∈ n.children, i < c
  child_ok : ∀ c ∈ n.children, ∃ cn, t[c]? = some cn ∧ cn.parent = some i ∧
    is_valid_location n.board cn.move = true
  untried_ok : ∀ m ∈ n.untried_moves, is_valid_location n.board m = true

/-- Every node of the heap is well linked. -/
def TreeOK (t : Tree) : Prop := ∀ (i : Nat) (n : MCTSNode), t[i]? = some n → NodeOK t i n

/-- The fields of a node that are written once, by `create_node`, agree. -/
def SameStatic (n n' : MCTSNode) : Prop :=
  n'.board = n.board ∧ n'.player = n.player ∧ n'.move = n.move ∧ n'.parent = n.parent ∧
    n'.is_terminal = n.is_terminal ∧ n'.terminal_winner = n.terminal_winner

/-- The heap `t'` has every node of `t`, at the same address and with the same
write-once fields. -/
def Extends (t t' : Tree) : Prop :=
  t.length ≤ t'.length ∧ ∀ (j : Nat) (n : MCTSNode), t[j]? = some n → ∃ n', t'[j]? = some n' ∧ SameStatic n n'

/-- The number of cells of the board that hold `EMPTY`. -/
def empty_cells (board : Board) : Nat :=
  ((Finset.range ROWS ×ˢ Finset.range COLS).filter
    fun rc => board (rc.1 : Int) (rc.2 : Int) = EMPTY).card

/-- The parent chain: `OnChain t i j` says that `j` is reached from `i` by following
`parent` pointers zero or more times. -/
inductive OnChain (t : Tree) : Nat → Nat → Prop
  | here (i : Nat) : OnChain t i i
  | up (i p j : Nat) (n : MCTSNode) (hn : t[i]? = some n) (hp : n.parent = some p)
      (h : OnChain t p j) : OnChain t i j

/-- Every parent pointer leads to a smaller address, so parent chains have no cycle. -/
def ParentsBelow (t : Tree) : Prop :=
  ∀ (j : Nat) (n : MCTSNode), t[j]? = some n → ∀ p, n.parent = some p → p < j

/-- What one visit of backpropagation with outcome `w` does to a node, as the specification
words it: one more visit, and one more win when the outcome is decisive and the player
to move at the node is not the winner. -/
def credit (w : Int) (n : MCTSNode) : MCTSNode :=
  { n with visits := n.visits + 1, wins := n.wins + (if w ≠ 0 ∧ n.player ≠ w then 1 else 0) }

/-- Every field except the two counters agrees. -/
def SameLinks (n n' : MCTSNode) : Prop :=
  SameStatic n n' ∧ n'.children = n.children ∧ n'.untried_moves = n.untried_moves

/-- The position of the test scenario: the board is empty except for `PLAYER1` pieces in
column 3 at rows 5, 4 and 3. -/
def three_in_column_3 : Board :=
  fun r c => if c = 3 ∧ (r = 5 ∨ r = 4 ∨ r = 3) then PLAYER1 else EMPTY

/-- A run in which every allocation succeeds and `rand()` returns 0, except for its third
call, which returns 3. -/
def first_column_oracle : Oracle :=
  { rand := fun k => if k = 2 then 3 else 0, malloc_ok := fun _ => true }

/-- A run in which every allocation succeeds and `rand()` always returns 3. -/
def constant_three_oracle : Oracle :=
  { rand := fun _ => 3, malloc_ok := fun _ => true }

/-- A heap of two nodes: a root on the empty board and its child after a move in column 0. -/
def two_node_heap : Tree :=
  [ { new_node true none (-1) init_board PLAYER1 with children := [1] },
    new_node true (some 0) 0 (drop_piece init_board 5 0 PLAYER1) PLAYER2 ]


/-- The boards obtained from `board` by a sequence of legal drops: a column accepted by
`is_valid_location`, the row given by `get_next_open_row`, a piece of `PLAYER1` or
`PLAYER2` written by `drop_piece`. -/
inductive DropsFrom (board : Board) : Board → Prop
  | start : DropsFrom board board
  | drop (b : Board) (col player : Int) (h : DropsFrom board b)
      (hvalid : is_valid_location b col = true)
      (hplayer : player = PLAYER1 ∨ player = PLAYER2) :
      DropsFrom board (drop_piece b (get_next_open_row b col) col player)

/-- The board of the scenario with a fourth `PLAYER1` piece in column 3: a won position in
which every column is still open. -/
def won_in_column_3 : Board := drop_piece three_in_column_3 2 3 PLAYER1

/-- A run in which every allocation succeeds and `rand()` always returns 0. -/
def zero_oracle : Oracle :=
  { rand := fun _ => 0, malloc_ok := fun _ => true }

/-- The `visits` counter of the node at address `c` (0 when there is no such node). -/
def visits_at (t : Tree) (c : Nat) : Int :=
  match t[c]? with
  | some cn => cn.visits
  | none => 0

/-- The `move` field of the node at address `c` (`-1` when there is no such node). -/
def move_at (t : Tree) (c : Nat) : Int :=
  match t[c]? with
  | some cn => cn.move
  | none => -1

/-- The sum of the `visits` counters of the children of `n` in the heap `t`. -/
def children_visits (t : Tree) (n : MCTSNode) : Int :=
  (n.children.map (visits_at t)).sum

/-- The moves of the children of `n`, in child order, followed by its untried moves. -/
def node_moves (t : Tree) (n : MCTSNode) : List Int :=
  n.children.map (move_at t) ++ n.untried_moves

/-- Every node that is not terminal accounts for each legal column of its board exactly once,
as the move of a child or as an untried move.  This holds in a search without allocation
failure. -/
def FullInv (t : Tree) : Prop :=
  ∀ (i : Nat) (n : MCTSNode), t[i]? = some n → n.is_terminal = false →
    List.Perm (node_moves t n) (valid_columns n.board)

/-- The one property of the `double` operations that the counting of visits relies on:
every score that `ucb1` can return for counters of type `int` with `0 ≤ wins ≤ visits`,
`visits > 0` and parent visits `> 0` compares greater than the initial `best_score = -1.0`. -/
def ScoresBeatInitial (fl : DoubleOps) : Prop :=
  fl.gt fl.dbl_max fl.neg_one = true ∧
  (∀ w v : Int, 0 ≤ w → w ≤ v → 0 < v → v ≤ INT_MAX →
    fl.gt (fl.ratio w v) fl.neg_one = true) ∧
  (∀ w v pv : Int, 0 ≤ w → w ≤ v → 0 < v → v ≤ INT_MAX → 0 < pv → pv ≤ INT_MAX →
    fl.gt (fl.ucb w v pv) fl.neg_one = true)

/-- No `visits` counter of the heap exceeds `K`. -/
def VisitsLe (t : Tree) (K : Int) : Prop :=
  ∀ (i : Nat) (n : MCTSNode), t[i]? = some n → n.visits ≤ K

/-- What holds of every node `n` at address `i` of a heap built by the search: its counters
satisfy `0 ≤ wins ≤ visits`; it has at most as many children and untried moves together as
its board has legal columns; its terminal flag and terminal winner are those of
`check_game_over` on its board; a terminal node has neither children nor untried moves;
every node whose parent pointer is `i` is listed once in `children`; and the node without
parent is the root, at address 0. -/
structure NodeInv (t : Tree) (i : Nat) (n : MCTSNode) : Prop where
  counts : 0 ≤ n.wins ∧ n.wins ≤ n.visits
  budget : n.children.length + n.untried_moves.length ≤ (valid_columns n.board).length
  terminal_iff : n.is_terminal = true ↔ check_game_over n.board ≠ -1
  winner : n.terminal_winner = check_game_over n.board
  terminal_leaf : n.is_terminal = true → n.children = [] ∧ n.untried_moves = []
  linked : ∀ (j : Nat) (m : MCTSNode), t[j]? = some m → m.parent = some i → j ∈ n.children
  nodup : n.children.Nodup
  root : n.parent = none ↔ i = 0

/-- The invariant of the heaps built by the search. -/
def HeapInv (t : Tree) : Prop :=
  TreeOK t ∧ ∀ (i : Nat) (n : MCTSNode), t[i]? = some n → NodeInv t i n

/-- The heap `t'` has every node of `t`, at the same address, with the same write-once
fields and the same counters. -/
def Grows (t t' : Tree) : Prop :=
  t.length ≤ t'.length ∧ ∀ (j : Nat) (n : MCTSNode), t[j]? = some n →
    ∃ n' : MCTSNode, t'[j]? = some n' ∧ SameStatic n n' ∧ n'.wins = n.wins ∧
      n'.visits = n.visits

/-- The heap after a successful expansion, as the specification describes it: the node at
address `i` loses the untried move `m` at index `k` and gets the new last address as its
last child, and the child (created with `ok_moves` telling whether its list of valid moves
could be allocated) is stored at the end of the heap. -/
def expanded_heap (t : Tree) (i : Nat) (node : MCTSNode) (k : Nat) (m : Int)
    (ok_moves : Bool) : Tree :=
  (t ++ [new_node ok_moves (some i) m
      (drop_piece node.board (get_next_open_row node.board m) m node.player)
      (other_player node.player)]).set i
    { node with
      children := node.children ++ [t.length],
      untried_moves :=
        (node.untried_moves.set k (node.untried_moves.getD (node.untried_moves.length - 1) 0)).dropLast }

/-- One pass of the body of the loop of `mcts_get_best_move`: selection, playout,
backpropagation. -/
def mcts_round (fl : DoubleOps) (o : Oracle) (t : Tree) (s : Calls) (root : Nat) :
    Option (Tree × Calls) :=
  match select_node fl o t.length t s root with
  | none => none
  | some (t1, s1, leaf) =>
    match simulate_random_playout o t1 s1 leaf with
    | none => none
    | some (simulation_result, s2) =>
      match backpropagate t1 leaf simulation_result with
      | none => none
      | some t2 => some (t2, s2)

/-- What one pass of the loop does to a heap with the invariant: the selection returns
`leaf` in a heap `t1` that has the invariant and keeps the counters of the old nodes, the
playout returns `w`, and the backpropagation credits exactly the parent chain of `leaf`. -/
def RoundFacts (fl : DoubleOps) (o : Oracle) (t : Tree) (s : Calls) (t2 : Tree) (s2 : Calls) :
    Prop :=
  ∃ (t1 : Tree) (s1 : Calls) (leaf : Nat) (w : Int),
    select_node fl o t.length t s 0 = some (t1, s1, leaf) ∧
    simulate_random_playout o t1 s1 leaf = some (w, s2) ∧
    backpropagate t1 leaf w = some t2 ∧
    HeapInv t1 ∧ Grows t t1 ∧ leaf < t1.length ∧ t2.length = t1.length ∧
    (∀ (j : Nat) (n : MCTSNode), t1[j]? = some n →
      (OnChain t1 leaf j → t2[j]? = some (credit w n)) ∧
      (¬ OnChain t1 leaf j → t2[j]? = some n)) ∧
    HeapInv t2

/-- The heaps built by `create_node` and changed by `expand_node` only. -/
inductive BuiltHeap (o : Oracle) : Tree → Prop
  | empty : BuiltHeap o []
  | create (t : Tree) (s : Calls) (parent : Option Nat) (move : Int) (board : Board)
      (player : Int) (h : BuiltHeap o t) :
      BuiltHeap o (create_node o t s parent move board player).1
  | expand (t : Tree) (s : Calls) (i : Nat) (t' : Tree) (s' : Calls) (leaf : Nat)
      (h : BuiltHeap o t) (he : expand_node o t s i = some (t', s', leaf)) : BuiltHeap o t'

/-- The number `num_untried_moves + num_children` of a node. -/
def move_count (n : MCTSNode) : Nat := n.untried_moves.length + n.children.length

/-- A random playout as the specification describes it: `PlayoutRun o b p k final k'` says
that, from the board `b` with `p` to move and `k` random values already drawn, dropping a
piece in the legal column picked by each next random value, the movers alternating, the
first board on which the game is over is `final`, reached when `k'` values are drawn. -/
inductive PlayoutRun (o : Oracle) : Board → Int → Nat → Board → Nat → Prop
  | done (b : Board) (p : Int) (k : Nat) (h : check_game_over b ≠ -1) : PlayoutRun o b p k b k
  | move (b : Board) (p : Int) (k : Nat) (col : Int) (final : Board) (k' : Nat)
      (h : check_game_over b = -1)
      (hcol : (valid_columns b)[o.rand k % (valid_columns b).length]? = some col)
      (hrest : PlayoutRun o (drop_piece b (get_next_open_row b col) col p) (other_player p)
        (k + 1) final k') : PlayoutRun o b p k final k'

/-- A board whose column 0 is full, the two players alternating from the bottom, and whose
other columns are empty. -/
def column_0_full : Board :=
  fun r c => if c = 0 then (if r % 2 = 1 then PLAYER1 else PLAYER2) else EMPTY

/-- The heap that holds only a fresh root on the empty board, with `PLAYER1` to move. -/
def root_heap : Tree := [new_node true none (-1) init_board PLAYER1]

/-- No empty cell of the board lies below an occupied cell of the same column (row 0 is
the top row, row `ROWS - 1` the bottom row). -/
def GravityConsistent (b : Board) : Prop :=
  ∀ r r' c : Int, 0 ≤ r → r < r' → r' < ROWS → 0 ≤ c → c < COLS →
    b r c ≠ EMPTY → b r' c ≠ EMPTY

/-- The heaps of a search: the root built by `create_node(NULL, -1, board, player)` on an
empty heap, then any sequence of calls of `expand_node` and of `backpropagate` (on any node,
with any outcome) that return. -/
inductive SearchHeap (o : Oracle) : Tree → Prop
  | root (s : Calls) (board : Board) (player : Int) :
      SearchHeap o (create_node o [] s none (-1) board player).1
  | expand (t : Tree) (s : Calls) (i : Nat) (t' : Tree) (s' : Calls) (leaf : Nat)
      (h : SearchHeap o t) (he : expand_node o t s i = some (t', s', leaf)) : SearchHeap o t'
  | backprop (t : Tree) (leaf : Nat) (winner : Int) (t' : Tree) (h : SearchHeap o t)
      (hb : backpropagate t leaf winner = some t') : SearchHeap o t'

/-- The `1` that a node other than the root got by the pass that created it; the root was
created before the first pass. -/
def own_visit (i : Nat) : Int := if i = 0 then 0 else 1

/-- The accounting of visits between two passes of the search loop: every node other than
the root has been visited, and the visits of a node that is not terminal are its own visit
(for a node other than the root) plus the visits of its children. -/
def VisitInv (t : Tree) : Prop :=
  ∀ (i : Nat) (n : MCTSNode), t[i]? = some n →
    (i ≠ 0 → 1 ≤ n.visits) ∧
    (n.is_terminal = false → n.visits = own_visit i + children_visits t n)

/-- The accounting of visits inside a pass, after the selection returned `leaf` and before
the backpropagation: every node but `leaf` is as between two passes, and `leaf` lacks the
visit that the backpropagation is about to give it. -/
def VisitPre (t : Tree) (leaf : Nat) : Prop :=
  (∀ (i : Nat) (n : MCTSNode), t[i]? = some n → i ≠ leaf →
    (i ≠ 0 → 1 ≤ n.visits) ∧
    (n.is_terminal = false → n.visits = own_visit i + children_visits t n)) ∧
  (∀ n : MCTSNode, t[leaf]? = some n → n.is_terminal = false →
    n.visits + 1 = own_visit leaf + children_visits t n)

/-- The `double` `x` is finite, not negative, and its value lies in `[lo, hi]`. -/
def F64.Within (x : F64) (lo hi : ℚ) : Prop :=
  ∃ r : ℚ, x = F64.fin false r ∧ lo ≤ r ∧ r ≤ hi

/-! ## The arithmetic of `double` -/

theorem two_zpow_pos (k : Int) : (0 : ℚ) < (2 : ℚ) ^ k := zpow_pos (by norm_num) k

theorem two_zpow_le {j k : Int} (h : j ≤ k) : (2 : ℚ) ^ j ≤ (2 : ℚ) ^ k :=
  zpow_le_zpow_right₀ (by norm_num) h

theorem int_log_two_le (q : ℚ) (k : Int) (hq : 0 < q) (hk : q ≤ (2 : ℚ) ^ k) :
    Int.log 2 q ≤ k := by
  have h1 : q < ((2 : ℕ) : ℚ) ^ (k + 1) := by
    have : (2 : ℚ) ^ k < (2 : ℚ) ^ (k + 1) := zpow_lt_zpow_right₀ (by norm_num) (by omega)
    simpa using lt_of_le_of_lt hk this
  have := (Int.lt_zpow_iff_log_lt (by norm_num) hq).1 h1
  omega

theorem two_zpow_int_log_le (q : ℚ) (hq : 0 < q) : (2 : ℚ) ^ Int.log 2 q ≤ q := by
  simpa using Int.zpow_log_le_self (b := 2) (r := q) (by norm_num) hq

theorem int_log_two_nonneg (q : ℚ) (hq : 1 ≤ q) : 0 ≤ Int.log 2 q := by
  have hpos : 0 < q := lt_of_lt_of_le one_pos hq
  apply (Int.zpow_le_iff_le_log (b := 2) (by norm_num) hpos).1
  simpa using hq

/-- The rounding of a positive rational stays below every power of two above it, and
above 1 when the rational is. -/
theorem round_mag_bounds (q : ℚ) (k : Int) (hq : 0 < q) (hk : q ≤ (2 : ℚ) ^ k)
    (hk0 : -1022 ≤ k) :
    0 ≤ round_mag q ∧ round_mag q ≤ (2 : ℚ) ^ k ∧ (1 ≤ q → 1 ≤ round_mag q) := by
  have hlog := int_log_two_le q k hq hk
  have hpos_ulp : (0 : ℚ) < (2 : ℚ) ^ (max (Int.log 2 q) (-1022) - 52) := two_zpow_pos _
  have he_le : max (Int.log 2 q) (-1022) ≤ k := max_le hlog hk0
  have hn0 : 0 ≤ q / (2 : ℚ) ^ (max (Int.log 2 q) (-1022) - 52) :=
    div_nonneg (le_of_lt hq) (le_of_lt hpos_ulp)
  have hf0 : 0 ≤ ⌊q / (2 : ℚ) ^ (max (Int.log 2 q) (-1022) - 52)⌋ := Int.floor_nonneg.2 hn0
  have hfle := Int.floor_le (q / (2 : ℚ) ^ (max (Int.log 2 q) (-1022) - 52))
  -- the value of the rounded integer
  have hm : ∀ m : Int,
      (m = ⌊q / (2 : ℚ) ^ (max (Int.log 2 q) (-1022) - 52)⌋ ∨
        (m = ⌊q / (2 : ℚ) ^ (max (Int.log 2 q) (-1022) - 52)⌋ + 1 ∧
          (⌊q / (2 : ℚ) ^ (max (Int.log 2 q) (-1022) - 52)⌋ : ℚ) <
            q / (2 : ℚ) ^ (max (Int.log 2 q) (-1022) - 52))) →
      0 ≤ (m : ℚ) * (2 : ℚ) ^ (max (Int.log 2 q) (-1022) - 52) ∧
      (m : ℚ) * (2 : ℚ) ^ (max (Int.log 2 q) (-1022) - 52) ≤ (2 : ℚ) ^ k ∧
      (1 ≤ q → 1 ≤ (m : ℚ) * (2 : ℚ) ^ (max (Int.log 2 q) (-1022) - 52)) := by
    intro m hmc
    have hmf : ⌊q / (2 : ℚ) ^ (max (Int.log 2 q) (-1022) - 52)⌋ ≤ m := by
      rcases hmc with e | ⟨e, _⟩ <;> omega
    have hm0 : (0 : ℚ) ≤ (m : ℚ) := by exact_mod_cast le_trans hf0 hmf
    refine ⟨mul_nonneg hm0 (le_of_lt hpos_ulp), ?_, ?_⟩
    · -- upper bound
      have hexp : 0 ≤ k - max (Int.log 2 q) (-1022) + 52 := by omega
      have hM : (((2 : Int) ^ (k - max (Int.log 2 q) (-1022) + 52).toNat : Int) : ℚ) *
          (2 : ℚ) ^ (max (Int.log 2 q) (-1022) - 52) = (2 : ℚ) ^ k := by
        push_cast
        rw [← zpow_natCast, Int.toNat_of_nonneg hexp, ← zpow_add₀ (by norm_num)]
        congr 1
        omega
      have hnM : q / (2 : ℚ) ^ (max (Int.log 2 q) (-1022) - 52) ≤
          (((2 : Int) ^ (k - max (Int.log 2 q) (-1022) + 52).toNat : Int) : ℚ) := by
        rw [div_le_iff₀ hpos_ulp, hM]
        exact hk
      have hmM : m ≤ (2 : Int) ^ (k - max (Int.log 2 q) (-1022) + 52).toNat := by
        rcases hmc with e | ⟨e, hlt⟩
        · rw [e]
          exact_mod_cast le_trans hfle hnM
        · rw [e]
          have : (⌊q / (2 : ℚ) ^ (max (Int.log 2 q) (-1022) - 52)⌋ : ℚ) <
              (((2 : Int) ^ (k - max (Int.log 2 q) (-1022) + 52).toNat : Int) : ℚ) :=
            lt_of_lt_of_le hlt hnM
          have : ⌊q / (2 : ℚ) ^ (max (Int.log 2 q) (-1022) - 52)⌋ <
              (2 : Int) ^ (k - max (Int.log 2 q) (-1022) + 52).toNat := by exact_mod_cast this
          omega
      rw [← hM]
      exact mul_le_mul_of_nonneg_right (by exact_mod_cast hmM) (le_of_lt hpos_ulp)
    · intro h1
      have hl0 := int_log_two_nonneg q h1
      have hmax : max (Int.log 2 q) (-1022) = Int.log 2 q := max_eq_left (by omega)
      rw [hmax] at hmf ⊢
      have hcast : (((2 : Int) ^ 52 : Int) : ℚ) = (2 : ℚ) ^ (52 : Int) := by norm_num
      have hP : (2 : ℚ) ^ (52 : Int) * (2 : ℚ) ^ (Int.log 2 q - 52) =
          (2 : ℚ) ^ Int.log 2 q := by
        rw [← zpow_add₀ (by norm_num)]
        congr 1
        omega
      have hPn : (((2 : Int) ^ 52 : Int) : ℚ) ≤ q / (2 : ℚ) ^ (Int.log 2 q - 52) := by
        rw [hcast, le_div_iff₀ (two_zpow_pos _), hP]
        exact two_zpow_int_log_le q (lt_of_lt_of_le one_pos h1)
      have hPf : (2 : Int) ^ 52 ≤ ⌊q / (2 : ℚ) ^ (Int.log 2 q - 52)⌋ := Int.le_floor.2 hPn
      have hPm : (2 : ℚ) ^ (52 : Int) ≤ (m : ℚ) := by
        rw [← hcast]
        exact_mod_cast le_trans hPf hmf
      calc (1 : ℚ) = (2 : ℚ) ^ (0 : Int) := by simp
        _ ≤ (2 : ℚ) ^ Int.log 2 q := two_zpow_le hl0
        _ = (2 : ℚ) ^ (52 : Int) * (2 : ℚ) ^ (Int.log 2 q - 52) := hP.symm
        _ ≤ (m : ℚ) * (2 : ℚ) ^ (Int.log 2 q - 52) :=
          mul_le_mul_of_nonneg_right hPm (le_of_lt (two_zpow_pos _))
  unfold round_mag
  simp only []
  apply hm
  split_ifs with h1 h2 h3
  · exact Or.inl rfl
  · right
    refine ⟨rfl, ?_⟩
    linarith
  · exact Or.inl rfl
  · right
    refine ⟨rfl, ?_⟩
    linarith

theorem of_mag_within (q : ℚ) (k : Int) (h0 : 0 ≤ q) (hk : q ≤ (2 : ℚ) ^ k)
    (hk0 : -1022 ≤ k) (hk1 : k ≤ 1023) :
    F64.Within (F64.of_mag false q) 0 ((2 : ℚ) ^ k) ∧
      (1 ≤ q → F64.Within (F64.of_mag false q) 1 ((2 : ℚ) ^ k)) := by
  unfold F64.of_mag
  by_cases hq : q = 0
  · rw [if_pos hq]
    refine ⟨⟨0, rfl, le_refl 0, le_of_lt (two_zpow_pos k)⟩, ?_⟩
    intro h1
    rw [hq] at h1
    exact absurd h1 (by norm_num)
  · rw [if_neg hq]
    have hpos : 0 < q := lt_of_le_of_ne h0 (Ne.symm hq)
    obtain ⟨h1, h2, h3⟩ := round_mag_bounds q k hpos hk hk0
    have hlt : ¬ (2 : ℚ) ^ (1024 : Int) ≤ round_mag q := by
      intro hge
      have : (2 : ℚ) ^ k < (2 : ℚ) ^ (1024 : Int) :=
        zpow_lt_zpow_right₀ (by norm_num) (by omega)
      linarith
    rw [if_neg hlt]
    exact ⟨⟨_, rfl, h1, h2⟩, fun hq1 => ⟨_, rfl, h3 hq1, h2⟩⟩

theorem of_rat_within (q : ℚ) (k : Int) (h0 : 0 ≤ q) (hk : q ≤ (2 : ℚ) ^ k)
    (hk0 : -1022 ≤ k) (hk1 : k ≤ 1023) :
    F64.Within (F64.of_rat q) 0 ((2 : ℚ) ^ k) ∧
      (1 ≤ q → F64.Within (F64.of_rat q) 1 ((2 : ℚ) ^ k)) := by
  unfold F64.of_rat
  rw [if_neg (not_lt.2 h0)]
  exact of_mag_within q k h0 hk hk0 hk1

/-- The conversion of a counter to `double` is finite and keeps `0 ≤ i` and `1 ≤ i`. -/
theorem of_int_within (i : Int) (h0 : 0 ≤ i) (h1 : i ≤ INT_MAX) :
    F64.Within (F64.of_int i) 0 ((2 : ℚ) ^ (31 : Int)) ∧
      (1 ≤ i → F64.Within (F64.of_int i) 1 ((2 : ℚ) ^ (31 : Int))) := by
  have hq0 : (0 : ℚ) ≤ (i : ℚ) := by exact_mod_cast h0
  have hq1 : (i : ℚ) ≤ (2 : ℚ) ^ (31 : Int) := by
    have : (i : ℚ) ≤ (2147483647 : ℚ) := by
      unfold INT_MAX at h1
      exact_mod_cast h1
    have h2 : (2 : ℚ) ^ (31 : Int) = 2147483648 := by norm_num
    rw [h2]
    linarith
  obtain ⟨ha, hb⟩ := of_rat_within (i : ℚ) 31 hq0 hq1 (by norm_num) (by norm_num)
  unfold F64.of_int
  exact ⟨ha, fun h => hb (by exact_mod_cast h)⟩

theorem div_within (a b : F64) (k : Int) (hi : ℚ) (ha : F64.Within a 0 ((2 : ℚ) ^ k))
    (hb : F64.Within b 1 hi) (hk0 : -1022 ≤ k) (hk1 : k ≤ 1023) :
    F64.Within (F64.div a b) 0 ((2 : ℚ) ^ k) := by
  obtain ⟨x, rfl, hx0, hx1⟩ := ha
  obtain ⟨y, rfl, hy0, _⟩ := hb
  have hy : y ≠ 0 := by linarith
  have hypos : 0 < y := by linarith
  show F64.Within (if y = 0 then _ else F64.of_mag (xor false false) (x / y)) 0 _
  rw [if_neg hy]
  have hq : x / y ≤ (2 : ℚ) ^ k := by
    rw [div_le_iff₀ hypos]
    have := two_zpow_pos k
    nlinarith
  exact (of_mag_within (x / y) k (div_nonneg hx0 (le_of_lt hypos)) hq hk0 hk1).1

theorem atanh_sum_bounds (z : ℚ) (h0 : 0 ≤ z) (h1 : z ≤ 1) (n : Nat) :
    0 ≤ atanh_sum z n ∧ atanh_sum z n ≤ (n : ℚ) := by
  induction n with
  | zero => simp [atanh_sum]
  | succ k ih =>
    have hp0 : 0 ≤ z ^ (2 * k + 1) := pow_nonneg h0 _
    have hp1 : z ^ (2 * k + 1) ≤ 1 := pow_le_one₀ h0 h1
    have hd : (1 : ℚ) ≤ ((2 * k + 1 : Nat) : ℚ) := by
      have : 1 ≤ 2 * k + 1 := by omega
      exact_mod_cast this
    have ht0 : 0 ≤ z ^ (2 * k + 1) / ((2 * k + 1 : Nat) : ℚ) :=
      div_nonneg hp0 (by linarith)
    have ht1 : z ^ (2 * k + 1) / ((2 * k + 1 : Nat) : ℚ) ≤ 1 := by
      rw [div_le_iff₀ (by linarith)]
      linarith
    unfold atanh_sum
    push_cast at ht0 ht1 ⊢
    constructor <;> linarith [ih.1, ih.2]

theorem ln_approx_bounds (x : ℚ) (h1 : 1 ≤ x) (h2 : x ≤ (2 : ℚ) ^ (31 : Int)) :
    0 ≤ ln_approx x ∧ ln_approx x ≤ (2 : ℚ) ^ (12 : Int) := by
  have hpos : 0 < x := by linarith
  have he0 := int_log_two_nonneg x h1
  have he1 := int_log_two_le x 31 hpos h2
  have hm1 : 1 ≤ x / (2 : ℚ) ^ Int.log 2 x := by
    rw [le_div_iff₀ (two_zpow_pos _), one_mul]
    exact two_zpow_int_log_le x hpos
  have hz0 : 0 ≤ (x / (2 : ℚ) ^ Int.log 2 x - 1) / (x / (2 : ℚ) ^ Int.log 2 x + 1) :=
    div_nonneg (by linarith) (by linarith)
  have hz1 : (x / (2 : ℚ) ^ Int.log 2 x - 1) / (x / (2 : ℚ) ^ Int.log 2 x + 1) ≤ 1 := by
    rw [div_le_iff₀ (by linarith)]
    linarith
  have ha := atanh_sum_bounds (1 / 3) (by norm_num) (by norm_num) LOG_TERMS
  have hb := atanh_sum_bounds _ hz0 hz1 LOG_TERMS
  have hT : ((LOG_TERMS : Nat) : ℚ) = 40 := by norm_num [LOG_TERMS]
  rw [hT] at ha hb
  have hE0 : (0 : ℚ) ≤ (Int.log 2 x : ℚ) := by exact_mod_cast he0
  have hE1 : (Int.log 2 x : ℚ) ≤ 31 := by exact_mod_cast he1
  have h12 : (2 : ℚ) ^ (12 : Int) = 4096 := by norm_num
  unfold ln_approx
  simp only []
  rw [h12]
  constructor
  · have := mul_nonneg hE0 (by linarith [ha.1] : (0 : ℚ) ≤ 2 * atanh_sum (1 / 3) LOG_TERMS)
    linarith [hb.1]
  · have : (Int.log 2 x : ℚ) * (2 * atanh_sum (1 / 3) LOG_TERMS) ≤ 31 * 80 :=
      mul_le_mul hE1 (by linarith [ha.2]) (by linarith [ha.1]) (by norm_num)
    linarith [hb.2]

theorem log_within (x : F64) (hx : F64.Within x 1 ((2 : ℚ) ^ (31 : Int))) :
    F64.Within (F64.log x) 0 ((2 : ℚ) ^ (12 : Int)) := by
  obtain ⟨r, rfl, h1, h2⟩ := hx
  have hr : r ≠ 0 := by linarith
  show F64.Within (if r = 0 then _ else if false = true then _ else
    F64.of_rat (ln_approx r)) 0 _
  rw [if_neg hr, if_neg (by simp)]
  obtain ⟨h3, h4⟩ := ln_approx_bounds r h1 h2
  exact (of_rat_within _ 12 h3 h4 (by norm_num) (by norm_num)).1

theorem sqrt_approx_bounds (y : ℚ) (hy : 0 ≤ y) :
    0 ≤ sqrt_approx y ∧ sqrt_approx y ≤ y + 2 := by
  unfold sqrt_approx
  simp only []
  have hk : (0 : ℚ) < (2 : ℚ) ^ (64 - Int.log 2 y / 2).toNat := pow_pos (by norm_num) _
  have hk1 : (1 : ℚ) ≤ (2 : ℚ) ^ (64 - Int.log 2 y / 2).toNat := one_le_pow₀ (by norm_num)
  have h4 : (4 : ℚ) ^ (64 - Int.log 2 y / 2).toNat =
      (2 : ℚ) ^ (64 - Int.log 2 y / 2).toNat * (2 : ℚ) ^ (64 - Int.log 2 y / 2).toNat := by
    rw [← mul_pow]
    norm_num
  have hbig : 0 ≤ y * (4 : ℚ) ^ (64 - Int.log 2 y / 2).toNat :=
    mul_nonneg hy (pow_nonneg (by norm_num) _)
  have hfl : ((⌊y * (4 : ℚ) ^ (64 - Int.log 2 y / 2).toNat⌋₊ : Nat) : ℚ) ≤
      y * (4 : ℚ) ^ (64 - Int.log 2 y / 2).toNat := Nat.floor_le hbig
  have hsq : ((Nat.sqrt ⌊y * (4 : ℚ) ^ (64 - Int.log 2 y / 2).toNat⌋₊ : Nat) : ℚ) *
      ((Nat.sqrt ⌊y * (4 : ℚ) ^ (64 - Int.log 2 y / 2).toNat⌋₊ : Nat) : ℚ) ≤
      y * (4 : ℚ) ^ (64 - Int.log 2 y / 2).toNat := by
    have := Nat.sqrt_le ⌊y * (4 : ℚ) ^ (64 - Int.log 2 y / 2).toNat⌋₊
    have hc : (((Nat.sqrt ⌊y * (4 : ℚ) ^ (64 - Int.log 2 y / 2).toNat⌋₊ *
        Nat.sqrt ⌊y * (4 : ℚ) ^ (64 - Int.log 2 y / 2).toNat⌋₊ : Nat)) : ℚ) ≤
        ((⌊y * (4 : ℚ) ^ (64 - Int.log 2 y / 2).toNat⌋₊ : Nat) : ℚ) := by exact_mod_cast this
    push_cast at hc
    linarith
  have ha0 : (0 : ℚ) ≤ ((Nat.sqrt ⌊y * (4 : ℚ) ^ (64 - Int.log 2 y / 2).toNat⌋₊ : Nat) : ℚ) :=
    Nat.cast_nonneg _
  generalize ((Nat.sqrt ⌊y * (4 : ℚ) ^ (64 - Int.log 2 y / 2).toNat⌋₊ : Nat) : ℚ) = a
    at hsq ha0 ⊢
  rw [h4] at hsq ⊢
  generalize (2 : ℚ) ^ (64 - Int.log 2 y / 2).toNat = K at hsq hk hk1 ⊢
  have hle : a ≤ (y + 1) * K := by
    by_cases haK : a ≤ K
    · nlinarith
    · have hlt : K < a := not_le.1 haK
      have h1 : a * K ≤ y * K * K := by nlinarith
      have h2 : a ≤ y * K := le_of_mul_le_mul_right (by linarith) hk
      nlinarith
  constructor
  · apply div_nonneg _ (le_of_lt hk)
    split_ifs <;> linarith
  · rw [div_le_iff₀ hk]
    split_ifs <;> nlinarith

theorem sqrt_within (y : F64) (hy : F64.Within y 0 ((2 : ℚ) ^ (12 : Int))) :
    F64.Within (F64.sqrt y) 0 ((2 : ℚ) ^ (13 : Int)) := by
  obtain ⟨r, rfl, h1, h2⟩ := hy
  show F64.Within (if r = 0 then F64.fin false 0 else if false = true then _ else
    F64.of_mag false (sqrt_approx r)) 0 _
  by_cases hr : r = 0
  · rw [if_pos hr]
    exact ⟨0, rfl, le_refl 0, le_of_lt (two_zpow_pos _)⟩
  · rw [if_neg hr, if_neg (by simp)]
    obtain ⟨h3, h4⟩ := sqrt_approx_bounds r h1
    have h12 : (2 : ℚ) ^ (12 : Int) = 4096 := by norm_num
    have h13 : (2 : ℚ) ^ (13 : Int) = 8192 := by norm_num
    refine (of_mag_within _ 13 h3 ?_ (by norm_num) (by norm_num)).1
    rw [h13]
    rw [h12] at h2
    linarith

theorem mul_within (a b : F64) (A B : ℚ) (k : Int) (ha : F64.Within a 0 A)
    (hb : F64.Within b 0 B) (hAB : A * B ≤ (2 : ℚ) ^ k) (hk0 : -1022 ≤ k) (hk1 : k ≤ 1023) :
    F64.Within (F64.mul a b) 0 ((2 : ℚ) ^ k) := by
  obtain ⟨x, rfl, hx0, hx1⟩ := ha
  obtain ⟨y, rfl, hy0, hy1⟩ := hb
  show F64.Within (F64.of_mag (xor false false) (x * y)) 0 _
  have hxy : x * y ≤ A * B := mul_le_mul hx1 hy1 hy0 (le_trans hx0 hx1)
  exact (of_mag_within (x * y) k (mul_nonneg hx0 hy0) (le_trans hxy hAB) hk0 hk1).1

theorem add_within (a b : F64) (A B : ℚ) (k : Int) (ha : F64.Within a 0 A)
    (hb : F64.Within b 0 B) (hAB : A + B ≤ (2 : ℚ) ^ k) (hk0 : -1022 ≤ k) (hk1 : k ≤ 1023) :
    F64.Within (F64.add a b) 0 ((2 : ℚ) ^ k) := by
  obtain ⟨x, rfl, hx0, hx1⟩ := ha
  obtain ⟨y, rfl, hy0, hy1⟩ := hb
  show F64.Within (if signed false x + signed false y = 0 then F64.fin (false && false) 0
    else F64.of_rat (signed false x + signed false y)) 0 _
  have hs : signed false x + signed false y = x + y := by simp [signed]
  rw [hs]
  by_cases h0 : x + y = 0
  · rw [if_pos h0]
    exact ⟨0, rfl, le_refl 0, le_of_lt (two_zpow_pos _)⟩
  · rw [if_neg h0]
    exact (of_rat_within (x + y) k (by linarith) (by linarith) hk0 hk1).1

theorem ucb_c_within : F64.Within UCB_C 0 ((2 : ℚ) ^ (1 : Int)) := by
  unfold UCB_C
  exact (of_rat_within _ 1 (by norm_num) (by norm_num) (by norm_num) (by norm_num)).1

/-- The win rate of a visited node is a finite `double` that is not negative. -/
theorem ratio_within (w v : Int) (hw : 0 ≤ w) (hwv : w ≤ v) (hv : 0 < v) (hvb : v ≤ INT_MAX) :
    F64.Within (c_double.ratio w v) 0 ((2 : ℚ) ^ (31 : Int)) :=
  div_within _ _ 31 _ (of_int_within w hw (le_trans hwv hvb)).1
    ((of_int_within v (le_of_lt hv) hvb).2 hv) (by norm_num) (by norm_num)

/-- The UCB1 score of a visited node with a visited parent is a finite `double` between
`0` and `2 ^ 15`. -/
theorem ucb_within (w v pv : Int) (hw : 0 ≤ w) (hwv : w ≤ v) (hv : 0 < v) (hvb : v ≤ INT_MAX)
    (hpv : 0 < pv) (hpvb : pv ≤ INT_MAX) :
    F64.Within (c_double.ucb w v pv) 0 ((2 : ℚ) ^ (32 : Int)) := by
  have hV := (of_int_within v (le_of_lt hv) hvb).2 hv
  have hP := (of_int_within pv (le_of_lt hpv) hpvb).2 hpv
  have hrate := ratio_within w v hw hwv hv hvb
  have hlog := log_within _ hP
  have hdiv := div_within _ _ 12 _ hlog hV (by norm_num) (by norm_num)
  have hsqrt := sqrt_within _ hdiv
  have hmul := mul_within _ _ _ _ 14 ucb_c_within hsqrt (by norm_num) (by norm_num)
    (by norm_num)
  exact add_within _ _ _ _ 32 hrate hmul (by norm_num) (by norm_num) (by norm_num)

theorem gt_neg_one_of_within (x : F64) (hi : ℚ) (h : F64.Within x 0 hi) :
    F64.gt x (F64.fin true 1) = true := by
  obtain ⟨r, rfl, h0, _⟩ := h
  show decide (signed true 1 < signed false r) = true
  simp only [signed, decide_eq_true_eq]
  simp
  linarith

theorem is_valid_location_iff (board : Board) (col : Int) :
    is_valid_location board col = true ↔ 0 ≤ col ∧ col < COLS ∧ board 0 col = EMPTY := by
  simp [is_valid_location, and_assoc]

theorem is_valid_location_eq_false_iff (board : Board) (col : Int) :
    is_valid_location board col = false ↔ (col < 0 ∨ (COLS : Int) ≤ col ∨ board 0 col ≠ EMPTY) := by
  rw [← Bool.not_eq_true, is_valid_location_iff]
  constructor
  · intro h
    by_contra hc
    push_neg at hc
    exact h ⟨hc.1, hc.2.1, hc.2.2⟩
  · rintro (h | h | h) ⟨h1, h2, h3⟩
    · omega
    · omega
    · exact h h3

theorem mem_valid_columns (board : Board) (c : Int) :
    c ∈ valid_columns board ↔ is_valid_location board c = true := by
  unfold valid_columns
  rw [List.mem_filter, List.mem_map]
  constructor
  · exact fun h => h.2
  · intro h
    refine ⟨⟨c.toNat, ?_, ?_⟩, h⟩
    · rw [is_valid_location_iff] at h
      rw [List.mem_range]
      have := h.2.1
      omega
    · rw [is_valid_location_iff] at h
      omega

theorem valid_columns_sorted (board : Board) :
    (valid_columns board).Pairwise (· < ·) := by
  unfold valid_columns
  apply List.Pairwise.filter
  rw [List.pairwise_map]
  exact (List.pairwise_lt_range COLS).imp (fun h => by exact_mod_cast h)

theorem is_board_full_iff (board : Board) :
    is_board_full board = true ↔ ∀ c : Int, is_valid_location board c = false := by
  unfold is_board_full
  rw [List.all_eq_true]
  constructor
  · intro h c
    rw [is_valid_location_eq_false_iff]
    by_contra hc
    push_neg at hc
    have := h c.toNat (by rw [List.mem_range]; have := hc.2.1; omega)
    rw [Int.toNat_of_nonneg hc.1] at this
    simp [hc.2.2] at this
  · intro h c hc
    rw [List.mem_range] at hc
    have := (is_valid_location_eq_false_iff board c).1 (h c)
    rcases this with h1 | h1 | h1
    · omega
    · omega
    · simpa using h1

theorem valid_columns_eq_nil_iff (board : Board) :
    valid_columns board = [] ↔ is_board_full board = true := by
  rw [is_board_full_iff, List.eq_nil_iff_forall_not_mem]
  constructor
  · intro h c
    have := h c
    rw [mem_valid_columns] at this
    simpa using this
  · intro h c hc
    rw [mem_valid_columns, h c] at hc
    exact Bool.false_ne_true hc

/-! ## The board: dropping a piece -/

theorem get_next_open_row_from_spec (board : Board) (col : Int) (n : Nat) :
    (get_next_open_row_from board col n = -1 ∧
        ∀ r : Int, 0 ≤ r → r < n → board r col ≠ EMPTY) ∨
      (0 ≤ get_next_open_row_from board col n ∧ get_next_open_row_from board col n < n ∧
        board (get_next_open_row_from board col n) col = EMPTY ∧
        ∀ r : Int, get_next_open_row_from board col n < r → r < n → board r col ≠ EMPTY) := by
  induction n with
  | zero =>
    left
    refine ⟨rfl, ?_⟩
    intro r h0 h1
    simp at h1
    omega
  | succ n ih =>
    unfold get_next_open_row_from
    by_cases hb : board (n : Int) col = EMPTY
    · right
      have hb' : (board (n : Int) col == EMPTY) = true := by simpa using hb
      rw [if_pos hb']
      refine ⟨by omega, by push_cast; omega, hb, ?_⟩
      intro r h1 h2
      push_cast at h2
      omega
    · have hb' : (board (n : Int) col == EMPTY) = false := by simpa using hb
      rw [if_neg (by simp [hb'])]
      have key : ∀ r : Int, r < (n : Int) + 1 → ¬ r < (n : Int) → r = n := by
        intro r h1 h2
        omega
      rcases ih with ⟨h1, h2⟩ | ⟨h1, h2, h3, h4⟩
      · left
        refine ⟨h1, ?_⟩
        intro r hr0 hr1
        push_cast at hr1
        by_cases hlt : r < n
        · exact h2 r hr0 hlt
        · rw [key r hr1 hlt]
          exact hb
      · right
        refine ⟨h1, by push_cast; omega, h3, ?_⟩
        intro r hr0 hr1
        push_cast at hr1
        by_cases hlt : r < n
        · exact h4 r hr0 hlt
        · rw [key r hr1 hlt]
          exact hb

theorem get_next_open_row_spec (board : Board) (col : Int) :
    (get_next_open_row board col = -1 ∧
        ∀ r : Int, 0 ≤ r → r < ROWS → board r col ≠ EMPTY) ∨
      (0 ≤ get_next_open_row board col ∧ get_next_open_row board col < ROWS ∧
        board (get_next_open_row board col) col = EMPTY ∧
        ∀ r : Int, get_next_open_row board col < r → r < ROWS → board r col ≠ EMPTY) :=
  get_next_open_row_from_spec board col ROWS

/-- A column accepted by `is_valid_location` has an open row: the result of
`get_next_open_row` is the lowest empty cell of the column, and never `-1`. -/
theorem get_next_open_row_of_valid (board : Board) (col : Int)
    (h : is_valid_location board col = true) :
    0 ≤ get_next_open_row board col ∧ get_next_open_row board col < ROWS ∧
      board (get_next_open_row board col) col = EMPTY ∧
      ∀ r : Int, get_next_open_row board col < r → r < ROWS → board r col ≠ EMPTY := by
  rcases get_next_open_row_spec board col with ⟨_, h2⟩ | h2
  · rw [is_valid_location_iff] at h
    exact absurd h.2.2 (h2 0 (le_refl 0) (by simp [ROWS]))
  · exact h2

theorem drop_piece_apply (board : Board) (row col player r c : Int)
    (h : 0 ≤ row ∧ row < ROWS ∧ 0 ≤ col ∧ col < COLS) :
    drop_piece board row col player r c =
      if r = row ∧ c = col then player else board r c := by
  unfold drop_piece
  rw [if_pos (by exact ⟨h.1, h.2.1, h.2.2.1, h.2.2.2⟩)]

theorem drop_piece_other (board : Board) (row col player r c : Int)
    (h : ¬ (r = row ∧ c = col)) :
    drop_piece board row col player r c = board r c := by
  unfold drop_piece
  split
  · simp only [h, if_false]
  · rfl

theorem apply_move_eq_none_iff (board : Board) (col player : Int) :
    apply_move board col player = none ↔ is_valid_location board col = false := by
  unfold apply_move
  by_cases h : is_valid_location board col = true
  · have := get_next_open_row_of_valid board col h
    have hne : (get_next_open_row board col != -1) = true := by
      simp only [bne_iff_ne, ne_eq]
      omega
    simp [h, hne]
  · simp [h]

theorem apply_move_of_valid (board : Board) (col player : Int)
    (h : is_valid_location board col = true) :
    apply_move board col player =
      some (drop_piece board (get_next_open_row board col) col player) := by
  unfold apply_move
  have := get_next_open_row_of_valid board col h
  have hne : (get_next_open_row board col != -1) = true := by
    simp only [bne_iff_ne, ne_eq]
    omega
  simp [h, hne]

/-! ## The board: winning windows -/

theorem isWindow_bounds (board : Board) (player r c dr dc : Int)
    (h : IsWindow board player r c dr dc) :
    InBounds r c ∧ InBounds (r + 3 * dr) (c + 3 * dc) := by
  have h0 := (h 0 (le_refl 0) (by simp [CONNECT_LEN])).1
  have h3 := (h 3 (by norm_num) (by simp [CONNECT_LEN])).1
  simp only [zero_mul, add_zero] at h0
  exact ⟨h0, h3⟩

theorem check_win_horizontal_iff (board : Board) (player : Int) :
    check_win_horizontal board player = true ↔ ∃ r c : Int, IsWindow board player r c 0 1 := by
  simp only [check_win_horizontal, List.any_eq_true, List.all_eq_true, List.mem_range,
    beq_iff_eq]
  constructor
  · rintro ⟨r, hr, c, hc, h⟩
    refine ⟨r, c, ?_⟩
    intro i hi0 hi1
    obtain ⟨k, rfl⟩ := Int.eq_ofNat_of_zero_le hi0
    have hk : k < CONNECT_LEN := by exact_mod_cast hi1
    have hcell := h k hk
    simp only [ROWS, COLS, CONNECT_LEN] at hr hc hk
    refine ⟨?_, ?_⟩
    · simp only [InBounds, ROWS, COLS]
      push_cast
      omega
    · simpa using hcell
  · rintro ⟨r, c, h⟩
    obtain ⟨hb0, hb3⟩ := isWindow_bounds board player r c 0 1 h
    simp only [InBounds, ROWS, COLS] at hb0 hb3
    push_cast at hb0 hb3
    refine ⟨r.toNat, by simp only [ROWS]; omega, c.toNat, by simp only [COLS, CONNECT_LEN]; omega, ?_⟩
    intro i hi
    have := (h i (by omega) (by exact_mod_cast hi)).2
    rw [Int.toNat_of_nonneg hb0.1, Int.toNat_of_nonneg hb0.2.2.1]
    simpa using this

theorem check_win_vertical_iff (board : Board) (player : Int) :
    check_win_vertical board player = true ↔ ∃ r c : Int, IsWindow board player r c 1 0 := by
  simp only [check_win_vertical, List.any_eq_true, List.all_eq_true, List.mem_range,
    beq_iff_eq]
  constructor
  · rintro ⟨c, hc, r, hr, h⟩
    refine ⟨r, c, ?_⟩
    intro i hi0 hi1
    obtain ⟨k, rfl⟩ := Int.eq_ofNat_of_zero_le hi0
    have hk : k < CONNECT_LEN := by exact_mod_cast hi1
    have hcell := h k hk
    simp only [ROWS, COLS, CONNECT_LEN] at hr hc hk
    refine ⟨?_, ?_⟩
    · simp only [InBounds, ROWS, COLS]
      push_cast
      omega
    · simpa using hcell
  · rintro ⟨r, c, h⟩
    obtain ⟨hb0, hb3⟩ := isWindow_bounds board player r c 1 0 h
    simp only [InBounds, ROWS, COLS] at hb0 hb3
    push_cast at hb0 hb3
    refine ⟨c.toNat, by simp only [COLS]; omega, r.toNat, by simp only [ROWS, CONNECT_LEN]; omega, ?_⟩
    intro i hi
    have := (h i (by omega) (by exact_mod_cast hi)).2
    rw [Int.toNat_of_nonneg hb0.1, Int.toNat_of_nonneg hb0.2.2.1]
    simpa using this

theorem check_win_diag_down_iff (board : Board) (player : Int) :
    check_win_diag_down board player = true ↔ ∃ r c : Int, IsWindow board player r c 1 1 := by
  simp only [check_win_diag_down, List.any_eq_true, List.all_eq_true, List.mem_range,
    beq_iff_eq]
  constructor
  · rintro ⟨r, hr, c, hc, h⟩
    refine ⟨r, c, ?_⟩
    intro i hi0 hi1
    obtain ⟨k, rfl⟩ := Int.eq_ofNat_of_zero_le hi0
    have hk : k < CONNECT_LEN := by exact_mod_cast hi1
    have hcell := h k hk
    simp only [ROWS, COLS, CONNECT_LEN] at hr hc hk
    refine ⟨?_, ?_⟩
    · simp only [InBounds, ROWS, COLS]
      push_cast
      omega
    · simpa using hcell
  · rintro ⟨r, c, h⟩
    obtain ⟨hb0, hb3⟩ := isWindow_bounds board player r c 1 1 h
    simp only [InBounds, ROWS, COLS] at hb0 hb3
    push_cast at hb0 hb3
    refine ⟨r.toNat, by simp only [ROWS, CONNECT_LEN]; omega, c.toNat,
      by simp only [COLS, CONNECT_LEN]; omega, ?_⟩
    intro i hi
    have := (h i (by omega) (by exact_mod_cast hi)).2
    rw [Int.toNat_of_nonneg hb0.1, Int.toNat_of_nonneg hb0.2.2.1]
    simpa using this

theorem check_win_diag_up_iff (board : Board) (player : Int) :
    check_win_diag_up board player = true ↔ ∃ r c : Int, IsWindow board player r c (-1) 1 := by
  simp only [check_win_diag_up, List.any_eq_true, List.all_eq_true, List.mem_range,
    List.mem_range', beq_iff_eq]
  constructor
  · rintro ⟨r, ⟨j, hj, rfl⟩, c, hc, h⟩
    refine ⟨((CONNECT_LEN - 1 + 1 * j : Nat) : Int), c, ?_⟩
    intro i hi0 hi1
    obtain ⟨k, rfl⟩ := Int.eq_ofNat_of_zero_le hi0
    have hk : k < CONNECT_LEN := by exact_mod_cast hi1
    have hcell := h k hk
    simp only [ROWS, COLS, CONNECT_LEN] at hj hc hk
    refine ⟨?_, ?_⟩
    · simp only [InBounds, ROWS, COLS, CONNECT_LEN]
      push_cast
      omega
    · have e : ((CONNECT_LEN - 1 + 1 * j : Nat) : Int) + (k : Int) * (-1) =
          ((CONNECT_LEN - 1 + 1 * j : Nat) : Int) - (k : Int) := by ring
      rw [e]
      simpa using hcell
  · rintro ⟨r, c, h⟩
    obtain ⟨hb0, hb3⟩ := isWindow_bounds board player r c (-1) 1 h
    simp only [InBounds, ROWS, COLS] at hb0 hb3
    push_cast at hb0 hb3
    refine ⟨r.toNat, ⟨r.toNat - 3, by simp only [ROWS, CONNECT_LEN]; omega,
      by simp only [CONNECT_LEN]; omega⟩, c.toNat, by simp only [COLS, CONNECT_LEN]; omega, ?_⟩
    intro i hi
    have := (h i (by omega) (by exact_mod_cast hi)).2
    rw [Int.toNat_of_nonneg hb0.1, Int.toNat_of_nonneg hb0.2.2.1]
    have e : r + (i : Int) * (-1) = r - (i : Int) := by ring
    rw [e] at this
    simpa using this

theorem check_win_iff_hasWindow (board : Board) (player : Int) :
    check_win board player = true ↔ HasWindow board player := by
  unfold check_win HasWindow
  simp only [Bool.or_eq_true, check_win_horizontal_iff, check_win_vertical_iff,
    check_win_diag_down_iff, check_win_diag_up_iff]
  constructor
  · rintro (((⟨r, c, h⟩ | ⟨r, c, h⟩) | ⟨r, c, h⟩) | ⟨r, c, h⟩)
    · exact ⟨r, c, Or.inl h⟩
    · exact ⟨r, c, Or.inr (Or.inl h)⟩
    · exact ⟨r, c, Or.inr (Or.inr (Or.inl h))⟩
    · exact ⟨r, c, Or.inr (Or.inr (Or.inr h))⟩
  · rintro ⟨r, c, h | h | h | h⟩
    · exact Or.inl (Or.inl (Or.inl ⟨r, c, h⟩))
    · exact Or.inl (Or.inl (Or.inr ⟨r, c, h⟩))
    · exact Or.inl (Or.inr ⟨r, c, h⟩)
    · exact Or.inr ⟨r, c, h⟩

/-! ## The board: end of the game -/

theorem is_board_full_iff_top (board : Board) :
    is_board_full board = true ↔ TopRowOccupied board := by
  rw [is_board_full_iff]
  constructor
  · intro h c h0 h1
    rcases (is_valid_location_eq_false_iff board c).1 (h c) with h2 | h2 | h2
    · omega
    · omega
    · exact h2
  · intro h c
    rw [is_valid_location_eq_false_iff]
    by_cases h0 : c < 0
    · exact Or.inl h0
    · by_cases h1 : (COLS : Int) ≤ c
      · exact Or.inr (Or.inl h1)
      · exact Or.inr (Or.inr (h c (by omega) (by omega)))

theorem check_game_over_cases (board : Board) :
    (check_game_over board = PLAYER1 ↔ check_win board PLAYER1 = true) ∧
    (check_game_over board = PLAYER2 ↔
      check_win board PLAYER2 = true ∧ check_win board PLAYER1 = false) ∧
    (check_game_over board = 0 ↔
      check_win board PLAYER1 = false ∧ check_win board PLAYER2 = false ∧
        is_board_full board = true) ∧
    (check_game_over board = -1 ↔
      check_win board PLAYER1 = false ∧ check_win board PLAYER2 = false ∧
        is_board_full board = false) := by
  unfold check_game_over
  cases check_win board PLAYER1 <;> cases check_win board PLAYER2 <;>
    cases is_board_full board <;> simp [PLAYER1, PLAYER2]

theorem check_game_over_ongoing (board : Board) (h : check_game_over board = -1) :
    check_win board PLAYER1 = false ∧ check_win board PLAYER2 = false ∧
      is_board_full board = false :=
  (check_game_over_cases board).2.2.2.1 h

theorem check_game_over_range (board : Board) :
    check_game_over board = -1 ∨ check_game_over board = 0 ∨
      check_game_over board = PLAYER1 ∨ check_game_over board = PLAYER2 := by
  unfold check_game_over
  split_ifs <;> simp

theorem not_full_iff_exists_valid (board : Board) :
    is_board_full board = false ↔ ∃ c : Int, is_valid_location board c = true := by
  rw [← Bool.not_eq_true, is_board_full_iff]
  push_neg
  simp

theorem valid_columns_ne_nil_of_ongoing (board : Board) (h : check_game_over board = -1) :
    valid_columns board ≠ [] := by
  intro hnil
  rw [valid_columns_eq_nil_iff] at hnil
  rw [(check_game_over_ongoing board h).2.2] at hnil
  exact Bool.false_ne_true hnil

theorem drop_piece_eq_other (board : Board) (row col player r c q : Int)
    (hq : q ≠ player) (h : drop_piece board row col player r c = q) : board r c = q := by
  by_cases hc : r = row ∧ c = col
  · unfold drop_piece at h
    split at h
    · simp only [hc, and_self, if_true] at h
      exact absurd h.symm hq
    · exact h
  · rw [drop_piece_other board row col player r c hc] at h
    exact h

theorem isWindow_of_drop (board : Board) (row col player q r c dr dc : Int) (hq : q ≠ player)
    (h : IsWindow (drop_piece board row col player) q r c dr dc) :
    IsWindow board q r c dr dc := by
  intro i h0 h1
  exact ⟨(h i h0 h1).1, drop_piece_eq_other board row col player _ _ q hq (h i h0 h1).2⟩

theorem check_win_of_drop (board : Board) (row col player q : Int) (hq : q ≠ player)
    (h : check_win (drop_piece board row col player) q = true) : check_win board q = true := by
  rw [check_win_iff_hasWindow] at h ⊢
  obtain ⟨r, c, h | h | h | h⟩ := h
  · exact ⟨r, c, Or.inl (isWindow_of_drop board row col player q r c 0 1 hq h)⟩
  · exact ⟨r, c, Or.inr (Or.inl (isWindow_of_drop board row col player q r c 1 0 hq h))⟩
  · exact ⟨r, c, Or.inr (Or.inr (Or.inl (isWindow_of_drop board row col player q r c 1 1 hq h)))⟩
  · exact ⟨r, c, Or.inr (Or.inr (Or.inr (isWindow_of_drop board row col player q r c (-1) 1 hq h)))⟩

theorem not_hasWindow_init (player : Int) (h : player ≠ EMPTY) : ¬ HasWindow init_board player := by
  rintro ⟨r, c, hw | hw | hw | hw⟩ <;>
    exact h ((hw 0 (le_refl 0) (by simp [CONNECT_LEN])).2).symm

theorem other_player_range (turn : Int) :
    other_player turn = PLAYER1 ∨ other_player turn = PLAYER2 := by
  unfold other_player
  split <;> simp

theorem legalPosition_turn (board : Board) (turn : Int) (h : LegalPosition board turn) :
    turn = PLAYER1 ∨ turn = PLAYER2 := by
  cases h with
  | start first h => exact h
  | move b t col h hgo hv => exact other_player_range t

theorem legalPosition_one_winner (board : Board) (turn : Int) (h : LegalPosition board turn) :
    ¬ (check_win board PLAYER1 = true ∧ check_win board PLAYER2 = true) := by
  cases h with
  | start first h =>
    rintro ⟨h1, _⟩
    rw [check_win_iff_hasWindow] at h1
    exact not_hasWindow_init PLAYER1 (by simp [PLAYER1, EMPTY]) h1
  | move b t col h hgo hv =>
    rintro ⟨h1, h2⟩
    obtain ⟨hw1, hw2, _⟩ := check_game_over_ongoing b hgo
    rcases legalPosition_turn b t h with ht | ht
    · have := check_win_of_drop b _ col t PLAYER2 (by rw [ht]; simp [PLAYER1, PLAYER2]) h2
      rw [hw2] at this
      exact Bool.false_ne_true this
    · have := check_win_of_drop b _ col t PLAYER1 (by rw [ht]; simp [PLAYER1, PLAYER2]) h1
      rw [hw1] at this
      exact Bool.false_ne_true this

theorem check_game_over_swapped_eq (board : Board)
    (h : ¬ (check_win board PLAYER1 = true ∧ check_win board PLAYER2 = true)) :
    check_game_over_swapped board = check_game_over board := by
  unfold check_game_over_swapped check_game_over
  cases h1 : check_win board PLAYER1 <;> cases h2 : check_win board PLAYER2 <;>
    simp [h1, h2] at h ⊢

/-! ## The heap of nodes -/

theorem lt_length_of_get {t : Tree} {i : Nat} {n : MCTSNode} (h : t[i]? = some n) :
    i < t.length := by
  rw [List.getElem?_eq_some] at h
  exact h.1

theorem sameStatic_refl (n : MCTSNode) : SameStatic n n :=
  ⟨rfl, rfl, rfl, rfl, rfl, rfl⟩

theorem sameStatic_trans {a b c : MCTSNode} (h1 : SameStatic a b) (h2 : SameStatic b c) :
    SameStatic a c :=
  ⟨h2.1.trans h1.1, h2.2.1.trans h1.2.1, h2.2.2.1.trans h1.2.2.1,
    h2.2.2.2.1.trans h1.2.2.2.1, h2.2.2.2.2.1.trans h1.2.2.2.2.1,
    h2.2.2.2.2.2.trans h1.2.2.2.2.2⟩

theorem extends_refl (t : Tree) : Extends t t :=
  ⟨le_refl _, fun _ n h => ⟨n, h, sameStatic_refl n⟩⟩

theorem extends_trans {a b c : Tree} (h1 : Extends a b) (h2 : Extends b c) : Extends a c := by
  refine ⟨le_trans h1.1 h2.1, ?_⟩
  intro j n hn
  obtain ⟨n1, hn1, hs1⟩ := h1.2 j n hn
  obtain ⟨n2, hn2, hs2⟩ := h2.2 j n1 hn1
  exact ⟨n2, hn2, sameStatic_trans hs1 hs2⟩

theorem extends_push (t : Tree) (nn : MCTSNode) : Extends t (t ++ [nn]) := by
  refine ⟨by simp, ?_⟩
  intro j n hn
  refine ⟨n, ?_, sameStatic_refl n⟩
  rw [List.getElem?_append_left (lt_length_of_get hn)]
  exact hn

theorem extends_set (t : Tree) (i : Nat) (node node' : MCTSNode) (hi : t[i]? = some node)
    (hs : SameStatic node node') : Extends t (t.set i node') := by
  refine ⟨by simp, ?_⟩
  intro j n hn
  by_cases hij : i = j
  · subst hij
    rw [hi] at hn
    cases hn
    exact ⟨node', by rw [List.getElem?_set_self (lt_length_of_get hi)], hs⟩
  · exact ⟨n, by rw [List.getElem?_set_ne hij]; exact hn, sameStatic_refl n⟩

/-- Pushing a fresh node without children keeps the heap well linked. -/
theorem treeOK_push (t : Tree) (nn : MCTSNode) (h : TreeOK t)
    (hp : ∀ p, nn.parent = some p → p < t.length) (hc : nn.children = [])
    (hu : ∀ m ∈ nn.untried_moves, is_valid_location nn.board m = true) :
    TreeOK (t ++ [nn]) := by
  intro j n hn
  by_cases hj : j < t.length
  · rw [List.getElem?_append_left hj] at hn
    have ok := h j n hn
    refine ⟨ok.parent_lt, ok.child_gt, ?_, ok.untried_ok⟩
    intro c hcm
    obtain ⟨cn, h1, h2, h3⟩ := ok.child_ok c hcm
    refine ⟨cn, ?_, h2, h3⟩
    rw [List.getElem?_append_left (lt_length_of_get h1)]
    exact h1
  · have hlen := lt_length_of_get hn
    simp only [List.length_append, List.length_singleton] at hlen
    have hj' : j = t.length := by omega
    subst hj'
    rw [List.getElem?_concat_length] at hn
    cases hn
    refine ⟨hp, ?_, ?_, hu⟩
    · intro c hcm
      rw [hc] at hcm
      cases hcm
    · intro c hcm
      rw [hc] at hcm
      cases hcm

/-- Overwriting a node by one with the same parent and move that is itself well linked
keeps the heap well linked. -/
theorem treeOK_set (t : Tree) (i : Nat) (node node' : MCTSNode) (h : TreeOK t)
    (hi : t[i]? = some node) (hs : SameStatic node node') (hok : NodeOK t i node') :
    TreeOK (t.set i node') := by
  have hlen := lt_length_of_get hi
  have key : ∀ (c : Nat) (cn : MCTSNode), t[c]? = some cn → ∃ cn' : MCTSNode, (t.set i node')[c]? = some cn' ∧
      cn'.parent = cn.parent ∧ cn'.move = cn.move := by
    intro c cn hc
    by_cases hic : i = c
    · subst hic
      rw [hi] at hc
      cases hc
      exact ⟨node', List.getElem?_set_self hlen, hs.2.2.2.1, hs.2.2.1⟩
    · exact ⟨cn, by rw [List.getElem?_set_ne hic]; exact hc, rfl, rfl⟩
  intro j n hn
  have ok : NodeOK t j n := by
    by_cases hij : i = j
    · subst hij
      rw [List.getElem?_set_self hlen] at hn
      cases hn
      exact hok
    · rw [List.getElem?_set_ne hij] at hn
      exact h j n hn
  refine ⟨ok.parent_lt, ok.child_gt, ?_, ok.untried_ok⟩
  intro c hcm
  obtain ⟨cn, h1, h2, h3⟩ := ok.child_ok c hcm
  obtain ⟨cn', h4, h5, h6⟩ := key c cn h1
  exact ⟨cn', h4, by rw [h5]; exact h2, by rw [h6]; exact h3⟩

theorem new_node_static (ok_moves : Bool) (parent : Option Nat) (move : Int) (board : Board)
    (player : Int) :
    (new_node ok_moves parent move board player).board = board ∧
    (new_node ok_moves parent move board player).player = player ∧
    (new_node ok_moves parent move board player).move = move ∧
    (new_node ok_moves parent move board player).parent = parent ∧
    (new_node ok_moves parent move board player).children = [] ∧
    (new_node ok_moves parent move board player).wins = 0 ∧
    (new_node ok_moves parent move board player).visits = 0 ∧
    (new_node ok_moves parent move board player).terminal_winner = check_game_over board ∧
    ((new_node ok_moves parent move board player).is_terminal = true ↔
      check_game_over board ≠ -1) := by
  unfold new_node copy_board
  by_cases h : check_game_over board = -1
  · simp [h]
  · simp [h]

theorem new_node_untried (ok_moves : Bool) (parent : Option Nat) (move : Int) (board : Board)
    (player : Int) :
    (new_node ok_moves parent move board player).untried_moves =
      if check_game_over board = -1 ∧ ok_moves = true then valid_columns board else [] := by
  unfold new_node copy_board get_valid_moves
  by_cases h : check_game_over board = -1
  · cases ok_moves <;> simp [h]
  · simp [h]

theorem new_node_untried_ok (ok_moves : Bool) (parent : Option Nat) (move : Int)
    (board : Board) (player : Int) :
    ∀ m ∈ (new_node ok_moves parent move board player).untried_moves,
      is_valid_location (new_node ok_moves parent move board player).board m = true := by
  intro m hm
  rw [(new_node_static ok_moves parent move board player).1]
  rw [new_node_untried] at hm
  split at hm
  · exact (mem_valid_columns board m).1 hm
  · cases hm

/-- The two outcomes of `create_node`: a new node at the end of the heap, or `NULL` and an
unchanged heap. -/
theorem create_node_cases (o : Oracle) (t : Tree) (s : Calls) (parent : Option Nat)
    (move : Int) (board : Board) (player : Int) :
    (o.malloc_ok s.mallocs = true ∧ ∃ ok_moves s',
      create_node o t s parent move board player =
        (t ++ [new_node ok_moves parent move board player], s', some t.length) ∧
      (check_game_over board = -1 → ok_moves = o.malloc_ok (s.mallocs + 1))) ∨
    (o.malloc_ok s.mallocs = false ∧ ∃ s',
      create_node o t s parent move board player = (t, s', none)) := by
  by_cases hm : o.malloc_ok s.mallocs = true
  · left
    refine ⟨hm, ?_⟩
    by_cases h : check_game_over board = -1
    · have e : create_node o t s parent move board player =
          (t ++ [new_node (o.malloc_ok (s.mallocs + 1)) parent move board player],
            { rands := s.rands, mallocs := s.mallocs + 2 }, some t.length) := by
        unfold create_node copy_board
        simp [hm, h]
      exact ⟨_, _, e, fun _ => rfl⟩
    · have e : create_node o t s parent move board player =
          (t ++ [new_node true parent move board player],
            { rands := s.rands, mallocs := s.mallocs + 1 }, some t.length) := by
        unfold create_node copy_board
        simp [hm, h]
      exact ⟨_, _, e, fun h' => absurd h' h⟩
  · right
    simp only [Bool.not_eq_true] at hm
    have e : create_node o t s parent move board player =
        (t, { rands := s.rands, mallocs := s.mallocs + 1 }, none) := by
      unfold create_node
      simp [hm]
    exact ⟨hm, _, e⟩

/-! ## Expansion -/

theorem mem_untried_after_removal (l : List Int) (k : Nat) (m : Int) (hl : 0 < l.length)
    (hm : m ∈ (l.set k (l.getD (l.length - 1) 0)).dropLast) : m ∈ l := by
  rcases List.mem_or_eq_of_mem_set (List.mem_of_mem_dropLast hm) with h | h
  · exact h
  · rw [h, List.getD_eq_getElem?_getD, List.getElem?_eq_getElem (by omega)]
    exact List.getElem_mem _

/-- The function `expand_node` always returns on a well-linked heap, and leaves it well linked;
the node it returns is a node of the heap. -/
theorem expand_node_ok (o : Oracle) (t : Tree) (s : Calls) (i : Nat) (h : TreeOK t)
    (hi : i < t.length) :
    ∃ t' s' leaf, expand_node o t s i = some (t', s', leaf) ∧ TreeOK t' ∧ Extends t t' ∧
      leaf < t'.length := by
  have hnode : t[i]? = some t[i] := List.getElem?_eq_getElem hi
  generalize t[i] = node at hnode
  have ok := h i node hnode
  unfold expand_node
  rw [hnode]
  simp only []
  by_cases hterm : (node.is_terminal || node.untried_moves.length == 0) = true
  · rw [if_pos hterm]
    exact ⟨t, s, i, rfl, h, extends_refl t, hi⟩
  · rw [if_neg hterm]
    have hlen : 0 < node.untried_moves.length := by
      simp only [Bool.or_eq_true, beq_iff_eq, not_or] at hterm
      omega
    have hidx : o.rand s.rands % node.untried_moves.length < node.untried_moves.length :=
      Nat.mod_lt _ hlen
    rw [List.getElem?_eq_getElem hidx]
    simp only []
    have hmem : node.untried_moves[o.rand s.rands % node.untried_moves.length] ∈
        node.untried_moves := List.getElem_mem _
    generalize node.untried_moves[o.rand s.rands % node.untried_moves.length] = move_col
      at hmem
    have hvalid := ok.untried_ok move_col hmem
    have hrow := get_next_open_row_of_valid node.board move_col hvalid
    have hne : (get_next_open_row (copy_board node.board) move_col != -1) = true := by
      simp only [copy_board, bne_iff_ne, ne_eq]
      omega
    rw [if_pos hne]
    rcases create_node_cases o t { rands := s.rands + 1, mallocs := s.mallocs } (some i) move_col
      (drop_piece (copy_board node.board) (get_next_open_row (copy_board node.board) move_col)
        move_col node.player)
      (if node.player == PLAYER1 then PLAYER2 else PLAYER1) with
      ⟨_, okm, s', e, _⟩ | ⟨_, s', e⟩
    · rw [e]
      simp only []
      refine ⟨_, _, _, rfl, ?_, ?_, ?_⟩
      · have hst := new_node_static okm (some i) move_col
          (drop_piece (copy_board node.board)
            (get_next_open_row (copy_board node.board) move_col) move_col node.player)
          (if node.player == PLAYER1 then PLAYER2 else PLAYER1)
        have hpush : TreeOK (t ++ [new_node okm (some i) move_col
            (drop_piece (copy_board node.board)
              (get_next_open_row (copy_board node.board) move_col) move_col node.player)
            (if node.player == PLAYER1 then PLAYER2 else PLAYER1)]) := by
          apply treeOK_push t _ h
          · intro p hp
            rw [hst.2.2.2.1] at hp
            cases hp
            exact hi
          · exact hst.2.2.2.2.1
          · exact new_node_untried_ok _ _ _ _ _
        apply treeOK_set _ i node _ hpush
        · rw [List.getElem?_append_left hi]
          exact hnode
        · exact ⟨rfl, rfl, rfl, rfl, rfl, rfl⟩
        · refine ⟨ok.parent_lt, ?_, ?_, ?_⟩
          · intro c hc
            simp only at hc
            split at hc
            · rcases List.mem_append.1 hc with hc | hc
              · exact ok.child_gt c hc
              · rw [List.mem_singleton.1 hc]
                exact hi
            · exact ok.child_gt c hc
          · intro c hc
            simp only at hc ⊢
            have hold : c ∈ node.children → ∃ cn : MCTSNode, (t ++ [new_node okm (some i) move_col
                (drop_piece (copy_board node.board)
                  (get_next_open_row (copy_board node.board) move_col) move_col node.player)
                (if node.player == PLAYER1 then PLAYER2 else PLAYER1)])[c]? = some cn ∧
                cn.parent = some i ∧ is_valid_location node.board cn.move = true := by
              intro hc
              obtain ⟨cn, h1, h2, h3⟩ := ok.child_ok c hc
              exact ⟨cn, by rw [List.getElem?_append_left (lt_length_of_get h1)]; exact h1,
                h2, h3⟩
            split at hc
            · rcases List.mem_append.1 hc with hc | hc
              · exact hold hc
              · rw [List.mem_singleton.1 hc]
                refine ⟨_, List.getElem?_concat_length _ _, hst.2.2.2.1, ?_⟩
                rw [hst.2.2.1]
                exact hvalid
            · exact hold hc
          · intro m hm
            exact ok.untried_ok m (mem_untried_after_removal _ _ m hlen hm)
      · apply extends_trans (extends_push t _)
        apply extends_set _ i node
        · rw [List.getElem?_append_left hi]
          exact hnode
        · exact ⟨rfl, rfl, rfl, rfl, rfl, rfl⟩
      · simp
    · rw [e]
      exact ⟨t, s', i, rfl, h, extends_refl t, hi⟩

/-! ## Selection -/

theorem ucb1_isSome (fl : DoubleOps) (t : Tree) (c : Nat) (cn pn : MCTSNode) (i : Nat)
    (hc : t[c]? = some cn) (hp : cn.parent = some i) (hi : t[i]? = some pn) :
    ∃ v, ucb1 fl t c = some v := by
  unfold ucb1
  rw [hc]
  simp only [hp, hi]
  split
  · exact ⟨_, rfl⟩
  · split
    · exact ⟨_, rfl⟩
    · exact ⟨_, rfl⟩

theorem best_child_loop_ok (fl : DoubleOps) (t : Tree) (cs : List Nat)
    (h : ∀ c ∈ cs, ∃ v, ucb1 fl t c = some v) (score : fl.D) (best : Option Nat) :
    ∃ r, best_child_loop fl t cs score best = some r ∧ (r = best ∨ ∃ c ∈ cs, r = some c) := by
  induction cs generalizing score best with
  | nil => exact ⟨best, rfl, Or.inl rfl⟩
  | cons c cs ih =>
    obtain ⟨v, hv⟩ := h c (List.mem_cons_self c cs)
    have h' : ∀ d ∈ cs, ∃ v, ucb1 fl t d = some v :=
      fun d hd => h d (List.mem_cons_of_mem c hd)
    unfold best_child_loop
    rw [hv]
    simp only []
    split
    · obtain ⟨r, hr, hr'⟩ := ih h' v (some c)
      refine ⟨r, hr, ?_⟩
      rcases hr' with hr' | ⟨d, hd, hr'⟩
      · exact Or.inr ⟨c, List.mem_cons_self c cs, hr'⟩
      · exact Or.inr ⟨d, List.mem_cons_of_mem c hd, hr'⟩
    · obtain ⟨r, hr, hr'⟩ := ih h' score best
      refine ⟨r, hr, ?_⟩
      rcases hr' with hr' | ⟨d, hd, hr'⟩
      · exact Or.inl hr'
      · exact Or.inr ⟨d, List.mem_cons_of_mem c hd, hr'⟩

/-- The function `select_node` always returns on a well-linked heap when it is given one unit
of fuel per node of the heap, and leaves the heap well linked. -/
theorem select_node_ok (fl : DoubleOps) (o : Oracle) (fuel : Nat) (t : Tree) (s : Calls)
    (i : Nat) (h : TreeOK t) (hi : i < t.length) (hfuel : t.length ≤ fuel + i) :
    ∃ t' s' leaf, select_node fl o fuel t s i = some (t', s', leaf) ∧ TreeOK t' ∧
      Extends t t' ∧ leaf < t'.length := by
  induction fuel generalizing i with
  | zero => omega
  | succ fuel ih =>
    have hnode : t[i]? = some t[i] := List.getElem?_eq_getElem hi
    generalize t[i] = node at hnode
    have ok := h i node hnode
    unfold select_node
    rw [hnode]
    simp only []
    split
    · exact ⟨t, s, i, rfl, h, extends_refl t, hi⟩
    · split
      · exact expand_node_ok o t s i h hi
      · split
        · exact ⟨t, s, i, rfl, h, extends_refl t, hi⟩
        · have hall : ∀ c ∈ node.children, ∃ v, ucb1 fl t c = some v := by
            intro c hc
            obtain ⟨cn, h1, h2, _⟩ := ok.child_ok c hc
            exact ucb1_isSome fl t c cn node i h1 h2 hnode
          obtain ⟨r, hr, hr'⟩ := best_child_loop_ok fl t node.children hall fl.neg_one none
          rw [hr]
          rcases hr' with hr' | ⟨c, hc, hr'⟩
          · subst hr'
            exact ⟨t, s, i, rfl, h, extends_refl t, hi⟩
          · subst hr'
            simp only []
            obtain ⟨cn, h1, _, _⟩ := ok.child_ok c hc
            have hgt := ok.child_gt c hc
            exact ih c (lt_length_of_get h1) (by omega)

/-! ## Random playouts -/

theorem empty_cells_drop (board : Board) (row col player : Int)
    (hr : 0 ≤ row ∧ row < ROWS ∧ 0 ≤ col ∧ col < COLS) (he : board row col = EMPTY)
    (hp : player ≠ EMPTY) :
    empty_cells (drop_piece board row col player) + 1 = empty_cells board := by
  unfold empty_cells
  have hmem : (row.toNat, col.toNat) ∈ (Finset.range ROWS ×ˢ Finset.range COLS).filter
      fun rc => board (rc.1 : Int) (rc.2 : Int) = EMPTY := by
    simp only [Finset.mem_filter, Finset.mem_product, Finset.mem_range]
    refine ⟨⟨by omega, by omega⟩, ?_⟩
    rw [Int.toNat_of_nonneg hr.1, Int.toNat_of_nonneg hr.2.2.1]
    exact he
  have heq : ((Finset.range ROWS ×ˢ Finset.range COLS).filter
      fun rc => drop_piece board row col player (rc.1 : Int) (rc.2 : Int) = EMPTY) =
      ((Finset.range ROWS ×ˢ Finset.range COLS).filter
        fun rc => board (rc.1 : Int) (rc.2 : Int) = EMPTY).erase (row.toNat, col.toNat) := by
    ext ⟨r, c⟩
    simp only [Finset.mem_filter, Finset.mem_product, Finset.mem_range, Finset.mem_erase,
      ne_eq, Prod.mk.injEq]
    rw [drop_piece_apply board row col player r c hr]
    by_cases hc : (r : Int) = row ∧ (c : Int) = col
    · rw [if_pos hc]
      have h1 : r = row.toNat := by omega
      have h2 : c = col.toNat := by omega
      simp [hp, h1, h2]
    · rw [if_neg hc]
      have h1 : ¬ (r = row.toNat ∧ c = col.toNat) := by
        rintro ⟨h1, h2⟩
        apply hc
        omega
      simp [h1]
  rw [heq, Finset.card_erase_of_mem hmem]
  have := Finset.card_pos.2 ⟨_, hmem⟩
  omega

theorem empty_cells_drop_empty (board : Board) (row col : Int) (he : board row col = EMPTY) :
    empty_cells (drop_piece board row col EMPTY) = empty_cells board := by
  unfold empty_cells
  congr 1
  apply Finset.filter_congr
  intro rc _
  by_cases hc : (rc.1 : Int) = row ∧ (rc.2 : Int) = col
  · unfold drop_piece
    split
    · simp only [hc, and_self, if_true, true_iff]
      exact he
    · rfl
  · rw [drop_piece_other board row col EMPTY _ _ hc]

theorem empty_cells_le (board : Board) : empty_cells board ≤ ROWS * COLS := by
  unfold empty_cells
  refine le_trans (Finset.card_filter_le _ _) ?_
  simp

theorem other_player_ne_empty (p : Int) :
    (if p == PLAYER1 then PLAYER2 else PLAYER1) ≠ EMPTY := by
  split <;> simp [PLAYER1, PLAYER2, EMPTY]

/-- The playout loop ends within its fuel: one pass per empty cell, one more when the first
mover is `EMPTY`, and the last test.  Its result is the incoming `winner` when that is not
`-1`, and a draw or a player otherwise. -/
theorem playout_loop_ok (o : Oracle) (fuel : Nat) (board : Board) (player winner : Int)
    (s : Calls) (hfuel : empty_cells board + (if player = EMPTY then 2 else 1) ≤ fuel) :
    ∃ r s', playout_loop o fuel board player winner s = some (r, s') ∧
      ((winner ≠ -1 ∧ r = winner) ∨
        (winner = -1 ∧ (r = 0 ∨ r = PLAYER1 ∨ r = PLAYER2))) := by
  induction fuel generalizing board player winner s with
  | zero =>
    exfalso
    split at hfuel <;> omega
  | succ fuel ih =>
    unfold playout_loop
    by_cases hw : winner = -1
    · have hw' : ¬ ((winner != -1) = true) := by simp [hw]
      rw [if_neg hw']
      simp only []
      have hover : ∀ s1 : Calls, ∃ r s', some ((if check_game_over board == -1 then (0 : Int)
          else check_game_over board), s1) = some (r, s') ∧
          ((winner ≠ -1 ∧ r = winner) ∨
            (winner = -1 ∧ (r = 0 ∨ r = PLAYER1 ∨ r = PLAYER2))) := by
        intro s1
        refine ⟨_, _, rfl, Or.inr ⟨hw, ?_⟩⟩
        rcases check_game_over_range board with h | h | h | h <;> simp [h, PLAYER1, PLAYER2]
      cases hm : o.malloc_ok s.mallocs
      · have e : (num_moves (get_valid_moves false board) == 0 ||
            (get_valid_moves false board).isNone) = true := rfl
        rw [if_pos e]
        exact hover _
      · by_cases hlen : (valid_columns board).length = 0
        · have e : (num_moves (get_valid_moves true board) == 0 ||
              (get_valid_moves true board).isNone) = true := by
            simp [get_valid_moves, num_moves, hlen]
          rw [if_pos e]
          exact hover _
        · have e : ¬ ((num_moves (get_valid_moves true board) == 0 ||
              (get_valid_moves true board).isNone) = true) := by
            simp [get_valid_moves, num_moves, hlen]
          rw [if_neg e]
          have e2 : (get_valid_moves true board).getD [] = valid_columns board := rfl
          have e3 : num_moves (get_valid_moves true board) = (valid_columns board).length := rfl
          rw [e2, e3]
          have hidx : o.rand s.rands % (valid_columns board).length <
              (valid_columns board).length := Nat.mod_lt _ (by omega)
          rw [List.getElem?_eq_getElem hidx]
          simp only []
          have hmem : (valid_columns board)[o.rand s.rands % (valid_columns board).length] ∈
              valid_columns board := List.getElem_mem _
          generalize (valid_columns board)[o.rand s.rands % (valid_columns board).length] = col
            at hmem
          have hvalid := (mem_valid_columns board col).1 hmem
          have hrow := get_next_open_row_of_valid board col hvalid
          have hcol := (is_valid_location_iff board col).1 hvalid
          have hne : (get_next_open_row board col != -1) = true := by
            simp only [bne_iff_ne, ne_eq]
            omega
          rw [if_pos hne]
          have hdec : empty_cells (drop_piece board (get_next_open_row board col) col player) +
              (if (if player == PLAYER1 then PLAYER2 else PLAYER1) = EMPTY then 2 else 1) ≤
                fuel := by
            rw [if_neg (other_player_ne_empty player)]
            by_cases hp : player = EMPTY
            · rw [if_pos hp] at hfuel
              rw [hp, empty_cells_drop_empty board _ col hrow.2.2.1]
              omega
            · rw [if_neg hp] at hfuel
              have := empty_cells_drop board (get_next_open_row board col) col player
                ⟨hrow.1, hrow.2.1, hcol.1, hcol.2.1⟩ hrow.2.2.1 hp
              omega
          obtain ⟨r, s', hr, hr'⟩ := ih
            (drop_piece board (get_next_open_row board col) col player)
            (if player == PLAYER1 then PLAYER2 else PLAYER1)
            (check_game_over (drop_piece board (get_next_open_row board col) col player))
            { rands := s.rands + 1, mallocs := s.mallocs + 1 } hdec
          refine ⟨r, s', hr, Or.inr ⟨hw, ?_⟩⟩
          rcases hr' with ⟨h1, h2⟩ | ⟨_, h2⟩
          · rw [h2]
            rcases check_game_over_range
              (drop_piece board (get_next_open_row board col) col player) with h | h | h | h
            · exact absurd h h1
            · exact Or.inl h
            · exact Or.inr (Or.inl h)
            · exact Or.inr (Or.inr h)
          · exact h2
    · have hw' : (winner != -1) = true := by simpa using hw
      rw [if_pos hw']
      exact ⟨winner, s, rfl, Or.inl ⟨hw, rfl⟩⟩

theorem simulate_random_playout_ok (o : Oracle) (t : Tree) (s : Calls) (i : Nat)
    (hi : i < t.length) :
    ∃ r s', simulate_random_playout o t s i = some (r, s') := by
  unfold simulate_random_playout
  rw [List.getElem?_eq_getElem hi]
  simp only []
  obtain ⟨r, s', h, _⟩ := playout_loop_ok o PLAYOUT_FUEL (copy_board t[i].board) t[i].player
    t[i].terminal_winner s (by
      have := empty_cells_le (copy_board t[i].board)
      simp only [PLAYOUT_FUEL, ROWS, COLS] at this ⊢
      split <;> omega)
  exact ⟨r, s', h⟩

/-! ## Backpropagation -/

theorem parentsBelow_of_treeOK (t : Tree) (h : TreeOK t) : ParentsBelow t :=
  fun j n hn => (h j n hn).parent_lt

theorem onChain_le (t : Tree) (hp : ParentsBelow t) (i j : Nat) (h : OnChain t i j) :
    j ≤ i := by
  induction h with
  | here i => exact le_refl i
  | up i p j n hn hpar _ ih => exact le_trans ih (le_of_lt (hp i n hn p hpar))

theorem onChain_congr (t t' : Tree)
    (hpar : ∀ (k : Nat) (n : MCTSNode), t[k]? = some n →
      ∃ n' : MCTSNode, t'[k]? = some n' ∧ n'.parent = n.parent)
    (i j : Nat) (h : OnChain t i j) : OnChain t' i j := by
  induction h with
  | here i => exact OnChain.here i
  | up i p j n hn hp _ ih =>
    obtain ⟨n', h1, h2⟩ := hpar i n hn
    exact OnChain.up i p j n' h1 (by rw [h2]; exact hp) ih

theorem onChain_iff (t : Tree) (i j : Nat) (node : MCTSNode) (hi : t[i]? = some node) :
    OnChain t i j ↔ j = i ∨ ∃ p, node.parent = some p ∧ OnChain t p j := by
  constructor
  · intro h
    cases h with
    | here => exact Or.inl rfl
    | up _ p _ n hn hp h =>
      rw [hi] at hn
      cases hn
      exact Or.inr ⟨p, hp, h⟩
  · rintro (h | ⟨p, hp, h⟩)
    · rw [h]
      exact OnChain.here i
    · exact OnChain.up i p j node hi hp h

theorem backpropagate_loop_none (fuel : Nat) (t : Tree) (w : Int) :
    backpropagate_loop fuel t none w = some t := by
  cases fuel <;> rfl

theorem credit_eq (w : Int) (node : MCTSNode) :
    ({ node with visits := node.visits + 1,
                 wins := if w != 0 && node.player != w then node.wins + 1 else node.wins }
        : MCTSNode) = credit w node := by
  unfold credit
  by_cases h : w ≠ 0 ∧ node.player ≠ w
  · have h' : (w != 0 && node.player != w) = true := by simpa using h
    rw [if_pos h', if_pos h]
  · have h' : ¬ ((w != 0 && node.player != w) = true) := by simpa using h
    rw [if_neg h', if_neg h]
    simp

theorem sameLinks_credit (w : Int) (n : MCTSNode) : SameLinks n (credit w n) :=
  ⟨⟨rfl, rfl, rfl, rfl, rfl, rfl⟩, rfl, rfl⟩

theorem sameLinks_refl (n : MCTSNode) : SameLinks n n :=
  ⟨sameStatic_refl n, rfl, rfl⟩

/-- The loop of `backpropagate`, started at `i` with more fuel than `i`: it returns, keeps the
size of the heap, credits every node on the parent chain of `i` once and leaves every
other node as it was. -/
theorem backpropagate_loop_spec (fuel : Nat) (t : Tree) (i : Nat) (w : Int)
    (hp : ParentsBelow t) (hi : i < t.length) (hf : i < fuel) :
    ∃ t', backpropagate_loop fuel t (some i) w = some t' ∧ t'.length = t.length ∧
      ∀ (j : Nat) (n : MCTSNode), t[j]? = some n →
        (OnChain t i j → t'[j]? = some (credit w n)) ∧
        (¬ OnChain t i j → t'[j]? = some n) := by
  induction fuel generalizing t i with
  | zero => omega
  | succ fuel ih =>
    have hnode : t[i]? = some t[i] := List.getElem?_eq_getElem hi
    generalize t[i] = node at hnode
    unfold backpropagate_loop
    rw [hnode]
    simp only []
    rw [credit_eq w node]
    cases hpar : node.parent with
    | none =>
      rw [backpropagate_loop_none]
      refine ⟨_, rfl, by simp, ?_⟩
      intro j n hn
      have hiff := onChain_iff t i j node hnode
      by_cases hij : i = j
      · subst hij
        rw [hnode] at hn
        cases hn
        exact ⟨fun _ => List.getElem?_set_self hi, fun h => absurd (OnChain.here i) h⟩
      · rw [List.getElem?_set_ne hij]
        refine ⟨fun h => ?_, fun _ => hn⟩
        rcases hiff.1 h with h1 | ⟨p, h1, _⟩
        · exact absurd h1.symm hij
        · rw [hpar] at h1
          cases h1
    | some p =>
      have hlt : p < i := hp i node hnode p hpar
      have hstep : ∀ (k : Nat) (n : MCTSNode), t[k]? = some n →
          ∃ n' : MCTSNode, (t.set i (credit w node))[k]? = some n' ∧ n'.parent = n.parent := by
        intro k n hk
        by_cases hik : i = k
        · subst hik
          rw [hnode] at hk
          cases hk
          exact ⟨_, List.getElem?_set_self hi, rfl⟩
        · exact ⟨n, by rw [List.getElem?_set_ne hik]; exact hk, rfl⟩
      have hback : ∀ (k : Nat) (n : MCTSNode), (t.set i (credit w node))[k]? = some n →
          ∃ n' : MCTSNode, t[k]? = some n' ∧ n'.parent = n.parent := by
        intro k n hk
        by_cases hik : i = k
        · subst hik
          rw [List.getElem?_set_self hi] at hk
          cases hk
          exact ⟨node, hnode, rfl⟩
        · rw [List.getElem?_set_ne hik] at hk
          exact ⟨n, hk, rfl⟩
      have hp1 : ParentsBelow (t.set i (credit w node)) := by
        intro k n hk q hq
        obtain ⟨n', h1, h2⟩ := hback k n hk
        exact hp k n' h1 q (by rw [h2]; exact hq)
      obtain ⟨t', h1, h2, h3⟩ := ih (t.set i (credit w node)) p hp1 (by simp; omega) (by omega)
      refine ⟨t', h1, by rw [h2]; simp, ?_⟩
      intro j n hn
      have hiff := onChain_iff t i j node hnode
      have hch : OnChain (t.set i (credit w node)) p j ↔ OnChain t p j :=
        ⟨onChain_congr _ _ hback p j, onChain_congr _ _ hstep p j⟩
      by_cases hij : i = j
      · subst hij
        rw [hnode] at hn
        cases hn
        have hnot : ¬ OnChain (t.set i (credit w node)) p i := by
          intro hc
          have := onChain_le _ hp1 p i hc
          omega
        exact ⟨fun _ => (h3 i (credit w node) (List.getElem?_set_self hi)).2 hnot,
          fun h => absurd (OnChain.here i) h⟩
      · have hn1 : (t.set i (credit w node))[j]? = some n := by
          rw [List.getElem?_set_ne hij]
          exact hn
        obtain ⟨h4, h5⟩ := h3 j n hn1
        constructor
        · intro h
          rcases hiff.1 h with h6 | ⟨q, h6, h7⟩
          · exact absurd h6.symm hij
          · rw [hpar] at h6
            cases h6
            exact h4 (hch.2 h7)
        · intro h
          apply h5
          intro hc
          exact h (hiff.2 (Or.inr ⟨p, hpar, hch.1 hc⟩))

theorem backpropagate_spec (t : Tree) (leaf : Nat) (w : Int) (hp : ParentsBelow t)
    (hleaf : leaf < t.length) :
    ∃ t', backpropagate t leaf w = some t' ∧ t'.length = t.length ∧
      ∀ (j : Nat) (n : MCTSNode), t[j]? = some n →
        (OnChain t leaf j → t'[j]? = some (credit w n)) ∧
        (¬ OnChain t leaf j → t'[j]? = some n) :=
  backpropagate_loop_spec t.length t leaf w hp hleaf hleaf

/-- The parent chain of a node of the heap ends in a root, a node without parent. -/
theorem onChain_root (t : Tree) (hp : ParentsBelow t) (i : Nat) (hi : i < t.length) :
    ∃ (r : Nat) (n : MCTSNode), OnChain t i r ∧ t[r]? = some n ∧ n.parent = none := by
  induction i using Nat.strong_induction_on with
  | _ i ih =>
    have hnode : t[i]? = some t[i] := List.getElem?_eq_getElem hi
    generalize t[i] = node at hnode
    cases hpar : node.parent with
    | none => exact ⟨i, node, OnChain.here i, hnode, hpar⟩
    | some p =>
      have hlt := hp i node hnode p hpar
      obtain ⟨r, n, h1, h2, h3⟩ := ih p hlt (by omega)
      exact ⟨r, n, OnChain.up i p r node hnode hpar h1, h2, h3⟩

/-- A heap whose nodes differ from those of a well-linked heap in the counters only is
well linked. -/
theorem treeOK_of_sameLinks (t t' : Tree) (h : TreeOK t) (hlen : t'.length = t.length)
    (hs : ∀ (j : Nat) (n : MCTSNode), t[j]? = some n →
      ∃ n' : MCTSNode, t'[j]? = some n' ∧ SameLinks n n') : TreeOK t' := by
  intro j n' hn'
  have hj : j < t.length := by
    rw [← hlen]
    exact lt_length_of_get hn'
  obtain ⟨n'', h1, h2⟩ := hs j t[j] (List.getElem?_eq_getElem hj)
  rw [hn'] at h1
  cases h1
  have ok := h j t[j] (List.getElem?_eq_getElem hj)
  obtain ⟨hst, hch, hun⟩ := h2
  refine ⟨?_, ?_, ?_, ?_⟩
  · rw [hst.2.2.2.1]
    exact ok.parent_lt
  · rw [hch]
    exact ok.child_gt
  · rw [hch, hst.1]
    intro c hc
    obtain ⟨cn, h3, h4, h5⟩ := ok.child_ok c hc
    obtain ⟨cn', h6, h7⟩ := hs c cn h3
    exact ⟨cn', h6, by rw [h7.1.2.2.2.1]; exact h4, by rw [h7.1.2.2.1]; exact h5⟩
  · rw [hun, hst.1]
    exact ok.untried_ok

theorem backpropagate_ok (t : Tree) (leaf : Nat) (w : Int) (h : TreeOK t)
    (hleaf : leaf < t.length) :
    ∃ t', backpropagate t leaf w = some t' ∧ TreeOK t' ∧ Extends t t' ∧
      ∀ (j : Nat) (n : MCTSNode), t[j]? = some n →
        ∃ n' : MCTSNode, t'[j]? = some n' ∧ SameLinks n n' := by
  obtain ⟨t', h1, h2, h3⟩ := backpropagate_spec t leaf w (parentsBelow_of_treeOK t h) hleaf
  have hs : ∀ (j : Nat) (n : MCTSNode), t[j]? = some n →
      ∃ n' : MCTSNode, t'[j]? = some n' ∧ SameLinks n n' := by
    intro j n hn
    by_cases hc : OnChain t leaf j
    · exact ⟨_, (h3 j n hn).1 hc, sameLinks_credit w n⟩
    · exact ⟨_, (h3 j n hn).2 hc, sameLinks_refl n⟩
  refine ⟨t', h1, treeOK_of_sameLinks t t' h h2 hs, ⟨by omega, ?_⟩, hs⟩
  intro j n hn
  obtain ⟨n', h4, h5⟩ := hs j n hn
  exact ⟨n', h4, h5.1⟩

/-! ## The search -/

/-- The main loop runs to its end on a well-linked heap and leaves it well linked. -/
theorem mcts_loop_ok (fl : DoubleOps) (o : Oracle) (iters : Nat) (t : Tree) (s : Calls)
    (root : Nat) (h : TreeOK t) (hroot : root < t.length) :
    ∃ t' s', mcts_loop fl o iters t s root = some (t', s') ∧ TreeOK t' ∧ Extends t t' := by
  induction iters generalizing t s with
  | zero => exact ⟨t, s, rfl, h, extends_refl t⟩
  | succ n ih =>
    unfold mcts_loop
    obtain ⟨t1, s1, leaf, h1, h2, h3, h4⟩ :=
      select_node_ok fl o t.length t s root h hroot (by omega)
    rw [h1]
    simp only []
    obtain ⟨w, s2, h5⟩ := simulate_random_playout_ok o t1 s1 leaf h4
    rw [h5]
    simp only []
    obtain ⟨t2, h6, h7, h8, _⟩ := backpropagate_ok t1 leaf w h2 h4
    rw [h6]
    simp only []
    obtain ⟨t3, s3, h9, h10, h11⟩ := ih t2 s2 h7 (by have := h3.1; have := h8.1; omega)
    exact ⟨t3, s3, h9, h10, extends_trans h3 (extends_trans h8 h11)⟩

theorem most_visited_loop_ok (t : Tree) (cs : List Nat)
    (h : ∀ c ∈ cs, ∃ cn : MCTSNode, t[c]? = some cn) (most : Int) (best : Option Nat) :
    ∃ r, most_visited_loop t cs most best = some r ∧ (r = best ∨ ∃ c ∈ cs, r = some c) := by
  induction cs generalizing most best with
  | nil => exact ⟨best, rfl, Or.inl rfl⟩
  | cons c cs ih =>
    obtain ⟨cn, hcn⟩ := h c (List.mem_cons_self c cs)
    have h' : ∀ d ∈ cs, ∃ dn : MCTSNode, t[d]? = some dn :=
      fun d hd => h d (List.mem_cons_of_mem c hd)
    unfold most_visited_loop
    rw [hcn]
    simp only []
    split
    · obtain ⟨r, hr, hr'⟩ := ih h' cn.visits (some c)
      refine ⟨r, hr, ?_⟩
      rcases hr' with hr' | ⟨d, hd, hr'⟩
      · exact Or.inr ⟨c, List.mem_cons_self c cs, hr'⟩
      · exact Or.inr ⟨d, List.mem_cons_of_mem c hd, hr'⟩
    · obtain ⟨r, hr, hr'⟩ := ih h' most best
      refine ⟨r, hr, ?_⟩
      rcases hr' with hr' | ⟨d, hd, hr'⟩
      · exact Or.inl hr'
      · exact Or.inr ⟨d, List.mem_cons_of_mem c hd, hr'⟩

/-- The end of the search: on a well-linked heap whose root holds the input board the
answer is a legal column, or `-1` when the last fallback finds no column. -/
theorem choose_move_ok (o : Oracle) (t : Tree) (s : Calls) (root : Nat) (board : Board)
    (rn : MCTSNode) (h : TreeOK t) (hroot : t[root]? = some rn) (hb : rn.board = board) :
    ∃ r, choose_move o t s root board = some r ∧
      (is_valid_location board r = true ∨
        (r = -1 ∧ (o.malloc_ok s.mallocs = false ∨ valid_columns board = []))) := by
  have ok := h root rn hroot
  unfold choose_move
  rw [hroot]
  simp only []
  obtain ⟨r, hr, hr'⟩ := most_visited_loop_ok t rn.children
    (fun c hc => by
      obtain ⟨cn, h1, _⟩ := ok.child_ok c hc
      exact ⟨cn, h1⟩) (-1) none
  rw [hr]
  rcases hr' with hr' | ⟨c, hc, hr'⟩
  · subst hr'
    simp only []
    split
    · rename_i hlen
      have hidx : o.rand s.rands % rn.untried_moves.length < rn.untried_moves.length :=
        Nat.mod_lt _ hlen
      rw [List.getElem?_eq_getElem hidx]
      refine ⟨_, rfl, Or.inl ?_⟩
      rw [← hb]
      exact ok.untried_ok _ (List.getElem_mem _)
    · cases hm : o.malloc_ok s.mallocs
      · exact ⟨-1, rfl, Or.inr ⟨rfl, Or.inl rfl⟩⟩
      · have e1 : num_moves (get_valid_moves true board) = (valid_columns board).length := rfl
        have e2 : (get_valid_moves true board).getD [] = valid_columns board := rfl
        rw [e1, e2]
        split
        · rename_i hlen
          rw [List.getElem?_eq_getElem hlen]
          exact ⟨_, rfl, Or.inl ((mem_valid_columns board _).1 (List.getElem_mem _))⟩
        · rename_i hlen
          refine ⟨-1, rfl, Or.inr ⟨rfl, Or.inr ?_⟩⟩
          exact List.length_eq_zero.1 (by omega)
  · subst hr'
    simp only []
    obtain ⟨cn, h1, _, h3⟩ := ok.child_ok c hc
    rw [h1]
    refine ⟨cn.move, rfl, Or.inl ?_⟩
    rw [← hb]
    exact h3

theorem treeOK_nil : TreeOK [] := by
  intro i n hn
  simp at hn

/-- The search returns on every input.  Its answer is `-1` only for a finished game or
after a failed allocation, and otherwise a legal column of a game that is not over. -/
theorem mcts_search_cases (fl : DoubleOps) (o : Oracle) (iters : Nat) (board : Board)
    (player : Int) :
    ∃ r, mcts_search fl o iters board player = some r ∧
      ((r = -1 ∧ (check_game_over board ≠ -1 ∨ ∃ k, o.malloc_ok k = false)) ∨
        (is_valid_location board r = true ∧ check_game_over board = -1)) := by
  unfold mcts_search
  rcases create_node_cases o [] { rands := 0, mallocs := 0 } none (-1) board player with
    ⟨_, okm, s', e, hokm⟩ | ⟨hm, s', e⟩
  · rw [e]
    simp only [List.nil_append, List.length_nil, List.getElem?_cons_zero]
    have hst := new_node_static okm none (-1) board player
    have hun := new_node_untried okm none (-1) board player
    by_cases hgo : check_game_over board = -1
    · have hterm : (new_node okm none (-1) board player).is_terminal = false := by
        rw [← Bool.not_eq_true, hst.2.2.2.2.2.2.2.2]
        simp [hgo]
      rw [hterm]
      simp only [Bool.false_eq_true, if_false]
      split
      · rename_i hempty
        refine ⟨-1, rfl, Or.inl ⟨rfl, Or.inr ?_⟩⟩
        rw [hun] at hempty
        cases hk : okm
        · exact ⟨_, (hokm hgo).symm.trans hk⟩
        · exfalso
          rw [if_pos ⟨hgo, hk⟩] at hempty
          simp only [Bool.and_eq_true, beq_iff_eq, List.length_eq_zero] at hempty
          exact valid_columns_ne_nil_of_ongoing board hgo hempty.1
      · have hok : TreeOK [new_node okm none (-1) board player] := by
          have := treeOK_push [] (new_node okm none (-1) board player) treeOK_nil
            (by
              intro p hp
              rw [hst.2.2.2.1] at hp
              cases hp)
            hst.2.2.2.2.1 (new_node_untried_ok _ _ _ _ _)
          simpa using this
        obtain ⟨t1, s1, h1, h2, h3⟩ := mcts_loop_ok fl o iters
          [new_node okm none (-1) board player] s' 0 hok (by simp)
        rw [h1]
        simp only []
        obtain ⟨rn, h4, h5⟩ := h3.2 0 (new_node okm none (-1) board player) (by simp)
        obtain ⟨r, h6, h7⟩ := choose_move_ok o t1 s1 0 board rn h2 h4 (by rw [h5.1, hst.1])
        refine ⟨r, h6, ?_⟩
        rcases h7 with h7 | ⟨h7, h8 | h8⟩
        · exact Or.inr ⟨h7, hgo⟩
        · exact Or.inl ⟨h7, Or.inr ⟨_, h8⟩⟩
        · exact absurd h8 (valid_columns_ne_nil_of_ongoing board hgo)
    · have hterm : (new_node okm none (-1) board player).is_terminal = true := by
        rw [hst.2.2.2.2.2.2.2.2]
        exact hgo
      rw [hterm]
      simp only [if_true]
      exact ⟨-1, rfl, Or.inl ⟨rfl, Or.inl hgo⟩⟩
  · rw [e]
    exact ⟨-1, rfl, Or.inl ⟨rfl, Or.inr ⟨_, hm⟩⟩⟩

/-- The successful path of `expand_node`: on a node that is not terminal and has untried
moves, all legal on its board, and when `malloc` gives a node, the move at index
`rand() % num_untried_moves` becomes a new child at the end of the heap. -/
theorem expand_node_success (o : Oracle) (t : Tree) (s : Calls) (i : Nat) (node : MCTSNode)
    (hnode : t[i]? = some node) (hterm : node.is_terminal = false)
    (hlen : 0 < node.untried_moves.length)
    (hvalid : ∀ m ∈ node.untried_moves, is_valid_location node.board m = true)
    (hm : o.malloc_ok s.mallocs = true) :
    ∃ (move_col : Int) (okm : Bool) (s' : Calls),
      node.untried_moves[o.rand s.rands % node.untried_moves.length]? = some move_col ∧
      (check_game_over (drop_piece node.board (get_next_open_row node.board move_col)
          move_col node.player) = -1 → okm = o.malloc_ok (s.mallocs + 1)) ∧
      expand_node o t s i = some
        ((t ++ [new_node okm (some i) move_col
            (drop_piece node.board (get_next_open_row node.board move_col) move_col
              node.player) (other_player node.player)]).set i
          { node with
            children :=
              if node.children.length < COLS then node.children ++ [t.length]
              else node.children,
            untried_moves :=
              (node.untried_moves.set (o.rand s.rands % node.untried_moves.length)
                (node.untried_moves.getD (node.untried_moves.length - 1) 0)).dropLast },
          s', t.length) := by
  unfold expand_node
  rw [hnode]
  simp only []
  have hterm' : ¬ ((node.is_terminal || node.untried_moves.length == 0) = true) := by
    simp only [hterm, Bool.false_or, beq_iff_eq]
    omega
  rw [if_neg hterm']
  have hidx : o.rand s.rands % node.untried_moves.length < node.untried_moves.length :=
    Nat.mod_lt _ hlen
  rw [List.getElem?_eq_getElem hidx]
  simp only []
  have hmem : node.untried_moves[o.rand s.rands % node.untried_moves.length] ∈
      node.untried_moves := List.getElem_mem _
  generalize node.untried_moves[o.rand s.rands % node.untried_moves.length] = move_col
    at hmem
  have hrow := get_next_open_row_of_valid node.board move_col (hvalid move_col hmem)
  have hne : (get_next_open_row (copy_board node.board) move_col != -1) = true := by
    simp only [copy_board, bne_iff_ne, ne_eq]
    omega
  rw [if_pos hne]
  rcases create_node_cases o t { rands := s.rands + 1, mallocs := s.mallocs } (some i) move_col
    (drop_piece (copy_board node.board) (get_next_open_row (copy_board node.board) move_col)
      move_col node.player)
    (if node.player == PLAYER1 then PLAYER2 else PLAYER1) with
    ⟨_, okm, s', e, hokm⟩ | ⟨hm', _, _⟩
  · rw [e]
    exact ⟨move_col, okm, s', rfl, hokm, rfl⟩
  · rw [hm] at hm'
    exact absurd hm' (by simp)

theorem create_node_rands (o : Oracle) (t : Tree) (s : Calls) (parent : Option Nat)
    (move : Int) (board : Board) (player : Int) :
    (create_node o t s parent move board player).2.1.rands = s.rands := by
  unfold create_node
  split
  · split <;> rfl
  · rfl

theorem onChain_parent (t : Tree) (i p : Nat) (n : MCTSNode) (hn : t[i]? = some n)
    (hp : n.parent = some p) : OnChain t i p :=
  OnChain.up i p p n hn hp (OnChain.here p)

/-- With a budget of one iteration, on a game that is not over and with every allocation
succeeding, the search answers with the move that the first random value picks among the
untried moves of the root. -/
theorem mcts_search_one (fl : DoubleOps) (o : Oracle) (board : Board) (player : Int)
    (hok : ∀ k, o.malloc_ok k = true) (hgo : check_game_over board = -1) :
    mcts_search fl o 1 board player =
      (valid_columns board)[o.rand 0 % (valid_columns board).length]? := by
  have hne := valid_columns_ne_nil_of_ongoing board hgo
  have hpos : 0 < (valid_columns board).length := List.length_pos.2 hne
  unfold mcts_search
  have hrands := create_node_rands o [] { rands := 0, mallocs := 0 } none (-1) board player
  rcases create_node_cases o [] { rands := 0, mallocs := 0 } none (-1) board player with
    ⟨_, okm, s', e, hokm⟩ | ⟨hm, _, _⟩
  swap
  · rw [hok] at hm
    exact absurd hm (by simp)
  rw [e] at hrands ⊢
  simp only at hrands
  have hokm' : okm = true := (hokm hgo).trans (hok _)
  subst hokm'
  simp only [List.nil_append, List.length_nil, List.getElem?_cons_zero]
  have hst := new_node_static true none (-1) board player
  have hun : (new_node true none (-1) board player).untried_moves = valid_columns board := by
    rw [new_node_untried, if_pos ⟨hgo, rfl⟩]
  have hterm : (new_node true none (-1) board player).is_terminal = false := by
    rw [← Bool.not_eq_true, hst.2.2.2.2.2.2.2.2]
    simp [hgo]
  generalize new_node true none (-1) board player = root at hst hun hterm
  obtain ⟨hboard, hplayer, hmove, hparent, hchildren, hwins, hvisits, _, _⟩ := hst
  rw [hterm]
  simp only [Bool.false_eq_true, if_false]
  have hnotempty : ¬ ((root.untried_moves.length == 0 && root.children.length == 0) = true) := by
    rw [hun]
    simp only [Bool.and_eq_true, beq_iff_eq, not_and]
    omega
  rw [if_neg hnotempty]
  -- the single iteration: selection expands the root
  have hvalid : ∀ m ∈ root.untried_moves, is_valid_location root.board m = true := by
    intro m hm
    rw [hun] at hm
    rw [hboard]
    exact (mem_valid_columns board m).1 hm
  obtain ⟨move_col, okm, s1, hcol, _, hexp⟩ := expand_node_success o [root] s' 0 root
    (by simp) hterm (by rw [hun]; exact hpos) hvalid (hok _)
  rw [hun, hrands] at hcol
  have hsel : select_node fl o 1 [root] s' 0 = expand_node o [root] s' 0 := by
    unfold select_node
    simp only [List.getElem?_cons_zero, hterm, Bool.false_eq_true, if_false]
    rw [if_pos (by rw [hun]; exact hpos)]
  have hst := new_node_static okm (some 0) move_col
    (drop_piece root.board (get_next_open_row root.board move_col) move_col root.player)
    (other_player root.player)
  generalize new_node okm (some 0) move_col
    (drop_piece root.board (get_next_open_row root.board move_col) move_col root.player)
    (other_player root.player) = child at hst hexp
  obtain ⟨_, _, hcmove, hcparent, _, _, hcvisits, _, _⟩ := hst
  rw [hchildren] at hexp
  simp only [List.length_nil, COLS, Nat.zero_lt_succ, if_true, List.nil_append,
    List.length_singleton, List.singleton_append, List.set_cons_zero] at hexp
  generalize ((root.untried_moves.set (o.rand s'.rands % root.untried_moves.length)
    (root.untried_moves.getD (root.untried_moves.length - 1) 0)).dropLast) = untried at hexp
  unfold mcts_loop
  simp only [List.length_singleton]
  rw [hsel, hexp]
  simp only []
  -- the playout and the backpropagation from the new child
  obtain ⟨w, s2, hsim⟩ := simulate_random_playout_ok o
    [{ root with children := [1], untried_moves := untried }, child] s1 1 (by simp)
  rw [hsim]
  simp only []
  have hpb : ParentsBelow [{ root with children := [1], untried_moves := untried }, child] := by
    intro j n hn p hp
    match j with
    | 0 =>
      simp only [List.getElem?_cons_zero, Option.some.injEq] at hn
      subst hn
      rw [hparent] at hp
      cases hp
    | 1 =>
      simp only [List.getElem?_cons_succ, List.getElem?_cons_zero, Option.some.injEq] at hn
      subst hn
      rw [hcparent] at hp
      cases hp
      exact Nat.zero_lt_one
    | j + 2 => simp at hn
  obtain ⟨t2, hbp, hlen, hspec⟩ := backpropagate_spec
    [{ root with children := [1], untried_moves := untried }, child] 1 w hpb (by simp)
  rw [hbp]
  simp only []
  have h0 := (hspec 0 { root with children := [1], untried_moves := untried } (by simp)).1
    (onChain_parent _ 1 0 child (by simp) hcparent)
  have h1 := (hspec 1 child (by simp)).1 (OnChain.here 1)
  unfold mcts_loop choose_move
  simp only []
  rw [h0]
  simp only [credit]
  unfold most_visited_loop
  rw [h1]
  simp only [credit, hcvisits]
  rw [if_pos (by norm_num)]
  unfold most_visited_loop
  simp only []
  rw [h1]
  simp only [credit, hcmove]
  exact hcol.symm

/-! ## The claims -/

theorem countP_top_empty (board : Board) :
    (valid_columns board).length =
      (List.range COLS).countP fun (c : Nat) => board 0 (c : Int) == EMPTY := by
  unfold valid_columns
  rw [List.filter_map, List.length_map, List.countP_eq_length_filter]
  have e : List.filter ((fun c => is_valid_location board c) ∘ fun (c : Nat) => (c : Int))
      (List.range COLS) = List.filter (fun (c : Nat) => board 0 (c : Int) == EMPTY) (List.range COLS) := by
    apply List.filter_congr
    intro c hc
    rw [List.mem_range] at hc
    simp only [Function.comp, is_valid_location]
    have h1 : decide ((c : Int) ≥ 0) = true := by simp
    have h2 : decide ((c : Int) < (COLS : Int)) = true := by
      simp only [decide_eq_true_eq]
      exact_mod_cast hc
    rw [h1, h2]
    rfl
  rw [e]

/-- C4: when its allocation succeeds, `get_valid_moves` returns exactly the columns `c` of
`[0, COLS)` whose top cell `board[0][c]` is `EMPTY`, in strictly ascending order (hence each
once); `*num_moves` is the length of the array, which is the number of such columns; and the
array is empty if and only if `is_board_full(board)` holds. -/
theorem c4_get_valid_moves (board : Board) :
    ∃ l, get_valid_moves true board = some l ∧
      (∀ c : Int, c ∈ l ↔ 0 ≤ c ∧ c < COLS ∧ board 0 c = EMPTY) ∧
      l.Pairwise (· < ·) ∧
      num_moves (get_valid_moves true board) = l.length ∧
      l.length = (List.range COLS).countP (fun (c : Nat) => board 0 (c : Int) == EMPTY) ∧
      (l = [] ↔ is_board_full board = true) :=
  ⟨valid_columns board, rfl,
    fun c => (mem_valid_columns board c).trans (is_valid_location_iff board c),
    valid_columns_sorted board, rfl, countP_top_empty board, valid_columns_eq_nil_iff board⟩

/-- C5: a move in column `col` is rejected exactly when `col` is outside `[0, COLS)` or the
top cell of the column is occupied; otherwise `get_next_open_row` returns the greatest row
index `r` whose cell in the column is `EMPTY`, and the board after `drop_piece` holds
`player` at `(r, col)` and agrees with the input board at every other cell. -/
theorem c5_apply_move (board : Board) (col player : Int) :
    (apply_move board col player = none ↔
      (col < 0 ∨ (COLS : Int) ≤ col ∨ board 0 col ≠ EMPTY)) ∧
    (is_valid_location board col = true →
      0 ≤ get_next_open_row board col ∧ get_next_open_row board col < ROWS ∧
      board (get_next_open_row board col) col = EMPTY ∧
      (∀ r : Int, get_next_open_row board col < r → r < ROWS → board r col ≠ EMPTY) ∧
      ∃ b', apply_move board col player = some b' ∧
        b' (get_next_open_row board col) col = player ∧
        ∀ r c : Int, ¬ (r = get_next_open_row board col ∧ c = col) → b' r c = board r c) := by
  refine ⟨(apply_move_eq_none_iff board col player).trans
    (is_valid_location_eq_false_iff board col), ?_⟩
  intro h
  have hrow := get_next_open_row_of_valid board col h
  have hcol := (is_valid_location_iff board col).1 h
  refine ⟨hrow.1, hrow.2.1, hrow.2.2.1, hrow.2.2.2, _, apply_move_of_valid board col player h,
    ?_, ?_⟩
  · rw [drop_piece_apply board _ col player _ _ ⟨hrow.1, hrow.2.1, hcol.1, hcol.2.1⟩]
    simp
  · intro r c hrc
    exact drop_piece_other board _ col player r c hrc

/-- An instance of C5 on the empty board: column 0 is accepted. -/
theorem c5_apply_move_witness :
    is_valid_location init_board 0 = true ∧
    ∃ b', apply_move init_board 0 PLAYER1 = some b' ∧
      b' (get_next_open_row init_board 0) 0 = PLAYER1 ∧
      ∀ r c : Int, ¬ (r = get_next_open_row init_board 0 ∧ c = 0) → b' r c = init_board r c :=
  ⟨by decide, ((c5_apply_move init_board 0 PLAYER1).2 (by decide)).2.2.2.2⟩

theorem isWindow_of_cells (board : Board) (player r c dr dc : Int)
    (hd : (dr = 0 ∨ dr = 1 ∨ dr = -1) ∧ (dc = 0 ∨ dc = 1))
    (h0 : InBounds r c) (h3 : InBounds (r + 3 * dr) (c + 3 * dc))
    (hcells : ∀ i : Int, 0 ≤ i → i < CONNECT_LEN → board (r + i * dr) (c + i * dc) = player) :
    IsWindow board player r c dr dc := by
  intro i hi0 hi1
  refine ⟨?_, hcells i hi0 hi1⟩
  simp only [InBounds, ROWS, COLS, CONNECT_LEN] at h0 h3 hi1 ⊢
  push_cast at h0 h3 hi1 ⊢
  rcases hd with ⟨hdr | hdr | hdr, hdc | hdc⟩ <;> subst hdr <;> subst hdc <;>
    refine ⟨?_, ?_, ?_, ?_⟩ <;> omega

/-- C6: `check_win(board, player)` is true exactly when some window of `CONNECT_LEN`
consecutive in-bounds cells along a row, a column, a down-right diagonal or an up-right
diagonal holds `player` in every cell.  In particular every such placement that fits on the
board (first cell `(r, c)` and last cell `(r + 3 dr, c + 3 dc)` in bounds, direction
`(dr, dc)` one of `(0,1)`, `(1,0)`, `(1,1)`, `(-1,1)`) makes `check_win` true: the loop
bounds skip no window. -/
theorem c6_check_win (board : Board) (player : Int) :
    (check_win board player = true ↔ HasWindow board player) ∧
    (∀ r c dr dc : Int,
      ((dr = 0 ∧ dc = 1) ∨ (dr = 1 ∧ dc = 0) ∨ (dr = 1 ∧ dc = 1) ∨ (dr = -1 ∧ dc = 1)) →
      InBounds r c → InBounds (r + 3 * dr) (c + 3 * dc) →
      (∀ i : Int, 0 ≤ i → i < CONNECT_LEN → board (r + i * dr) (c + i * dc) = player) →
      check_win board player = true) := by
  refine ⟨check_win_iff_hasWindow board player, ?_⟩
  intro r c dr dc hd h0 h3 hcells
  rw [check_win_iff_hasWindow]
  refine ⟨r, c, ?_⟩
  rcases hd with ⟨h1, h2⟩ | ⟨h1, h2⟩ | ⟨h1, h2⟩ | ⟨h1, h2⟩ <;> subst h1 <;> subst h2
  · exact Or.inl (isWindow_of_cells board player r c 0 1 (by simp) h0 h3 hcells)
  · exact Or.inr (Or.inl (isWindow_of_cells board player r c 1 0 (by simp) h0 h3 hcells))
  · exact Or.inr (Or.inr (Or.inl
      (isWindow_of_cells board player r c 1 1 (by simp) h0 h3 hcells)))
  · exact Or.inr (Or.inr (Or.inr
      (isWindow_of_cells board player r c (-1) 1 (by simp) h0 h3 hcells)))

/-- An instance of C6: four `PLAYER1` pieces in column 3 at rows 2 to 5 are a win. -/
theorem c6_check_win_witness :
    check_win (drop_piece three_in_column_3 2 3 PLAYER1) PLAYER1 = true :=
  (c6_check_win (drop_piece three_in_column_3 2 3 PLAYER1) PLAYER1).2 2 3 1 0
    (Or.inr (Or.inl ⟨rfl, rfl⟩)) ⟨by decide, by decide, by decide, by decide⟩
    ⟨by decide, by decide, by decide, by decide⟩ (by
      intro i h0 h1
      have h1' : i < 4 := h1
      have : i = 0 ∨ i = 1 ∨ i = 2 ∨ i = 3 := by omega
      rcases this with h | h | h | h <;> subst h <;> decide)

/-- C7: `check_game_over` returns `PLAYER1` iff `PLAYER1` has a winning window, `PLAYER2` iff
`PLAYER2` has one and `PLAYER1` has none, `0` iff nobody has one and every cell of the top
row is occupied, and `-1` iff nobody has one and some column is legal.  Hence a line of four
`PLAYER1` pieces gives `PLAYER1` (and not `PLAYER2`), and a full top row without a win gives
the draw `0`. -/
theorem c7_check_game_over (board : Board) :
    (check_game_over board = PLAYER1 ↔ check_win board PLAYER1 = true) ∧
    (check_game_over board = PLAYER2 ↔
      check_win board PLAYER2 = true ∧ check_win board PLAYER1 = false) ∧
    (check_game_over board = 0 ↔
      check_win board PLAYER1 = false ∧ check_win board PLAYER2 = false ∧
        TopRowOccupied board) ∧
    (check_game_over board = -1 ↔
      check_win board PLAYER1 = false ∧ check_win board PLAYER2 = false ∧
        ∃ c : Int, is_valid_location board c = true) ∧
    (HasWindow board PLAYER1 →
      check_game_over board = PLAYER1 ∧ check_game_over board ≠ PLAYER2) ∧
    (TopRowOccupied board → ¬ HasWindow board PLAYER1 → ¬ HasWindow board PLAYER2 →
      check_game_over board = 0) := by
  obtain ⟨h1, h2, h3, h4⟩ := check_game_over_cases board
  have h3' : check_game_over board = 0 ↔
      check_win board PLAYER1 = false ∧ check_win board PLAYER2 = false ∧
        TopRowOccupied board := by
    rw [h3, is_board_full_iff_top]
  refine ⟨h1, h2, h3', ?_, ?_, ?_⟩
  · rw [h4, not_full_iff_exists_valid]
  · intro hw
    have := h1.2 ((check_win_iff_hasWindow board PLAYER1).2 hw)
    exact ⟨this, by rw [this]; simp [PLAYER1, PLAYER2]⟩
  · intro htop hw1 hw2
    rw [← check_win_iff_hasWindow, Bool.not_eq_true] at hw1 hw2
    exact h3'.2 ⟨hw1, hw2, htop⟩

/-- An instance of C7: the scenario board with a fourth `PLAYER1` piece in column 3 is won
by `PLAYER1`. -/
theorem c7_check_game_over_witness :
    check_game_over (drop_piece three_in_column_3 2 3 PLAYER1) = PLAYER1 ∧
      check_game_over (drop_piece three_in_column_3 2 3 PLAYER1) ≠ PLAYER2 :=
  (c7_check_game_over (drop_piece three_in_column_3 2 3 PLAYER1)).2.2.2.2.1
    ((check_win_iff_hasWindow _ _).1 (by decide))

/-- C8: on the empty board of `init_board`, `get_valid_moves` returns the seven columns
`0 .. 6`; a move in column 0 finds the open row 5, and after `drop_piece` (by either player)
the only occupied cell of the board is row 5, column 0. -/
theorem c8_empty_board :
    get_valid_moves true init_board = some [0, 1, 2, 3, 4, 5, 6] ∧
    num_moves (get_valid_moves true init_board) = 7 ∧
    get_next_open_row init_board 0 = 5 ∧
    (∀ r c : Int, drop_piece init_board (get_next_open_row init_board 0) 0 PLAYER1 r c ≠ EMPTY ↔
      (r = 5 ∧ c = 0)) ∧
    (∀ r c : Int, drop_piece init_board (get_next_open_row init_board 0) 0 PLAYER2 r c ≠ EMPTY ↔
      (r = 5 ∧ c = 0)) ∧
    apply_move init_board 0 PLAYER1 = some (drop_piece init_board 5 0 PLAYER1) ∧
    apply_move init_board 0 PLAYER2 = some (drop_piece init_board 5 0 PLAYER2) := by
  have hrow : get_next_open_row init_board 0 = 5 := by decide
  have hcell : ∀ p : Int, p ≠ EMPTY → ∀ r c : Int,
      drop_piece init_board 5 0 p r c ≠ EMPTY ↔ (r = 5 ∧ c = 0) := by
    intro p hp r c
    rw [drop_piece_apply init_board 5 0 p r c (by decide)]
    by_cases h : r = 5 ∧ c = 0
    · simp [h, hp]
    · simp [h, init_board]
  refine ⟨by decide, by decide, hrow, ?_, ?_, ?_, ?_⟩
  · rw [hrow]
    exact hcell PLAYER1 (by decide)
  · rw [hrow]
    exact hcell PLAYER2 (by decide)
  · rw [apply_move_of_valid init_board 0 PLAYER1 (by decide), hrow]
  · rw [apply_move_of_valid init_board 0 PLAYER2 (by decide), hrow]

/-- C9: in a legal game with alternating turns that stops as soon as `check_game_over` is
not `-1`, `check_win(board, PLAYER1)` and `check_win(board, PLAYER2)` are never both true;
so testing the players in the other order gives the same result of `check_game_over`. -/
theorem c9_one_winner (board : Board) (turn : Int) (h : LegalPosition board turn) :
    ¬ (check_win board PLAYER1 = true ∧ check_win board PLAYER2 = true) ∧
      check_game_over_swapped board = check_game_over board :=
  ⟨legalPosition_one_winner board turn h,
    check_game_over_swapped_eq board (legalPosition_one_winner board turn h)⟩

/-- An instance of C9: the position after `PLAYER1` opens in column 3. -/
theorem c9_one_winner_witness :
    LegalPosition (drop_piece init_board (get_next_open_row init_board 3) 3 PLAYER1)
        (other_player PLAYER1) ∧
      ¬ (check_win (drop_piece init_board (get_next_open_row init_board 3) 3 PLAYER1) PLAYER1
            = true ∧
          check_win (drop_piece init_board (get_next_open_row init_board 3) 3 PLAYER1) PLAYER2
            = true) :=
  ⟨LegalPosition.move init_board PLAYER1 3 (LegalPosition.start PLAYER1 (Or.inl rfl))
      (by decide) (by decide),
    (c9_one_winner _ _ (LegalPosition.move init_board PLAYER1 3
      (LegalPosition.start PLAYER1 (Or.inl rfl)) (by decide) (by decide))).1⟩

/-- C1: for every board, every player to move, every sequence of random values and every
pattern of allocation failures, `mcts_get_best_move` returns, and its result is either the
failure value `-1` or a column `c` with `0 ≤ c < COLS` whose top cell is `EMPTY`, that is a
column accepted by `is_valid_location` on the input board; when the input board has no
legal column the result is `-1`. -/
theorem c1_best_move_legal_or_failure (fl : DoubleOps) (o : Oracle) (board : Board)
    (player : Int) :
    ∃ r, mcts_get_best_move fl o board player = some r ∧
      (r = -1 ∨ (0 ≤ r ∧ r < COLS ∧ board 0 r = EMPTY ∧ is_valid_location board r = true)) ∧
      ((∀ c : Int, is_valid_location board c = false) → r = -1) := by
  obtain ⟨r, h1, h2⟩ := mcts_search_cases fl o MCTS_ITERATIONS board player
  refine ⟨r, h1, ?_, ?_⟩
  · rcases h2 with ⟨h2, _⟩ | ⟨h2, _⟩
    · exact Or.inl h2
    · have := (is_valid_location_iff board r).1 h2
      exact Or.inr ⟨this.1, this.2.1, this.2.2, h2⟩
  · intro hnone
    rcases h2 with ⟨h2, _⟩ | ⟨h2, _⟩
    · exact h2
    · rw [hnone r] at h2
      exact absurd h2 (by simp)

/-- C2: when every allocation succeeds, `mcts_get_best_move` returns `-1` if and only if
`check_game_over(board) != -1`; on a board with `check_game_over(board) == -1` it returns a
legal column, for every random source; and a finished game is answered with `-1` whatever
the iteration budget, zero included: the root is rejected before the search loop. -/
theorem c2_failure_iff_terminal (fl : DoubleOps) (o : Oracle) (board : Board) (player : Int)
    (hok : ∀ k, o.malloc_ok k = true) :
    ∃ r, mcts_get_best_move fl o board player = some r ∧
      (r = -1 ↔ check_game_over board ≠ -1) ∧
      (check_game_over board = -1 → is_valid_location board r = true) ∧
      (check_game_over board ≠ -1 →
        ∀ iters, mcts_search fl o iters board player = some (-1)) := by
  have hno : ¬ ∃ k, o.malloc_ok k = false := by
    rintro ⟨k, hk⟩
    rw [hok k] at hk
    exact absurd hk (by simp)
  obtain ⟨r, h1, h2⟩ := mcts_search_cases fl o MCTS_ITERATIONS board player
  refine ⟨r, h1, ?_, ?_, ?_⟩
  · constructor
    · intro hr
      rcases h2 with ⟨_, h2 | h2⟩ | ⟨h2, _⟩
      · exact h2
      · exact absurd h2 hno
      · rw [hr] at h2
        have := (is_valid_location_iff board (-1)).1 h2
        omega
    · intro hgo
      rcases h2 with ⟨h2, _⟩ | ⟨_, h2⟩
      · exact h2
      · exact absurd h2 hgo
  · intro hgo
    rcases h2 with ⟨_, h2 | h2⟩ | ⟨h2, _⟩
    · exact absurd hgo h2
    · exact absurd h2 hno
    · exact h2
  · intro hgo iters
    obtain ⟨r', h3, h4⟩ := mcts_search_cases fl o iters board player
    rcases h4 with ⟨h4, _⟩ | ⟨_, h4⟩
    · rw [h3, h4]
    · exact absurd h4 hgo

/-- An instance of C2: the search on the empty board, in a run without allocation failure,
does not fail. -/
theorem c2_failure_iff_terminal_witness :
    (∀ k, constant_three_oracle.malloc_ok k = true) ∧
    ∃ r, mcts_get_best_move c_double constant_three_oracle init_board PLAYER2 = some r ∧
      (r = -1 ↔ check_game_over init_board ≠ -1) ∧
      (check_game_over init_board = -1 → is_valid_location init_board r = true) :=
  ⟨fun _ => rfl,
    (c2_failure_iff_terminal c_double constant_three_oracle init_board PLAYER2
      (fun _ => rfl)).imp fun _ h => ⟨h.1, h.2.1, h.2.2.1⟩⟩

set_option maxRecDepth 100000 in
/-- C3, refuted as stated: with a budget of one iteration, in the run `first_column_oracle`
(the first random value is 0), the search on the scenario board answers column 0, not the
winning column 3. -/
theorem c3_counterexample :
    mcts_search c_double first_column_oracle 1 three_in_column_3 PLAYER1 = some 0 ∧
      mcts_search c_double first_column_oracle 1 three_in_column_3 PLAYER1 ≠ some 3 := by
  decide

/-- C3, amended: on the scenario board with `PLAYER1` to move and every allocation
succeeding, the search returns a legal column for every iteration budget and every random
source, and with a budget of one iteration it returns the column `rand() % 7` chosen by the
first random value, which is column 3 exactly when that value is 3 modulo 7. -/
theorem c3_scenario (fl : DoubleOps) (o : Oracle) (hok : ∀ k, o.malloc_ok k = true) :
    (∀ iters, ∃ r, mcts_search fl o iters three_in_column_3 PLAYER1 = some r ∧
      is_valid_location three_in_column_3 r = true) ∧
    mcts_search fl o 1 three_in_column_3 PLAYER1 = some ((o.rand 0 % 7 : Nat) : Int) ∧
    (mcts_search fl o 1 three_in_column_3 PLAYER1 = some 3 ↔ o.rand 0 % 7 = 3) := by
  have hgo : check_game_over three_in_column_3 = -1 := by decide
  have hcols : valid_columns three_in_column_3 = [0, 1, 2, 3, 4, 5, 6] := by decide
  have hone : mcts_search fl o 1 three_in_column_3 PLAYER1 =
      some ((o.rand 0 % 7 : Nat) : Int) := by
    rw [mcts_search_one fl o three_in_column_3 PLAYER1 hok hgo, hcols]
    have hlt : o.rand 0 % 7 < 7 := Nat.mod_lt _ (by norm_num)
    have hall : ∀ k : Nat, k < 7 →
        ([0, 1, 2, 3, 4, 5, 6] : List Int)[k]? = some (k : Int) := by decide
    exact hall _ hlt
  refine ⟨?_, hone, ?_⟩
  · intro iters
    obtain ⟨r, h1, h2⟩ := mcts_search_cases fl o iters three_in_column_3 PLAYER1
    refine ⟨r, h1, ?_⟩
    rcases h2 with ⟨_, h2 | ⟨k, h2⟩⟩ | ⟨h2, _⟩
    · exact absurd hgo h2
    · rw [hok k] at h2
      exact absurd h2 (by simp)
    · exact h2
  · rw [hone]
    constructor
    · intro h
      have := Option.some.inj h
      exact_mod_cast this
    · intro h
      rw [h]
      rfl

/-- An instance of the amended C3: when `rand()` always returns 3, one iteration answers
column 3. -/
theorem c3_scenario_witness :
    (∀ k, constant_three_oracle.malloc_ok k = true) ∧
      mcts_search c_double constant_three_oracle 1 three_in_column_3 PLAYER1 = some 3 :=
  ⟨fun _ => rfl,
    ((c3_scenario c_double constant_three_oracle (fun _ => rfl)).2.2).2 (by decide)⟩

theorem parentsBelow_two_node_heap : ParentsBelow two_node_heap := by
  intro j n hn p hp
  match j with
  | 0 =>
    simp only [two_node_heap, List.getElem?_cons_zero, Option.some.injEq] at hn
    subst hn
    have := (new_node_static true none (-1) init_board PLAYER1).2.2.2.1
    simp only at hp
    rw [this] at hp
    cases hp
  | 1 =>
    simp only [two_node_heap, List.getElem?_cons_succ, List.getElem?_cons_zero,
      Option.some.injEq] at hn
    subst hn
    rw [(new_node_static true (some 0) 0 (drop_piece init_board 5 0 PLAYER1) PLAYER2).2.2.2.1]
      at hp
    cases hp
    exact Nat.zero_lt_one
  | j + 2 => simp [two_node_heap] at hn

/-- C10: on a heap whose parent pointers lead to smaller addresses, `backpropagate(leaf, w)`
returns and keeps the size of the heap; every node on the parent chain of `leaf` (which
ends in a root, a node without parent) is replaced by `credit w` of itself, that is
`visits` grows by exactly 1, `wins` grows by 1 if `w != 0` and the player of the node
differs from `w` and by 0 otherwise, and no other field changes; every node off the chain
is unchanged.  A draw (`w = 0`) changes no `wins` counter. -/
theorem c10_backpropagate (t : Tree) (leaf : Nat) (w : Int) (hp : ParentsBelow t)
    (hleaf : leaf < t.length) :
    ∃ t', backpropagate t leaf w = some t' ∧ t'.length = t.length ∧
      (∀ (j : Nat) (n : MCTSNode), t[j]? = some n →
        (OnChain t leaf j → t'[j]? = some (credit w n)) ∧
        (¬ OnChain t leaf j → t'[j]? = some n)) ∧
      (∃ (r : Nat) (n : MCTSNode), OnChain t leaf r ∧ t[r]? = some n ∧ n.parent = none) ∧
      (∀ n : MCTSNode, (credit w n).visits = n.visits + 1 ∧
        (credit w n).wins = n.wins + (if w ≠ 0 ∧ n.player ≠ w then 1 else 0) ∧
        SameLinks n (credit w n)) ∧
      (∀ n : MCTSNode, (credit 0 n).wins = n.wins) := by
  obtain ⟨t', h1, h2, h3⟩ := backpropagate_spec t leaf w hp hleaf
  refine ⟨t', h1, h2, h3, onChain_root t hp leaf hleaf, ?_, ?_⟩
  · intro n
    exact ⟨rfl, rfl, sameLinks_credit w n⟩
  · intro n
    simp [credit]

/-- An instance of C10 on a heap of two nodes, from the child, with outcome `PLAYER1`. -/
theorem c10_backpropagate_witness :
    ParentsBelow two_node_heap ∧ 1 < two_node_heap.length ∧
      ∃ t', backpropagate two_node_heap 1 PLAYER1 = some t' ∧ t'.length = two_node_heap.length :=
  ⟨parentsBelow_two_node_heap, by decide,
    (c10_backpropagate two_node_heap 1 PLAYER1 parentsBelow_two_node_heap (by decide)).imp
      fun _ h => ⟨h.1, h.2.1⟩⟩


/-! ## Node creation -/

/-- The function `create_node` when its allocations succeed: the new node is stored at
the end of the heap and holds the fields the source writes. -/
theorem create_node_spec (o : Oracle) (t : Tree) (s : Calls) (parent : Option Nat)
    (move : Int) (board : Board) (player : Int) (h0 : o.malloc_ok s.mallocs = true)
    (h1 : o.malloc_ok (s.mallocs + 1) = true) :
    ∃ n s', create_node o t s parent move board player = (t ++ [n], s', some t.length) ∧
      n.board = board ∧ n.player = player ∧ n.move = move ∧ n.parent = parent ∧
      n.visits = 0 ∧ n.wins = 0 ∧ n.children = [] ∧
      (n.is_terminal = true ↔ check_game_over board ≠ -1) ∧
      n.terminal_winner = check_game_over board ∧
      (n.is_terminal = false → get_valid_moves true board = some n.untried_moves) ∧
      (n.is_terminal = true → n.untried_moves = []) := by
  rcases create_node_cases o t s parent move board player with
    ⟨_, okm, s', e, hokm⟩ | ⟨hm, _, _⟩
  · have hst := new_node_static okm parent move board player
    have hun := new_node_untried okm parent move board player
    refine ⟨_, s', e, hst.1, hst.2.1, hst.2.2.1, hst.2.2.2.1, hst.2.2.2.2.2.2.1,
      hst.2.2.2.2.2.1, hst.2.2.2.2.1, hst.2.2.2.2.2.2.2.2, hst.2.2.2.2.2.2.2.1, ?_, ?_⟩
    · intro hterm
      have hgo : check_game_over board = -1 := by
        by_contra hne
        rw [hst.2.2.2.2.2.2.2.2.2 hne] at hterm
        exact absurd hterm (by simp)
      rw [hun, if_pos ⟨hgo, (hokm hgo).trans h1⟩]
      rfl
    · intro hterm
      have hgo := hst.2.2.2.2.2.2.2.2.1 hterm
      rw [hun, if_neg (fun h => hgo h.1)]
  · rw [h0] at hm
    exact absurd hm (by simp)

/-! ## Full columns -/

theorem drop_piece_keeps_occupied (b : Board) (col player r c : Int)
    (hvalid : is_valid_location b col = true) (hocc : b r c ≠ EMPTY) :
    drop_piece b (get_next_open_row b col) col player r c = b r c := by
  apply drop_piece_other
  rintro ⟨hr, hc⟩
  have := (get_next_open_row_of_valid b col hvalid).2.2.1
  rw [hr, hc] at hocc
  exact hocc this

theorem dropsFrom_keeps_occupied (board b : Board) (h : DropsFrom board b) (r c : Int)
    (hocc : board r c ≠ EMPTY) : b r c = board r c := by
  induction h with
  | start => rfl
  | drop b' col player _ hvalid _ ih =>
    rw [drop_piece_keeps_occupied b' col player r c hvalid (by rw [ih]; exact hocc), ih]

/-! ## Expansion: the shape of the result -/

/-- Removing the entry at index `k` the way `expand_node` does it (overwrite it with the last
entry, then shorten the array by one) keeps every other entry exactly once. -/
theorem perm_untried_removal : ∀ (l : List Int) (k : Nat), k < l.length →
    List.Perm (l.getD k 0 :: (l.set k (l.getD (l.length - 1) 0)).dropLast) l
  | [], k, h => by simp at h
  | [a], k, h => by
    have hk : k = 0 := by simpa using h
    subst hk
    simp
  | a :: b :: rest, 0, _ => by
    have hlast : (a :: b :: rest).getD ((a :: b :: rest).length - 1) 0 =
        (b :: rest).getD ((b :: rest).length - 1) 0 := by simp
    rw [hlast]
    simp only [List.getD_cons_zero, List.set_cons_zero]
    rw [List.dropLast_cons₂]
    apply List.Perm.cons
    have hne : b :: rest ≠ [] := by simp
    have hl : (b :: rest).getD ((b :: rest).length - 1) 0 = (b :: rest).getLast hne := by
      rw [List.getLast_eq_getElem, List.getD_eq_getElem?_getD,
        List.getElem?_eq_getElem (by simp)]
      rfl
    rw [hl]
    have := List.dropLast_append_getLast hne
    exact (List.perm_append_singleton _ _).symm.trans (by rw [this])
  | a :: b :: rest, k + 1, h => by
    have hlast : (a :: b :: rest).getD ((a :: b :: rest).length - 1) 0 =
        (b :: rest).getD ((b :: rest).length - 1) 0 := by simp
    rw [hlast]
    simp only [List.getD_cons_succ, List.set_cons_succ]
    have hk : k < (b :: rest).length := by simpa using h
    have ih := perm_untried_removal (b :: rest) k hk
    have hne : ((b :: rest).set k ((b :: rest).getD ((b :: rest).length - 1) 0)) ≠ [] := by
      intro hnil
      have := congrArg List.length hnil
      simp at this
    obtain ⟨x, xs, hx⟩ := List.exists_cons_of_ne_nil hne
    rw [hx] at ih ⊢
    rw [List.dropLast_cons₂]
    exact (List.Perm.swap _ _ _).trans (List.Perm.cons a ih)

/-- The two ways `expand_node` can end: the heap is unchanged and the node itself is
returned, or the move at index `rand() % num_untried_moves` has an open row, `malloc` gave
a node, and the new child sits at the end of the heap. -/
theorem expand_node_shape (o : Oracle) (t : Tree) (s : Calls) (i : Nat) (node : MCTSNode)
    (hnode : t[i]? = some node) :
    (∃ s', expand_node o t s i = some (t, s', i)) ∨
    (node.is_terminal = false ∧ 0 < node.untried_moves.length ∧
      ∃ (move_col : Int) (okm : Bool) (s' : Calls),
        node.untried_moves[o.rand s.rands % node.untried_moves.length]? = some move_col ∧
        get_next_open_row node.board move_col ≠ -1 ∧
        o.malloc_ok s.mallocs = true ∧
        (check_game_over (drop_piece node.board (get_next_open_row node.board move_col)
            move_col node.player) = -1 → okm = o.malloc_ok (s.mallocs + 1)) ∧
        expand_node o t s i = some
          ((t ++ [new_node okm (some i) move_col
              (drop_piece node.board (get_next_open_row node.board move_col) move_col
                node.player) (other_player node.player)]).set i
            { node with
              children :=
                if node.children.length < COLS then node.children ++ [t.length]
                else node.children,
              untried_moves :=
                (node.untried_moves.set (o.rand s.rands % node.untried_moves.length)
                  (node.untried_moves.getD (node.untried_moves.length - 1) 0)).dropLast },
            s', t.length)) := by
  unfold expand_node
  rw [hnode]
  simp only []
  by_cases hterm : (node.is_terminal || node.untried_moves.length == 0) = true
  · rw [if_pos hterm]
    exact Or.inl ⟨s, rfl⟩
  · rw [if_neg hterm]
    have hterm' : node.is_terminal = false ∧ 0 < node.untried_moves.length := by
      simp only [Bool.or_eq_true, beq_iff_eq, not_or, Bool.not_eq_true] at hterm
      exact ⟨hterm.1, by omega⟩
    have hidx : o.rand s.rands % node.untried_moves.length < node.untried_moves.length :=
      Nat.mod_lt _ hterm'.2
    have hget := List.getElem?_eq_getElem hidx
    rw [hget]
    simp only []
    generalize node.untried_moves[o.rand s.rands % node.untried_moves.length] = move_col
      at hget
    by_cases hrow : get_next_open_row node.board move_col = -1
    · have hne : ¬ ((get_next_open_row (copy_board node.board) move_col != -1) = true) := by
        simp [copy_board, hrow]
      rw [if_neg hne]
      exact Or.inl ⟨_, rfl⟩
    · have hne : (get_next_open_row (copy_board node.board) move_col != -1) = true := by
        simpa [copy_board] using hrow
      rw [if_pos hne]
      rcases create_node_cases o t { rands := s.rands + 1, mallocs := s.mallocs } (some i)
        move_col
        (drop_piece (copy_board node.board)
          (get_next_open_row (copy_board node.board) move_col) move_col node.player)
        (if node.player == PLAYER1 then PLAYER2 else PLAYER1) with
        ⟨hm, okm, s', e, hokm⟩ | ⟨_, s', e⟩
      · rw [e]
        exact Or.inr ⟨hterm'.1, hterm'.2, move_col, okm, s', rfl, hrow, hm, hokm, rfl⟩
      · rw [e]
        exact Or.inl ⟨s', rfl⟩

/-! ## The invariant of the search heap -/

theorem valid_columns_length_le (board : Board) : (valid_columns board).length ≤ COLS := by
  unfold valid_columns
  refine le_trans (List.length_filter_le _ _) ?_
  simp

theorem new_node_untried_length_le (okm : Bool) (parent : Option Nat) (move : Int)
    (board : Board) (player : Int) :
    (new_node okm parent move board player).untried_moves.length ≤
      (valid_columns board).length := by
  rw [new_node_untried]
  split
  · exact le_refl _
  · simp

theorem new_node_terminal_untried (okm : Bool) (parent : Option Nat) (move : Int)
    (board : Board) (player : Int)
    (h : (new_node okm parent move board player).is_terminal = true) :
    (new_node okm parent move board player).untried_moves = [] := by
  have hgo := (new_node_static okm parent move board player).2.2.2.2.2.2.2.2.1 h
  rw [new_node_untried, if_neg (fun h' => hgo h'.1)]

theorem grows_refl (t : Tree) : Grows t t :=
  ⟨le_refl _, fun _ n h => ⟨n, h, sameStatic_refl n, rfl, rfl⟩⟩

theorem grows_extends {t t' : Tree} (h : Grows t t') : Extends t t' :=
  ⟨h.1, fun j n hn => by
    obtain ⟨n', h1, h2, _⟩ := h.2 j n hn
    exact ⟨n', h1, h2⟩⟩

/-- The heap invariant for a heap that holds a fresh root only. -/
theorem heapInv_root (okm : Bool) (board : Board) (player : Int) :
    HeapInv [new_node okm none (-1) board player] := by
  have hst := new_node_static okm none (-1) board player
  have hok : TreeOK [new_node okm none (-1) board player] := by
    have := treeOK_push [] (new_node okm none (-1) board player) treeOK_nil
      (by
        intro p hp
        rw [hst.2.2.2.1] at hp
        cases hp)
      hst.2.2.2.2.1 (new_node_untried_ok _ _ _ _ _)
    simpa using this
  refine ⟨hok, ?_⟩
  intro i n hn
  have hi : i = 0 := by
    have := lt_length_of_get hn
    simpa using this
  subst hi
  simp only [List.getElem?_cons_zero, Option.some.injEq] at hn
  subst hn
  refine ⟨?_, ?_, ?_, ?_, ?_, ?_, ?_, ?_⟩
  · rw [hst.2.2.2.2.2.1, hst.2.2.2.2.2.2.1]
    exact ⟨le_refl 0, le_refl 0⟩
  · rw [hst.2.2.2.2.1, hst.1]
    simpa using new_node_untried_length_le okm none (-1) board player
  · rw [hst.1]
    exact hst.2.2.2.2.2.2.2.2
  · rw [hst.1]
    exact hst.2.2.2.2.2.2.2.1
  · intro h
    exact ⟨hst.2.2.2.2.1, new_node_terminal_untried okm none (-1) board player h⟩
  · intro j m hm hp
    have hj : j = 0 := by
      have := lt_length_of_get hm
      simpa using this
    subst hj
    simp only [List.getElem?_cons_zero, Option.some.injEq] at hm
    subst hm
    rw [hst.2.2.2.1] at hp
    cases hp
  · rw [hst.2.2.2.2.1]
    exact List.nodup_nil
  · exact ⟨fun _ => rfl, fun _ => hst.2.2.2.1⟩

/-- A heap whose nodes differ from those of a heap with the invariant in the counters only,
and keep `0 ≤ wins ≤ visits`, has the invariant. -/
theorem heapInv_of_sameLinks (t t' : Tree) (h : HeapInv t) (hlen : t'.length = t.length)
    (hs : ∀ (j : Nat) (n : MCTSNode), t[j]? = some n →
      ∃ n' : MCTSNode, t'[j]? = some n' ∧ SameLinks n n' ∧ 0 ≤ n'.wins ∧ n'.wins ≤ n'.visits) :
    HeapInv t' := by
  have hs' : ∀ (j : Nat) (n : MCTSNode), t[j]? = some n →
      ∃ n' : MCTSNode, t'[j]? = some n' ∧ SameLinks n n' := by
    intro j n hn
    obtain ⟨n', h1, h2, _⟩ := hs j n hn
    exact ⟨n', h1, h2⟩
  refine ⟨treeOK_of_sameLinks t t' h.1 hlen hs', ?_⟩
  intro j n' hn'
  have hj : j < t.length := by
    rw [← hlen]
    exact lt_length_of_get hn'
  obtain ⟨n'', h1, h2, h3, h4⟩ := hs j t[j] (List.getElem?_eq_getElem hj)
  rw [hn'] at h1
  cases h1
  have inv := h.2 j t[j] (List.getElem?_eq_getElem hj)
  obtain ⟨hst, hch, hun⟩ := h2
  refine ⟨⟨h3, h4⟩, ?_, ?_, ?_, ?_, ?_, ?_, ?_⟩
  · rw [hch, hun, hst.1]
    exact inv.budget
  · rw [hst.2.2.2.2.1, hst.1]
    exact inv.terminal_iff
  · rw [hst.2.2.2.2.2, hst.1]
    exact inv.winner
  · rw [hst.2.2.2.2.1, hch, hun]
    exact inv.terminal_leaf
  · intro k m' hm' hp
    have hk : k < t.length := by
      rw [← hlen]
      exact lt_length_of_get hm'
    obtain ⟨m'', h5, h6, _⟩ := hs k t[k] (List.getElem?_eq_getElem hk)
    rw [hm'] at h5
    cases h5
    rw [hch]
    exact inv.linked k t[k] (List.getElem?_eq_getElem hk) (by rw [← h6.1.2.2.2.1]; exact hp)
  · rw [hch]
    exact inv.nodup
  · rw [hst.2.2.2.1]
    exact inv.root

/-- Linking a fresh child: when the node at address `i` of a heap with the invariant is not
terminal, gives up one untried move and gets the new last address of the heap as its last
child, and the node stored there is a fresh child of `i` reached by a legal move, the new
heap has the invariant, and the old nodes keep their counters. -/
theorem heapInv_push_set (t : Tree) (i : Nat) (node node' child : MCTSNode) (h : HeapInv t)
    (hnode : t[i]? = some node) (hnt : node.is_terminal = false)
    (hst : SameStatic node node') (hw : node'.wins = node.wins)
    (hv : node'.visits = node.visits)
    (hc : node'.children = node.children ++ [t.length])
    (hu : node'.untried_moves.length + 1 = node.untried_moves.length)
    (hun : ∀ m ∈ node'.untried_moves, m ∈ node.untried_moves)
    (cparent : child.parent = some i) (cchildren : child.children = [])
    (cwins : child.wins = 0) (cvisits : child.visits = 0)
    (cbudget : child.untried_moves.length ≤ (valid_columns child.board).length)
    (cterm : child.is_terminal = true ↔ check_game_over child.board ≠ -1)
    (cwinner : child.terminal_winner = check_game_over child.board)
    (cleaf : child.is_terminal = true → child.untried_moves = [])
    (cuntried : ∀ m ∈ child.untried_moves, is_valid_location child.board m = true)
    (cmove : is_valid_location node.board child.move = true) :
    HeapInv ((t ++ [child]).set i node') ∧ Grows t ((t ++ [child]).set i node') := by
  have hi : i < t.length := lt_length_of_get hnode
  have ok := h.1 i node hnode
  have inv := h.2 i node hnode
  have hpush : TreeOK (t ++ [child]) := by
    apply treeOK_push t child h.1
    · intro p hp
      rw [cparent] at hp
      cases hp
      exact hi
    · exact cchildren
    · exact cuntried
  have hnode1 : (t ++ [child])[i]? = some node := by
    rw [List.getElem?_append_left hi]
    exact hnode
  have hnodeok : NodeOK (t ++ [child]) i node' := by
    refine ⟨?_, ?_, ?_, ?_⟩
    · rw [hst.2.2.2.1]
      exact ok.parent_lt
    · intro c hcm
      rw [hc] at hcm
      rcases List.mem_append.1 hcm with hcm | hcm
      · exact ok.child_gt c hcm
      · rw [List.mem_singleton.1 hcm]
        exact hi
    · intro c hcm
      rw [hc] at hcm
      rw [hst.1]
      rcases List.mem_append.1 hcm with hcm | hcm
      · obtain ⟨cn, h1, h2, h3⟩ := ok.child_ok c hcm
        exact ⟨cn, by rw [List.getElem?_append_left (lt_length_of_get h1)]; exact h1, h2, h3⟩
      · rw [List.mem_singleton.1 hcm]
        exact ⟨child, List.getElem?_concat_length _ _, cparent, cmove⟩
    · intro m hm
      rw [hst.1]
      exact ok.untried_ok m (hun m hm)
  have htree : TreeOK ((t ++ [child]).set i node') :=
    treeOK_set (t ++ [child]) i node node' hpush hnode1 hst hnodeok
  have hi1 : i < (t ++ [child]).length := by
    simp only [List.length_append, List.length_singleton]
    omega
  -- how the nodes of the new heap come from the old one
  have hget : ∀ (j : Nat) (m' : MCTSNode), ((t ++ [child]).set i node')[j]? = some m' →
      (j = i ∧ m' = node') ∨ (j ≠ i ∧ j < t.length ∧ t[j]? = some m') ∨
        (j = t.length ∧ m' = child) := by
    intro j m' hm'
    by_cases hji : i = j
    · subst hji
      rw [List.getElem?_set_self hi1] at hm'
      exact Or.inl ⟨rfl, (Option.some.inj hm').symm⟩
    · rw [List.getElem?_set_ne hji] at hm'
      by_cases hj : j < t.length
      · rw [List.getElem?_append_left hj] at hm'
        exact Or.inr (Or.inl ⟨fun e => hji e.symm, hj, hm'⟩)
      · have hlen := lt_length_of_get hm'
        simp only [List.length_append, List.length_singleton] at hlen
        have hj' : j = t.length := by omega
        subst hj'
        rw [List.getElem?_concat_length] at hm'
        exact Or.inr (Or.inr ⟨rfl, (Option.some.inj hm').symm⟩)
  have hpar : ∀ (j : Nat) (m' : MCTSNode), ((t ++ [child]).set i node')[j]? = some m' →
      (j < t.length ∧ ∃ m : MCTSNode, t[j]? = some m ∧ m'.parent = m.parent) ∨
        (j = t.length ∧ m' = child) := by
    intro j m' hm'
    rcases hget j m' hm' with ⟨h1, h2⟩ | ⟨_, h1, h2⟩ | h1
    · subst h1
      subst h2
      exact Or.inl ⟨hi, node, hnode, hst.2.2.2.1⟩
    · exact Or.inl ⟨h1, m', h2, rfl⟩
    · exact Or.inr h1
  have hgrow : Grows t ((t ++ [child]).set i node') := by
    refine ⟨by simp, ?_⟩
    intro j n hn
    by_cases hji : i = j
    · subst hji
      rw [hnode] at hn
      cases hn
      exact ⟨node', List.getElem?_set_self hi1, hst, hw, hv⟩
    · refine ⟨n, ?_, sameStatic_refl n, rfl, rfl⟩
      rw [List.getElem?_set_ne hji, List.getElem?_append_left (lt_length_of_get hn)]
      exact hn
  refine ⟨⟨htree, ?_⟩, hgrow⟩
  intro j n' hn'
  rcases hget j n' hn' with ⟨h1, h2⟩ | ⟨hne, h1, h2⟩ | ⟨h1, h2⟩
  · subst h1
    subst h2
    refine ⟨?_, ?_, ?_, ?_, ?_, ?_, ?_, ?_⟩
    · rw [hw, hv]
      exact inv.counts
    · rw [hc, hst.1]
      have := inv.budget
      simp only [List.length_append, List.length_singleton]
      omega
    · rw [hst.2.2.2.2.1, hst.1]
      exact inv.terminal_iff
    · rw [hst.2.2.2.2.2, hst.1]
      exact inv.winner
    · intro hterm
      rw [hst.2.2.2.2.1, hnt] at hterm
      exact absurd hterm (by simp)
    · intro k m' hm' hp
      rw [hc]
      rcases hpar k m' hm' with ⟨_, m, h3, h4⟩ | ⟨h3, _⟩
      · exact List.mem_append_left _ (inv.linked k m h3 (by rw [← h4]; exact hp))
      · rw [h3]
        exact List.mem_append_right _ (List.mem_singleton_self _)
    · rw [hc]
      apply List.Nodup.append inv.nodup (List.nodup_singleton _)
      intro c hc1 hc2
      rw [List.mem_singleton.1 hc2] at hc1
      obtain ⟨cn, h3, _⟩ := ok.child_ok _ hc1
      exact absurd (lt_length_of_get h3) (lt_irrefl _)
    · rw [hst.2.2.2.1]
      exact inv.root
  · have invj := h.2 j n' h2
    refine ⟨invj.counts, invj.budget, invj.terminal_iff, invj.winner, invj.terminal_leaf, ?_,
      invj.nodup, invj.root⟩
    intro k m' hm' hp
    rcases hpar k m' hm' with ⟨_, m, h3, h4⟩ | ⟨_, h3⟩
    · exact invj.linked k m h3 (by rw [← h4]; exact hp)
    · subst h3
      rw [cparent] at hp
      exact absurd (Option.some.inj hp).symm hne
  · subst h1
    subst h2
    refine ⟨?_, ?_, cterm, cwinner, ?_, ?_, ?_, ?_⟩
    · rw [cwins, cvisits]
      exact ⟨le_refl 0, le_refl 0⟩
    · rw [cchildren]
      simpa using cbudget
    · intro hterm
      exact ⟨cchildren, cleaf hterm⟩
    · intro k m' hm' hp
      exfalso
      rcases hpar k m' hm' with ⟨h3, m, h4, h5⟩ | ⟨_, h3⟩
      · have := (h.1 k m h4).parent_lt t.length (by rw [← h5]; exact hp)
        omega
      · subst h3
        rw [cparent] at hp
        have := Option.some.inj hp
        omega
    · rw [cchildren]
      exact List.nodup_nil
    · constructor
      · intro hp
        rw [cparent] at hp
        cases hp
      · intro h0
        omega

theorem children_lt_cols (t : Tree) (i : Nat) (node : MCTSNode) (inv : NodeInv t i node)
    (hlen : 0 < node.untried_moves.length) : node.children.length < COLS := by
  have h1 := inv.budget
  have h2 := valid_columns_length_le node.board
  omega

/-- One call of `expand_node` on a heap with the invariant: either nothing changes and the
node itself is returned (the node is terminal, or has no untried move, or `malloc` fails),
or the heap becomes `expanded_heap` and the new child, at the old end of the heap, is
returned.  The invariant is kept. -/
theorem expand_node_step (o : Oracle) (t : Tree) (s : Calls) (i : Nat) (node : MCTSNode)
    (h : HeapInv t) (hnode : t[i]? = some node) :
    ((node.is_terminal = true ∨ node.untried_moves = [] ∨ o.malloc_ok s.mallocs = false) ∧
      ∃ s', expand_node o t s i = some (t, s', i)) ∨
    (node.is_terminal = false ∧ 0 < node.untried_moves.length ∧
      o.malloc_ok s.mallocs = true ∧
      ∃ (m : Int) (okm : Bool) (s' : Calls),
        node.untried_moves[o.rand s.rands % node.untried_moves.length]? = some m ∧
        (check_game_over (drop_piece node.board (get_next_open_row node.board m) m
            node.player) = -1 → okm = o.malloc_ok (s.mallocs + 1)) ∧
        expand_node o t s i = some
          (expanded_heap t i node (o.rand s.rands % node.untried_moves.length) m okm,
            s', t.length) ∧
        HeapInv (expanded_heap t i node (o.rand s.rands % node.untried_moves.length) m okm) ∧
        Grows t (expanded_heap t i node (o.rand s.rands % node.untried_moves.length) m okm)) := by
  have ok := h.1 i node hnode
  have inv := h.2 i node hnode
  by_cases hcond : node.is_terminal = false ∧ 0 < node.untried_moves.length ∧
      o.malloc_ok s.mallocs = true
  · obtain ⟨hterm, hlen, hm⟩ := hcond
    right
    refine ⟨hterm, hlen, hm, ?_⟩
    obtain ⟨m, okm, s', hget, hokm, hexp⟩ :=
      expand_node_success o t s i node hnode hterm hlen ok.untried_ok hm
    rw [if_pos (children_lt_cols t i node inv hlen)] at hexp
    refine ⟨m, okm, s', hget, hokm, hexp, ?_⟩
    have hmem : m ∈ node.untried_moves := List.getElem?_mem hget
    have hst := new_node_static okm (some i) m
      (drop_piece node.board (get_next_open_row node.board m) m node.player)
      (other_player node.player)
    unfold expanded_heap
    refine heapInv_push_set t i node _ _ h hnode hterm ?_ ?_ ?_ ?_ ?_ ?_ ?_ ?_ ?_ ?_ ?_ ?_ ?_ ?_
      ?_ ?_
    · exact ⟨rfl, rfl, rfl, rfl, rfl, rfl⟩
    · rfl
    · rfl
    · rfl
    · simp only [List.length_dropLast, List.length_set]
      omega
    · intro x hx
      exact mem_untried_after_removal _ _ x hlen hx
    · exact hst.2.2.2.1
    · exact hst.2.2.2.2.1
    · exact hst.2.2.2.2.2.1
    · exact hst.2.2.2.2.2.2.1
    · rw [hst.1]
      exact new_node_untried_length_le _ _ _ _ _
    · rw [hst.1]
      exact hst.2.2.2.2.2.2.2.2
    · rw [hst.1]
      exact hst.2.2.2.2.2.2.2.1
    · exact new_node_terminal_untried _ _ _ _ _
    · exact new_node_untried_ok _ _ _ _ _
    · rw [hst.2.2.1]
      exact ok.untried_ok m hmem
  · left
    have hreason : node.is_terminal = true ∨ node.untried_moves = [] ∨
        o.malloc_ok s.mallocs = false := by
      by_contra hc
      push_neg at hc
      apply hcond
      refine ⟨by simpa using hc.1, List.length_pos.2 hc.2.1, by simpa using hc.2.2⟩
    refine ⟨hreason, ?_⟩
    rcases expand_node_shape o t s i node hnode with hA | ⟨h1, h2, _, _, _, _, _, h3, _⟩
    · exact hA
    · exact absurd ⟨h1, h2, h3⟩ hcond

/-! ## Selection: where the descent stops -/

theorem onChain_trans (t : Tree) (a b c : Nat) (h1 : OnChain t a b) (h2 : OnChain t b c) :
    OnChain t a c := by
  induction h1 with
  | here _ => exact h2
  | up i p _ n hn hp _ ih => exact OnChain.up i p c n hn hp (ih h2)

/-- The descent of `select_node` from `i` stops at a node `j` below `i`: a terminal node,
which is returned; or a node with an untried move, where the result is that of
`expand_node`; or a node without untried move that has no child, or none with a score
above `-1.0`, which is returned. -/
theorem select_node_step (fl : DoubleOps) (o : Oracle) (fuel : Nat) (t : Tree) (s : Calls)
    (i : Nat) (h : TreeOK t) (hi : i < t.length) (hfuel : t.length ≤ fuel + i) :
    ∃ (t1 : Tree) (s1 : Calls) (leaf j : Nat) (jn : MCTSNode),
      select_node fl o fuel t s i = some (t1, s1, leaf) ∧ t[j]? = some jn ∧ OnChain t j i ∧
      ((jn.is_terminal = true ∧ t1 = t ∧ s1 = s ∧ leaf = j) ∨
        (jn.is_terminal = false ∧ 0 < jn.untried_moves.length ∧
          expand_node o t s j = some (t1, s1, leaf)) ∨
        (jn.is_terminal = false ∧ jn.untried_moves = [] ∧
          (jn.children = [] ∨
            best_child_loop fl t jn.children fl.neg_one none = some none) ∧
          t1 = t ∧ s1 = s ∧ leaf = j)) := by
  induction fuel generalizing i with
  | zero => omega
  | succ fuel ih =>
    have hnode : t[i]? = some t[i] := List.getElem?_eq_getElem hi
    generalize t[i] = node at hnode
    have ok := h i node hnode
    unfold select_node
    rw [hnode]
    simp only []
    by_cases hterm : node.is_terminal = true
    · rw [if_pos hterm]
      exact ⟨t, s, i, i, node, rfl, hnode, OnChain.here i, Or.inl ⟨hterm, rfl, rfl, rfl⟩⟩
    · rw [if_neg hterm]
      have hterm' : node.is_terminal = false := by simpa using hterm
      by_cases hlen : node.untried_moves.length > 0
      · rw [if_pos hlen]
        obtain ⟨t1, s1, leaf, h1, _⟩ := expand_node_ok o t s i h hi
        exact ⟨t1, s1, leaf, i, node, h1, hnode, OnChain.here i,
          Or.inr (Or.inl ⟨hterm', hlen, h1⟩)⟩
      · rw [if_neg hlen]
        have hun : node.untried_moves = [] := List.length_eq_zero.1 (by omega)
        by_cases hch : (node.children.length == 0) = true
        · rw [if_pos hch]
          have hch' : node.children = [] := List.length_eq_zero.1 (by simpa using hch)
          exact ⟨t, s, i, i, node, rfl, hnode, OnChain.here i,
            Or.inr (Or.inr ⟨hterm', hun, Or.inl hch', rfl, rfl, rfl⟩)⟩
        · rw [if_neg hch]
          have hall : ∀ c ∈ node.children, ∃ v, ucb1 fl t c = some v := by
            intro c hc
            obtain ⟨cn, h1, h2, _⟩ := ok.child_ok c hc
            exact ucb1_isSome fl t c cn node i h1 h2 hnode
          obtain ⟨r, hr, hr'⟩ := best_child_loop_ok fl t node.children hall fl.neg_one none
          rw [hr]
          rcases hr' with hr' | ⟨c, hc, hr'⟩
          · subst hr'
            exact ⟨t, s, i, i, node, rfl, hnode, OnChain.here i,
              Or.inr (Or.inr ⟨hterm', hun, Or.inr hr, rfl, rfl, rfl⟩)⟩
          · subst hr'
            simp only []
            obtain ⟨cn, h1, h2, _⟩ := ok.child_ok c hc
            have hgt := ok.child_gt c hc
            obtain ⟨t1, s1, leaf, j, jn, h3, h4, h5, h6⟩ :=
              ih c (lt_length_of_get h1) (by omega)
            exact ⟨t1, s1, leaf, j, jn, h3, h4,
              onChain_trans t j c i h5 (onChain_parent t c i cn h1 h2), h6⟩

/-! ## One pass of the search loop -/

theorem mcts_loop_succ (fl : DoubleOps) (o : Oracle) (n : Nat) (t : Tree) (s : Calls)
    (root : Nat) :
    mcts_loop fl o (n + 1) t s root =
      match mcts_round fl o t s root with
      | none => none
      | some (t2, s2) => mcts_loop fl o n t2 s2 root := by
  unfold mcts_round
  rw [mcts_loop]
  cases select_node fl o t.length t s root with
  | none => rfl
  | some r =>
    obtain ⟨t1, s1, leaf⟩ := r
    simp only []
    cases simulate_random_playout o t1 s1 leaf with
    | none => rfl
    | some r2 =>
      obtain ⟨w, s2⟩ := r2
      simp only []
      cases backpropagate t1 leaf w with
      | none => rfl
      | some t2 => rfl

theorem mcts_loop_succ_end (fl : DoubleOps) (o : Oracle) (n : Nat) (t : Tree) (s : Calls)
    (root : Nat) :
    mcts_loop fl o (n + 1) t s root =
      match mcts_loop fl o n t s root with
      | none => none
      | some (t2, s2) => mcts_round fl o t2 s2 root := by
  induction n generalizing t s with
  | zero =>
    rw [mcts_loop_succ]
    simp only [mcts_loop]
    cases mcts_round fl o t s root with
    | none => rfl
    | some r => rfl
  | succ n ih =>
    rw [mcts_loop_succ, mcts_loop_succ fl o n]
    cases mcts_round fl o t s root with
    | none => rfl
    | some r =>
      obtain ⟨t2, s2⟩ := r
      simp only []
      exact ih t2 s2

/-- In a heap with the invariant the parent chain of every node ends at address 0. -/
theorem heapInv_rooted (t : Tree) (h : HeapInv t) (i : Nat) (hi : i < t.length) :
    OnChain t i 0 := by
  obtain ⟨r, n, h1, h2, h3⟩ := onChain_root t (parentsBelow_of_treeOK t h.1) i hi
  have := (h.2 r n h2).root.1 h3
  rw [this] at h1
  exact h1

theorem select_node_inv (fl : DoubleOps) (o : Oracle) (t : Tree) (s : Calls) (i : Nat)
    (h : HeapInv t) (hi : i < t.length) :
    ∃ (t1 : Tree) (s1 : Calls) (leaf : Nat),
      select_node fl o t.length t s i = some (t1, s1, leaf) ∧ HeapInv t1 ∧ Grows t t1 ∧
        leaf < t1.length := by
  obtain ⟨t1, s1, leaf, j, jn, h1, h2, _, h3⟩ :=
    select_node_step fl o t.length t s i h.1 hi (by omega)
  have hj := lt_length_of_get h2
  refine ⟨t1, s1, leaf, h1, ?_⟩
  rcases h3 with ⟨_, e1, _, e3⟩ | ⟨_, _, hexp⟩ | ⟨_, _, _, e1, _, e3⟩
  · subst e1
    subst e3
    exact ⟨h, grows_refl _, hj⟩
  · rcases expand_node_step o t s j jn h h2 with ⟨_, s', hA⟩ | ⟨_, _, _, m, okm, s', _, _, hB, hinv, hgrow⟩
    · rw [hA] at hexp
      cases hexp
      exact ⟨h, grows_refl _, hj⟩
    · rw [hB] at hexp
      cases hexp
      refine ⟨hinv, hgrow, ?_⟩
      simp [expanded_heap]
  · subst e1
    subst e3
    exact ⟨h, grows_refl _, hj⟩

theorem credit_counts (w : Int) (n : MCTSNode) (h : 0 ≤ n.wins ∧ n.wins ≤ n.visits) :
    0 ≤ (credit w n).wins ∧ (credit w n).wins ≤ (credit w n).visits := by
  simp only [credit]
  split <;> omega

/-- One pass of the loop on a heap with the invariant runs to its end, and `RoundFacts`
describes it. -/
theorem mcts_round_facts (fl : DoubleOps) (o : Oracle) (t : Tree) (s : Calls)
    (h : HeapInv t) (hroot : 0 < t.length) :
    ∃ t2 s2, mcts_round fl o t s 0 = some (t2, s2) ∧ RoundFacts fl o t s t2 s2 := by
  obtain ⟨t1, s1, leaf, h1, h2, h3, h4⟩ := select_node_inv fl o t s 0 h hroot
  obtain ⟨w, s2, h5⟩ := simulate_random_playout_ok o t1 s1 leaf h4
  obtain ⟨t2, h6, h7, h8⟩ :=
    backpropagate_spec t1 leaf w (parentsBelow_of_treeOK t1 h2.1) h4
  have hinv2 : HeapInv t2 := by
    apply heapInv_of_sameLinks t1 t2 h2 h7
    intro j n hn
    by_cases hc : OnChain t1 leaf j
    · have hcnt := credit_counts w n (h2.2 j n hn).counts
      exact ⟨_, (h8 j n hn).1 hc, sameLinks_credit w n, hcnt.1, hcnt.2⟩
    · have hcnt := (h2.2 j n hn).counts
      exact ⟨_, (h8 j n hn).2 hc, sameLinks_refl n, hcnt.1, hcnt.2⟩
  refine ⟨t2, s2, ?_, t1, s1, leaf, w, h1, h5, h6, h2, h3, h4, h7, h8, hinv2⟩
  unfold mcts_round
  rw [h1]
  simp only []
  rw [h5]
  simp only []
  rw [h6]

/-- In one pass of the loop the root gets exactly one more visit and keeps its write-once
fields. -/
theorem roundFacts_root (fl : DoubleOps) (o : Oracle) (t : Tree) (s : Calls) (t2 : Tree)
    (s2 : Calls) (hf : RoundFacts fl o t s t2 s2) (rn : MCTSNode) (hrn : t[0]? = some rn) :
    ∃ rn2 : MCTSNode, t2[0]? = some rn2 ∧ rn2.visits = rn.visits + 1 ∧ SameStatic rn rn2 := by
  obtain ⟨t1, s1, leaf, w, _, _, _, h4, h5, h6, _, h8, _⟩ := hf
  obtain ⟨rn1, h9, h10, _, h12⟩ := h5.2 0 rn hrn
  have hchain := heapInv_rooted t1 h4 leaf h6
  refine ⟨credit w rn1, (h8 0 rn1 h9).1 hchain, ?_, ?_⟩
  · simp only [credit]
    rw [h12]
  · exact sameStatic_trans h10 (sameLinks_credit w rn1).1

/-- The loop on a heap with the invariant runs to its end, keeps the invariant, and gives
the root one visit per pass. -/
theorem mcts_loop_inv (fl : DoubleOps) (o : Oracle) (iters : Nat) (t : Tree) (s : Calls)
    (h : HeapInv t) (rn : MCTSNode) (hrn : t[0]? = some rn) :
    ∃ (t' : Tree) (s' : Calls) (rn' : MCTSNode),
      mcts_loop fl o iters t s 0 = some (t', s') ∧ HeapInv t' ∧ t'[0]? = some rn' ∧
        rn'.visits = rn.visits + iters ∧ SameStatic rn rn' := by
  induction iters generalizing t s rn with
  | zero => exact ⟨t, s, rn, rfl, h, hrn, by simp, sameStatic_refl rn⟩
  | succ n ih =>
    obtain ⟨t2, s2, h1, h2⟩ := mcts_round_facts fl o t s h (lt_length_of_get hrn)
    obtain ⟨rn2, h3, h4, h5⟩ := roundFacts_root fl o t s t2 s2 h2 rn hrn
    have hinv2 : HeapInv t2 := by
      obtain ⟨_, _, _, _, _, _, _, _, _, _, _, _, hinv⟩ := h2
      exact hinv
    obtain ⟨t', s', rn', h6, h7, h8, h9, h10⟩ := ih t2 s2 hinv2 rn2 h3
    refine ⟨t', s', rn', ?_, h7, h8, ?_, sameStatic_trans h5 h10⟩
    · rw [mcts_loop_succ, h1]
      exact h6
    · rw [h9, h4]
      push_cast
      ring

/-! ## Heaps without allocation failure -/

theorem expanded_heap_get (t : Tree) (i : Nat) (node : MCTSNode) (k : Nat) (m : Int)
    (okm : Bool) (hi : i < t.length) (x : Nat) :
    (expanded_heap t i node k m okm)[x]? =
      if x = i then
        some { node with
          children := node.children ++ [t.length],
          untried_moves :=
            (node.untried_moves.set k
              (node.untried_moves.getD (node.untried_moves.length - 1) 0)).dropLast }
      else if x < t.length then t[x]?
      else if x = t.length then
        some (new_node okm (some i) m
          (drop_piece node.board (get_next_open_row node.board m) m node.player)
          (other_player node.player))
      else none := by
  unfold expanded_heap
  by_cases hx : x = i
  · subst hx
    rw [if_pos rfl, List.getElem?_set_self (by simp; omega)]
  · rw [if_neg hx, List.getElem?_set_ne (fun e => hx e.symm)]
    by_cases hlt : x < t.length
    · rw [if_pos hlt, List.getElem?_append_left hlt]
    · rw [if_neg hlt]
      by_cases heq : x = t.length
      · subst heq
        rw [if_pos rfl, List.getElem?_concat_length]
      · rw [if_neg heq]
        apply List.getElem?_eq_none
        simp only [List.length_append, List.length_singleton]
        omega

theorem expanded_heap_length (t : Tree) (i : Nat) (node : MCTSNode) (k : Nat) (m : Int)
    (okm : Bool) : (expanded_heap t i node k m okm).length = t.length + 1 := by
  simp [expanded_heap]

theorem move_at_of_get (t : Tree) (c : Nat) (cn : MCTSNode) (h : t[c]? = some cn) :
    move_at t c = cn.move := by
  simp [move_at, h]

theorem visits_at_of_get (t : Tree) (c : Nat) (cn : MCTSNode) (h : t[c]? = some cn) :
    visits_at t c = cn.visits := by
  simp [visits_at, h]

/-- The moves of the children listed in `l` are the same in two heaps whose nodes at these
addresses have the same `move`. -/
theorem map_move_at_congr (t t' : Tree) (l : List Nat)
    (h : ∀ c ∈ l, move_at t' c = move_at t c) : l.map (move_at t') = l.map (move_at t) :=
  List.map_congr_left h

theorem grows_move_at (t t' : Tree) (hg : Grows t t') (c : Nat) (hc : c < t.length) :
    move_at t' c = move_at t c ∧ visits_at t' c = visits_at t c := by
  obtain ⟨n', h1, h2, _, h4⟩ := hg.2 c t[c] (List.getElem?_eq_getElem hc)
  rw [move_at_of_get t' c n' h1, move_at_of_get t c t[c] (List.getElem?_eq_getElem hc),
    visits_at_of_get t' c n' h1, visits_at_of_get t c t[c] (List.getElem?_eq_getElem hc)]
  exact ⟨h2.2.2.1, h4⟩

theorem fullInv_root (board : Board) (player : Int) :
    FullInv [new_node true none (-1) board player] := by
  intro i n hn hterm
  have hi : i = 0 := by
    have := lt_length_of_get hn
    simpa using this
  subst hi
  simp only [List.getElem?_cons_zero, Option.some.injEq] at hn
  subst hn
  have hst := new_node_static true none (-1) board player
  have hgo : check_game_over board = -1 := by
    by_contra hne
    rw [hst.2.2.2.2.2.2.2.2.2 hne] at hterm
    exact absurd hterm (by simp)
  unfold node_moves
  rw [hst.2.2.2.2.1, hst.1, new_node_untried, if_pos ⟨hgo, rfl⟩]
  simp

/-- A successful expansion keeps `FullInv` when the list of valid moves of the new child
could be allocated. -/
theorem fullInv_expand (t : Tree) (i : Nat) (node : MCTSNode) (k : Nat) (m : Int)
    (okm : Bool) (h : HeapInv t) (hf : FullInv t) (hnode : t[i]? = some node)
    (hterm : node.is_terminal = false) (hk : k < node.untried_moves.length)
    (hm : node.untried_moves[k]? = some m)
    (hokm : check_game_over (drop_piece node.board (get_next_open_row node.board m) m
      node.player) = -1 → okm = true) :
    FullInv (expanded_heap t i node k m okm) := by
  have hi := lt_length_of_get hnode
  have ok := h.1 i node hnode
  have hst := new_node_static okm (some i) m
    (drop_piece node.board (get_next_open_row node.board m) m node.player)
    (other_player node.player)
  -- the moves of the old nodes are unchanged
  have hmove : ∀ c, c < t.length → move_at (expanded_heap t i node k m okm) c = move_at t c := by
    intro c hc
    unfold move_at
    rw [expanded_heap_get t i node k m okm hi c]
    by_cases hci : c = i
    · subst hci
      rw [if_pos rfl, hnode]
    · rw [if_neg hci, if_pos hc]
  have hkids : ∀ (j : Nat) (n : MCTSNode), t[j]? = some n →
      n.children.map (move_at (expanded_heap t i node k m okm)) = n.children.map (move_at t) := by
    intro j n hn
    apply map_move_at_congr
    intro c hc
    obtain ⟨cn, h1, _⟩ := (h.1 j n hn).child_ok c hc
    exact hmove c (lt_length_of_get h1)
  intro x n' hn' hterm'
  rw [expanded_heap_get t i node k m okm hi x] at hn'
  by_cases hx : x = i
  · subst hx
    rw [if_pos rfl] at hn'
    cases hn'
    have hold := hf x node hnode hterm
    unfold node_moves at hold ⊢
    simp only [List.map_append, List.map_cons, List.map_nil]
    rw [hkids x node hnode]
    have hnew : move_at (expanded_heap t x node k m okm) t.length = m := by
      unfold move_at
      rw [expanded_heap_get t x node k m okm hi t.length, if_neg (by omega),
        if_neg (lt_irrefl _), if_pos rfl]
      exact hst.2.2.1
    rw [hnew]
    have hperm := perm_untried_removal node.untried_moves k hk
    have hgetD : node.untried_moves.getD k 0 = m := by
      rw [List.getD_eq_getElem?_getD, hm]
      rfl
    rw [hgetD] at hperm
    refine List.Perm.trans ?_ hold
    rw [List.append_assoc]
    exact List.Perm.append_left _ (by simpa using hperm)
  · rw [if_neg hx] at hn'
    by_cases hlt : x < t.length
    · rw [if_pos hlt] at hn'
      have hold := hf x n' hn' hterm'
      unfold node_moves at hold ⊢
      rw [hkids x n' hn']
      exact hold
    · rw [if_neg hlt] at hn'
      by_cases heq : x = t.length
      · rw [if_pos heq] at hn'
        cases hn'
        have hgo : check_game_over (drop_piece node.board (get_next_open_row node.board m) m
            node.player) = -1 := by
          by_contra hne
          rw [hst.2.2.2.2.2.2.2.2.2 hne] at hterm'
          exact absurd hterm' (by simp)
        unfold node_moves
        rw [hst.2.2.2.2.1, hst.1, new_node_untried, if_pos ⟨hgo, hokm hgo⟩]
        simp
      · rw [if_neg heq] at hn'
        cases hn'

theorem fullInv_of_sameLinks (t t' : Tree) (h : TreeOK t) (hf : FullInv t)
    (hs : ∀ (j : Nat) (n : MCTSNode), t[j]? = some n →
      ∃ n' : MCTSNode, t'[j]? = some n' ∧ SameLinks n n')
    (hlen : t'.length = t.length) : FullInv t' := by
  intro j n' hn' hterm
  have hj : j < t.length := by
    rw [← hlen]
    exact lt_length_of_get hn'
  obtain ⟨n'', h1, h2⟩ := hs j t[j] (List.getElem?_eq_getElem hj)
  rw [hn'] at h1
  cases h1
  obtain ⟨hst, hch, hun⟩ := h2
  have hold := hf j t[j] (List.getElem?_eq_getElem hj) (by rw [← hst.2.2.2.2.1]; exact hterm)
  unfold node_moves at hold ⊢
  rw [hch, hun, hst.1]
  have : t[j].children.map (move_at t') = t[j].children.map (move_at t) := by
    apply map_move_at_congr
    intro c hc
    obtain ⟨cn, h3, _⟩ := (h j t[j] (List.getElem?_eq_getElem hj)).child_ok c hc
    obtain ⟨cn', h4, h5⟩ := hs c cn h3
    rw [move_at_of_get t' c cn' h4, move_at_of_get t c cn h3]
    exact h5.1.2.2.1
  rw [this]
  exact hold

theorem fullInv_budget (t : Tree) (hf : FullInv t) (i : Nat) (n : MCTSNode)
    (hn : t[i]? = some n) (hterm : n.is_terminal = false) :
    n.children.length + n.untried_moves.length = (valid_columns n.board).length := by
  have := (hf i n hn hterm).length_eq
  simpa [node_moves] using this

/-! ## Scores and the choice of a child -/

theorem ucb1_beats (fl : DoubleOps) (hfl : ScoresBeatInitial fl) (t : Tree) (c i : Nat)
    (cn pn : MCTSNode) (hc : t[c]? = some cn) (hp : cn.parent = some i)
    (hi : t[i]? = some pn) (hw : 0 ≤ cn.wins) (hwv : cn.wins ≤ cn.visits)
    (hvb : cn.visits ≤ INT_MAX) (hpv : 0 ≤ pn.visits) (hpb : pn.visits ≤ INT_MAX) :
    ∃ v, ucb1 fl t c = some v ∧ fl.gt v fl.neg_one = true := by
  have hv : 0 ≤ cn.visits := le_trans hw hwv
  unfold ucb1
  rw [hc]
  simp only [hp, hi]
  by_cases h0 : cn.visits = 0
  · rw [if_pos (by simpa using h0)]
    exact ⟨_, rfl, hfl.1⟩
  · rw [if_neg (by simpa using h0)]
    have hv' : 0 < cn.visits := lt_of_le_of_ne hv (Ne.symm h0)
    by_cases h1 : pn.visits = 0
    · rw [if_pos (by simpa using h1)]
      exact ⟨_, rfl, hfl.2.1 _ _ hw hwv hv' hvb⟩
    · rw [if_neg (by simpa using h1)]
      exact ⟨_, rfl, hfl.2.2 _ _ _ hw hwv hv' hvb (lt_of_le_of_ne hpv (Ne.symm h1)) hpb⟩

theorem best_child_loop_some (fl : DoubleOps) (t : Tree) (cs : List Nat)
    (h : ∀ c ∈ cs, ∃ v, ucb1 fl t c = some v) (score : fl.D) (b : Nat) :
    ∃ c, best_child_loop fl t cs score (some b) = some (some c) := by
  induction cs generalizing score b with
  | nil => exact ⟨b, rfl⟩
  | cons c cs ih =>
    obtain ⟨v, hv⟩ := h c (List.mem_cons_self c cs)
    have h' : ∀ d ∈ cs, ∃ v, ucb1 fl t d = some v :=
      fun d hd => h d (List.mem_cons_of_mem c hd)
    unfold best_child_loop
    rw [hv]
    simp only []
    split
    · exact ih h' v c
    · exact ih h' score b

/-- When every score is above `-1.0`, the loop of `select_node` over a non-empty list of
children finds a best child. -/
theorem best_child_found (fl : DoubleOps) (t : Tree) (cs : List Nat) (hne : cs ≠ [])
    (h : ∀ c ∈ cs, ∃ v, ucb1 fl t c = some v ∧ fl.gt v fl.neg_one = true) :
    ∃ c, best_child_loop fl t cs fl.neg_one none = some (some c) := by
  cases cs with
  | nil => exact absurd rfl hne
  | cons c cs =>
    obtain ⟨v, hv, hgt⟩ := h c (List.mem_cons_self c cs)
    unfold best_child_loop
    rw [hv]
    simp only []
    rw [if_pos hgt]
    exact best_child_loop_some fl t cs
      (fun d hd => by
        obtain ⟨v', hv', _⟩ := h d (List.mem_cons_of_mem c hd)
        exact ⟨v', hv'⟩) v c

/-! ## Children on a parent chain -/

/-- A parent chain from `leaf` to a different node `i` passes through a node whose parent
is `i`. -/
theorem chain_child (t : Tree) (leaf i : Nat) (h : OnChain t leaf i) (hne : leaf ≠ i) :
    ∃ (c : Nat) (cn : MCTSNode), OnChain t leaf c ∧ t[c]? = some cn ∧ cn.parent = some i := by
  induction h with
  | here _ => exact absurd rfl hne
  | up a p j n hn hp hrest ih =>
    by_cases hpj : p = j
    · subst hpj
      exact ⟨a, n, OnChain.here a, hn, hp⟩
    · obtain ⟨c, cn, h1, h2, h3⟩ := ih hpj
      exact ⟨c, cn, OnChain.up a p c n hn hp h1, h2, h3⟩

/-- Two nodes on the parent chain of `leaf` lie on the chain of each other. -/
theorem onChain_total (t : Tree) (leaf a b : Nat) (ha : OnChain t leaf a)
    (hb : OnChain t leaf b) : OnChain t a b ∨ OnChain t b a := by
  induction ha with
  | here _ => exact Or.inl hb
  | up x p _ n hn hp _ ih =>
    rcases (onChain_iff t x b n hn).1 hb with h | ⟨q, hq, h⟩
    · subst h
      right
      rename_i j hrest
      exact OnChain.up b p j n hn hp hrest
    · rw [hp] at hq
      cases hq
      exact ih h

/-- At most one child of a node lies on a parent chain. -/
theorem chain_child_unique (t : Tree) (hpb : ParentsBelow t) (leaf i c1 c2 : Nat)
    (n1 n2 : MCTSNode) (h1 : OnChain t leaf c1) (h2 : OnChain t leaf c2)
    (hn1 : t[c1]? = some n1) (hn2 : t[c2]? = some n2) (hp1 : n1.parent = some i)
    (hp2 : n2.parent = some i) : c1 = c2 := by
  have key : ∀ (a b : Nat) (na nb : MCTSNode), t[a]? = some na → t[b]? = some nb →
      na.parent = some i → nb.parent = some i → OnChain t a b → a = b := by
    intro a b na nb hna hnb hpa hpb' hab
    rcases (onChain_iff t a b na hna).1 hab with h | ⟨q, hq, h⟩
    · exact h.symm
    · rw [hpa] at hq
      cases hq
      have hle := onChain_le t hpb i b h
      have hlt := hpb b nb hnb i hpb'
      omega
  rcases onChain_total t leaf c1 c2 h1 h2 with h | h
  · exact key c1 c2 n1 n2 hn1 hn2 hp1 hp2 h
  · exact (key c2 c1 n2 n1 hn2 hn1 hp2 hp1 h).symm

theorem sum_map_bump (l : List Nat) (f g : Nat → Int) (c0 : Nat) (hnd : l.Nodup)
    (hc0 : c0 ∈ l) (h0 : g c0 = f c0 + 1) (hne : ∀ c ∈ l, c ≠ c0 → g c = f c) :
    (l.map g).sum = (l.map f).sum + 1 := by
  induction l with
  | nil => cases hc0
  | cons a l ih =>
    rw [List.nodup_cons] at hnd
    simp only [List.map_cons, List.sum_cons]
    by_cases ha : a = c0
    · subst ha
      have hrest : l.map g = l.map f := by
        apply List.map_congr_left
        intro c hc
        exact hne c (List.mem_cons_of_mem _ hc) (fun e => hnd.1 (e ▸ hc))
      rw [hrest, h0]
      ring
    · have hc0' : c0 ∈ l := by
        rcases List.mem_cons.1 hc0 with h | h
        · exact absurd h.symm ha
        · exact h
      rw [ih hnd.2 hc0' (fun c hc => hne c (List.mem_cons_of_mem _ hc)),
        hne a (List.mem_cons_self _ _) ha]
      ring

/-- The effect of a backpropagation from `leaf` on the sum of the visits of the children of
a node `i`: one more when `i` is on the parent chain of `leaf` and is not `leaf` itself, and
no change otherwise. -/
theorem backprop_children_visits (t1 t2 : Tree) (leaf : Nat) (w : Int) (h : HeapInv t1)
    (hspec : ∀ (j : Nat) (n : MCTSNode), t1[j]? = some n →
      (OnChain t1 leaf j → t2[j]? = some (credit w n)) ∧
      (¬ OnChain t1 leaf j → t2[j]? = some n))
    (i : Nat) (n : MCTSNode) (hn : t1[i]? = some n) :
    (OnChain t1 leaf i ∧ i ≠ leaf →
      (n.children.map (visits_at t2)).sum = (n.children.map (visits_at t1)).sum + 1) ∧
    (¬ (OnChain t1 leaf i ∧ i ≠ leaf) →
      (n.children.map (visits_at t2)).sum = (n.children.map (visits_at t1)).sum) := by
  have hpb := parentsBelow_of_treeOK t1 h.1
  have ok := h.1 i n hn
  have inv := h.2 i n hn
  have hsame : ∀ c ∈ n.children, ¬ OnChain t1 leaf c → visits_at t2 c = visits_at t1 c := by
    intro c hc hnot
    obtain ⟨cn, h1, _⟩ := ok.child_ok c hc
    rw [visits_at_of_get t2 c cn ((hspec c cn h1).2 hnot), visits_at_of_get t1 c cn h1]
  constructor
  · rintro ⟨hon, hne⟩
    obtain ⟨c0, cn0, h1, h2, h3⟩ := chain_child t1 leaf i hon (fun e => hne e.symm)
    have hmem : c0 ∈ n.children := inv.linked c0 cn0 h2 h3
    apply sum_map_bump n.children (visits_at t1) (visits_at t2) c0 inv.nodup hmem
    · rw [visits_at_of_get t2 c0 _ ((hspec c0 cn0 h2).1 h1), visits_at_of_get t1 c0 cn0 h2]
      rfl
    · intro c hc hcne
      apply hsame c hc
      intro hcon
      obtain ⟨cn, h4, h5, _⟩ := ok.child_ok c hc
      exact hcne (chain_child_unique t1 hpb leaf i c c0 cn cn0 hcon h1 h4 h2 h5 h3)
  · intro hnot
    have : n.children.map (visits_at t2) = n.children.map (visits_at t1) := by
      apply List.map_congr_left
      intro c hc
      apply hsame c hc
      intro hcon
      obtain ⟨cn, h4, h5, _⟩ := ok.child_ok c hc
      apply hnot
      refine ⟨onChain_trans t1 leaf c i hcon (onChain_parent t1 c i cn h4 h5), ?_⟩
      intro e
      have hle := onChain_le t1 hpb leaf c hcon
      have hgt := ok.child_gt c hc
      omega
    rw [this]

/-! ## A bound on the counters -/

theorem visitsLe_root (okm : Bool) (board : Board) (player : Int) :
    VisitsLe [new_node okm none (-1) board player] 0 := by
  intro i n hn
  have hi : i = 0 := by
    have := lt_length_of_get hn
    simpa using this
  subst hi
  simp only [List.getElem?_cons_zero, Option.some.injEq] at hn
  subst hn
  rw [(new_node_static okm none (-1) board player).2.2.2.2.2.2.1]

theorem visitsLe_mono (t : Tree) (K K' : Int) (hKK : K ≤ K') (h : VisitsLe t K) :
    VisitsLe t K' :=
  fun i n hn => le_trans (h i n hn) hKK

/-- The selection step adds at most a node without visits. -/
theorem select_node_visitsLe (fl : DoubleOps) (o : Oracle) (t : Tree) (s : Calls)
    (h : HeapInv t) (hroot : 0 < t.length) (K : Int) (hK : 0 ≤ K) (hb : VisitsLe t K)
    (t1 : Tree) (s1 : Calls) (leaf : Nat)
    (hsel : select_node fl o t.length t s 0 = some (t1, s1, leaf)) : VisitsLe t1 K := by
  obtain ⟨t1', s1', leaf', j, jn, h1, h2, _, h3⟩ :=
    select_node_step fl o t.length t s 0 h.1 hroot (by omega)
  rw [hsel] at h1
  cases h1
  rcases h3 with ⟨_, e1, _, _⟩ | ⟨_, _, hexp⟩ | ⟨_, _, _, e1, _, _⟩
  · rw [e1]
    exact hb
  · rcases expand_node_step o t s j jn h h2 with
      ⟨_, s', hA⟩ | ⟨_, _, _, m, okm, s', _, _, hB, _, _⟩
    · rw [hA] at hexp
      cases hexp
      exact hb
    · rw [hB] at hexp
      cases hexp
      have hj := lt_length_of_get h2
      intro i n hn
      rw [expanded_heap_get t j jn _ m okm hj i] at hn
      by_cases hij : i = j
      · rw [if_pos hij] at hn
        cases hn
        exact hb j jn h2
      · rw [if_neg hij] at hn
        by_cases hlt : i < t.length
        · rw [if_pos hlt] at hn
          exact hb i n hn
        · rw [if_neg hlt] at hn
          by_cases he : i = t.length
          · rw [if_pos he] at hn
            cases hn
            rw [(new_node_static okm (some j) m _ _).2.2.2.2.2.2.1]
            exact hK
          · rw [if_neg he] at hn
            cases hn
  · rw [e1]
    exact hb

/-- One pass of the loop raises the bound on the counters by one. -/
theorem roundFacts_visitsLe (fl : DoubleOps) (o : Oracle) (t : Tree) (s : Calls) (t2 : Tree)
    (s2 : Calls) (h : HeapInv t) (hroot : 0 < t.length) (K : Int) (hK : 0 ≤ K)
    (hb : VisitsLe t K) (hfacts : RoundFacts fl o t s t2 s2) : VisitsLe t2 (K + 1) := by
  obtain ⟨t1, s1, leaf, w, h1, _, _, _, _, _, h7, h8, _⟩ := hfacts
  have hb1 := select_node_visitsLe fl o t s h hroot K hK hb t1 s1 leaf h1
  intro i n2 hn2
  have hi : i < t1.length := by
    rw [← h7]
    exact lt_length_of_get hn2
  obtain ⟨n1, hn1⟩ : ∃ n1, t1[i]? = some n1 := ⟨t1[i], List.getElem?_eq_getElem hi⟩
  have hle := hb1 i n1 hn1
  by_cases hc : OnChain t1 leaf i
  · rw [(h8 i n1 hn1).1 hc] at hn2
    have e : n2 = credit w n1 := (Option.some.inj hn2).symm
    rw [e]
    show n1.visits + 1 ≤ K + 1
    omega
  · rw [(h8 i n1 hn1).2 hc] at hn2
    have e : n2 = n1 := (Option.some.inj hn2).symm
    rw [e]
    omega

/-! ## The search without allocation failure -/

theorem ongoing_of_not_terminal (t : Tree) (h : HeapInv t) (i : Nat) (n : MCTSNode)
    (hn : t[i]? = some n) (hterm : n.is_terminal = false) : check_game_over n.board = -1 := by
  by_contra hne
  rw [(h.2 i n hn).terminal_iff.2 hne] at hterm
  exact absurd hterm (by simp)

/-- In a search without allocation failure a node that is not terminal has an untried move or
a child. -/
theorem has_move_of_not_terminal (t : Tree) (h : HeapInv t) (hf : FullInv t) (i : Nat)
    (n : MCTSNode) (hn : t[i]? = some n) (hterm : n.is_terminal = false)
    (hun : n.untried_moves = []) : n.children ≠ [] := by
  intro hch
  have hb := fullInv_budget t hf i n hn hterm
  have hgo := ongoing_of_not_terminal t h i n hn hterm
  have hne := valid_columns_ne_nil_of_ongoing n.board hgo
  rw [hch, hun] at hb
  exact hne (List.length_eq_zero.1 hb.symm)

/-- The selection step of a pass, in a search without allocation failure and with scores
above `-1.0`, started at a root that is not terminal: it returns a node other than the
root, keeps `FullInv`, and leaves the sum of the visits of the children of the root as it
was. -/
theorem select_node_full (fl : DoubleOps) (o : Oracle) (t : Tree) (s : Calls)
    (hfl : ScoresBeatInitial fl) (hok : ∀ k, o.malloc_ok k = true) (h : HeapInv t)
    (hf : FullInv t) (hb : VisitsLe t INT_MAX) (rn : MCTSNode) (hrn : t[0]? = some rn) (hnt : rn.is_terminal = false)
    (t1 : Tree) (s1 : Calls) (leaf : Nat)
    (hsel : select_node fl o t.length t s 0 = some (t1, s1, leaf)) :
    FullInv t1 ∧ leaf ≠ 0 ∧
      ∃ rn1 : MCTSNode, t1[0]? = some rn1 ∧
        (rn1.children.map (visits_at t1)).sum = (rn.children.map (visits_at t)).sum := by
  have hroot := lt_length_of_get hrn
  obtain ⟨t1', s1', leaf', j, jn, h1, h2, _, h3⟩ :=
    select_node_step fl o t.length t s 0 h.1 hroot (by omega)
  rw [hsel] at h1
  cases h1
  have hj0 : jn.is_terminal = true → j ≠ 0 := by
    intro hjt hj
    subst hj
    rw [hrn] at h2
    cases h2
    rw [hnt] at hjt
    exact absurd hjt (by simp)
  rcases h3 with ⟨hjt, e1, _, e3⟩ | ⟨hjt, hlen, hexp⟩ | ⟨hjt, hun, hbad, _, _, _⟩
  · subst e1
    subst e3
    exact ⟨hf, hj0 hjt, rn, hrn, rfl⟩
  · rcases expand_node_step o t s j jn h h2 with
      ⟨hreason, _⟩ | ⟨_, _, _, m, okm, s', hget, hokm, hB, _, hgrow⟩
    · exfalso
      rcases hreason with hr | hr | hr
      · rw [hjt] at hr
        exact absurd hr (by simp)
      · rw [hr] at hlen
        exact absurd hlen (by simp)
      · rw [hok] at hr
        exact absurd hr (by simp)
    · rw [hB] at hexp
      cases hexp
      have hj := lt_length_of_get h2
      refine ⟨?_, by omega, ?_⟩
      · exact fullInv_expand t j jn _ m okm h hf h2 hjt (Nat.mod_lt _ hlen) hget
          (fun hgo => (hokm hgo).trans (hok _))
      · have hold : ∀ c ∈ rn.children,
            visits_at (expanded_heap t j jn (o.rand s.rands % jn.untried_moves.length) m okm) c
              = visits_at t c := by
          intro c hc
          obtain ⟨cn, h4, _⟩ := (h.1 0 rn hrn).child_ok c hc
          exact (grows_move_at t _ hgrow c (lt_length_of_get h4)).2
        have hnew : visits_at
            (expanded_heap t j jn (o.rand s.rands % jn.untried_moves.length) m okm) t.length
              = 0 := by
          unfold visits_at
          rw [expanded_heap_get t j jn _ m okm hj t.length, if_neg (by omega),
            if_neg (lt_irrefl _), if_pos rfl]
          exact (new_node_static okm (some j) m _ _).2.2.2.2.2.2.1
        by_cases hj0' : j = 0
        · subst hj0'
          rw [hrn] at h2
          cases h2
          refine ⟨_, by rw [expanded_heap_get t 0 rn _ m okm hj 0, if_pos rfl], ?_⟩
          simp only [List.map_append, List.map_cons, List.map_nil, List.sum_append,
            List.sum_cons, List.sum_nil]
          rw [hnew, List.map_congr_left hold]
          ring
        · refine ⟨rn, by
            rw [expanded_heap_get t j jn _ m okm hj 0, if_neg (fun e => hj0' e.symm),
              if_pos hroot]
            exact hrn, ?_⟩
          rw [List.map_congr_left hold]
  · exfalso
    have hch := has_move_of_not_terminal t h hf j jn h2 hjt hun
    rcases hbad with hbad | hbad
    · exact hch hbad
    · obtain ⟨c, hc⟩ := best_child_found fl t jn.children hch (by
        intro c hc
        obtain ⟨cn, h4, h5, _⟩ := (h.1 j jn h2).child_ok c hc
        have hcnt := (h.2 c cn h4).counts
        have hpcnt := (h.2 j jn h2).counts
        exact ucb1_beats fl hfl t c j cn jn h4 h5 h2 hcnt.1 hcnt.2 (hb c cn h4)
          (le_trans hpcnt.1 hpcnt.2) (hb j jn h2))
      rw [hc] at hbad
      cases hbad

/-- One pass of the loop in a search without allocation failure and with scores above
`-1.0`, from a root that is not terminal: `FullInv` is kept and the sum of the visits of the
children of the root grows by exactly one. -/
theorem roundFacts_full (fl : DoubleOps) (o : Oracle) (t : Tree) (s : Calls) (t2 : Tree)
    (s2 : Calls) (hfl : ScoresBeatInitial fl) (hok : ∀ k, o.malloc_ok k = true)
    (h : HeapInv t) (hf : FullInv t) (hb : VisitsLe t INT_MAX) (rn : MCTSNode)
    (hrn : t[0]? = some rn) (hnt : rn.is_terminal = false)
    (hfacts : RoundFacts fl o t s t2 s2) :
    FullInv t2 ∧ ∃ rn2 : MCTSNode, t2[0]? = some rn2 ∧
      children_visits t2 rn2 = children_visits t rn + 1 := by
  obtain ⟨t1, s1, leaf, w, h1, _, _, h4, _, h6, h7, h8, _⟩ := hfacts
  obtain ⟨hf1, hleaf, rn1, h9, h10⟩ :=
    select_node_full fl o t s hfl hok h hf hb rn hrn hnt t1 s1 leaf h1
  have hs : ∀ (j : Nat) (n : MCTSNode), t1[j]? = some n →
      ∃ n' : MCTSNode, t2[j]? = some n' ∧ SameLinks n n' := by
    intro j n hn
    by_cases hc : OnChain t1 leaf j
    · exact ⟨_, (h8 j n hn).1 hc, sameLinks_credit w n⟩
    · exact ⟨_, (h8 j n hn).2 hc, sameLinks_refl n⟩
  refine ⟨fullInv_of_sameLinks t1 t2 h4.1 hf1 hs h7, credit w rn1, ?_, ?_⟩
  · exact (h8 0 rn1 h9).1 (heapInv_rooted t1 h4 leaf h6)
  · have := (backprop_children_visits t1 t2 leaf w h4 h8 0 rn1 h9).1
      ⟨heapInv_rooted t1 h4 leaf h6, fun e => hleaf e.symm⟩
    unfold children_visits
    show ((credit w rn1).children.map (visits_at t2)).sum = _
    rw [show (credit w rn1).children = rn1.children from rfl, this, h10]

/-- The loop in a search without allocation failure and with scores above `-1.0`, from a
root that is not terminal, as long as the counters stay within `INT_MAX`: after `iters`
passes the root has `iters` more visits, and so has the sum of the visits of its children. -/
theorem mcts_loop_full (fl : DoubleOps) (o : Oracle) (iters : Nat) (t : Tree) (s : Calls)
    (hfl : ScoresBeatInitial fl) (hok : ∀ k, o.malloc_ok k = true) (h : HeapInv t)
    (hf : FullInv t) (rn : MCTSNode) (hrn : t[0]? = some rn) (hnt : rn.is_terminal = false)
    (K : Int) (hK : 0 ≤ K) (hb : VisitsLe t K) (hKN : K + iters ≤ INT_MAX) :
    ∃ (t' : Tree) (s' : Calls) (rn' : MCTSNode),
      mcts_loop fl o iters t s 0 = some (t', s') ∧ HeapInv t' ∧ FullInv t' ∧
        t'[0]? = some rn' ∧ rn'.visits = rn.visits + iters ∧
        children_visits t' rn' = children_visits t rn + iters ∧
        VisitsLe t' (K + iters) := by
  induction iters generalizing t s rn K with
  | zero => exact ⟨t, s, rn, rfl, h, hf, hrn, by simp, by simp, by simpa using hb⟩
  | succ n ih =>
    have hroot := lt_length_of_get hrn
    obtain ⟨t2, s2, h1, h2⟩ := mcts_round_facts fl o t s h hroot
    obtain ⟨rn2, h3, h4, h5⟩ := roundFacts_root fl o t s t2 s2 h2 rn hrn
    have hbmax : VisitsLe t INT_MAX :=
      visitsLe_mono t K INT_MAX (by push_cast at hKN; omega) hb
    obtain ⟨hf2, rn2', h6, h7⟩ :=
      roundFacts_full fl o t s t2 s2 hfl hok h hf hbmax rn hrn hnt h2
    have hb2 := roundFacts_visitsLe fl o t s t2 s2 h hroot K hK hb h2
    rw [h3] at h6
    cases h6
    have hinv2 : HeapInv t2 := by
      obtain ⟨_, _, _, _, _, _, _, _, _, _, _, _, hinv⟩ := h2
      exact hinv
    obtain ⟨t', s', rn', h8, h9, h10, h11, h12, h13, h14⟩ :=
      ih t2 s2 hinv2 hf2 rn2 h3 (by rw [h5.2.2.2.2.1]; exact hnt) (K + 1) (by omega) hb2
        (by push_cast at hKN ⊢; omega)
    refine ⟨t', s', rn', ?_, h9, h10, h11, ?_, ?_, ?_⟩
    · rw [mcts_loop_succ, h1]
      exact h8
    · rw [h12, h4]
      push_cast
      ring
    · rw [h13, h7]
      push_cast
      ring
    · have e : K + ((n + 1 : Nat) : Int) = K + 1 + (n : Int) := by
        push_cast
        ring
      rw [e]
      exact h14

/-! ## The first passes of the loop -/

theorem select_node_untried (fl : DoubleOps) (o : Oracle) (fuel : Nat) (t : Tree) (s : Calls)
    (i : Nat) (node : MCTSNode) (hn : t[i]? = some node) (hterm : node.is_terminal = false)
    (hlen : 0 < node.untried_moves.length) :
    select_node fl o (fuel + 1) t s i = expand_node o t s i := by
  rw [select_node]
  rw [hn]
  simp only [hterm, Bool.false_eq_true, if_false]
  rw [if_pos hlen]

theorem valid_columns_nodup (board : Board) : (valid_columns board).Nodup :=
  (valid_columns_sorted board).imp (fun h => ne_of_lt h)

/-- While the root has an untried move, in a search without allocation failure, every pass
of the loop expands the root: after `i` passes, `i` at most the number of legal columns, the
root has `i` children and each of them has been visited once. -/
theorem first_rounds (fl : DoubleOps) (o : Oracle) (board : Board) (player : Int) (s : Calls)
    (hok : ∀ k, o.malloc_ok k = true) (hgo : check_game_over board = -1) (i : Nat)
    (hi : i ≤ (valid_columns board).length) :
    ∃ (t : Tree) (s' : Calls) (rn : MCTSNode),
      mcts_loop fl o i [new_node true none (-1) board player] s 0 = some (t, s') ∧
      HeapInv t ∧ FullInv t ∧ t[0]? = some rn ∧ rn.is_terminal = false ∧ rn.board = board ∧
      rn.children.length = i ∧ (∀ c ∈ rn.children, visits_at t c = 1) := by
  induction i with
  | zero =>
    have hst := new_node_static true none (-1) board player
    refine ⟨_, s, _, rfl, heapInv_root true board player, fullInv_root board player, by simp,
      ?_, hst.1, by rw [hst.2.2.2.2.1]; rfl, ?_⟩
    · rw [← Bool.not_eq_true, hst.2.2.2.2.2.2.2.2]
      simp [hgo]
    · intro c hc
      rw [hst.2.2.2.2.1] at hc
      cases hc
  | succ i ih =>
    obtain ⟨t, s', rn, h1, h2, h3, h4, h5, h6, h7, h8⟩ := ih (by omega)
    have hroot := lt_length_of_get h4
    have hbudget := fullInv_budget t h3 0 rn h4 h5
    rw [h6, h7] at hbudget
    have hlen : 0 < rn.untried_moves.length := by omega
    obtain ⟨t2, s2, h9, t1, s1, leaf, w, h10, _, _, h13, _, h15, h16, h17, h18⟩ :=
      mcts_round_facts fl o t s' h2 hroot
    have hsel : select_node fl o t.length t s' 0 = expand_node o t s' 0 := by
      obtain ⟨f, hf⟩ : ∃ f, t.length = f + 1 := ⟨t.length - 1, by omega⟩
      rw [hf]
      exact select_node_untried fl o f t s' 0 rn h4 h5 hlen
    rw [hsel] at h10
    rcases expand_node_step o t s' 0 rn h2 h4 with
      ⟨hreason, _⟩ | ⟨_, _, _, m, okm, s'', hget, hokm, hB, _, hgrow⟩
    · exfalso
      rcases hreason with hr | hr | hr
      · rw [h5] at hr
        exact absurd hr (by simp)
      · rw [hr] at hlen
        exact absurd hlen (by simp)
      · rw [hok] at hr
        exact absurd hr (by simp)
    · rw [hB] at h10
      have e := Option.some.inj h10
      have et : t1 = expanded_heap t 0 rn (o.rand s'.rands % rn.untried_moves.length) m okm :=
        (congrArg Prod.fst e).symm
      have el : leaf = t.length := (congrArg (fun x => x.2.2) e).symm
      subst el
      have hf1 : FullInv t1 := by
        rw [et]
        exact fullInv_expand t 0 rn _ m okm h2 h3 h4 h5 (Nat.mod_lt _ hlen) hget
          (fun hgo' => (hokm hgo').trans (hok _))
      have hs : ∀ (j : Nat) (n : MCTSNode), t1[j]? = some n →
          ∃ n' : MCTSNode, t2[j]? = some n' ∧ SameLinks n n' := by
        intro j n hn
        by_cases hc : OnChain t1 t.length j
        · exact ⟨_, (h17 j n hn).1 hc, sameLinks_credit w n⟩
        · exact ⟨_, (h17 j n hn).2 hc, sameLinks_refl n⟩
      have hget1 := expanded_heap_get t 0 rn (o.rand s'.rands % rn.untried_moves.length) m okm
        hroot
      rw [← et] at hget1
      have hroot1 := hget1 0
      rw [if_pos rfl] at hroot1
      have hchild1 := hget1 t.length
      rw [if_neg (by omega), if_neg (lt_irrefl _), if_pos rfl] at hchild1
      have hst := new_node_static okm (some 0) m
        (drop_piece rn.board (get_next_open_row rn.board m) m rn.player) (other_player rn.player)
      have hchain0 := heapInv_rooted t1 h13 t.length h15
      have hroot2 := (h17 0 _ hroot1).1 hchain0
      have hchild2 := (h17 t.length _ hchild1).1 (OnChain.here _)
      have hmcts : mcts_loop fl o (i + 1) [new_node true none (-1) board player] s 0 =
          some (t2, s2) := by
        rw [mcts_loop_succ_end, h1]
        exact h9
      refine ⟨t2, s2, _, hmcts, h18, fullInv_of_sameLinks t1 t2 h13.1 hf1 hs h16, hroot2, h5, h6,
        ?_, ?_⟩
      · show (rn.children ++ [t.length]).length = i + 1
        simp [h7]
      · intro c hc
        have hc' : c ∈ rn.children ++ [t.length] := hc
        rcases List.mem_append.1 hc' with hc' | hc'
        · obtain ⟨cn, h19, h20, _⟩ := (h2.1 0 rn h4).child_ok c hc'
          have hclt := lt_length_of_get h19
          have hc1 : t1[c]? = some cn := by
            have hcpos := (h2.1 0 rn h4).child_gt c hc'
            rw [hget1 c, if_neg (by omega), if_pos hclt]
            exact h19
          have hnot : ¬ OnChain t1 t.length c := by
            intro hon
            have := chain_child_unique t1 (parentsBelow_of_treeOK t1 h13.1) t.length 0 c t.length
              cn _ hon (OnChain.here _) hc1 hchild1 h20 hst.2.2.2.1
            omega
          rw [visits_at_of_get t2 c cn ((h17 c cn hc1).2 hnot)]
          have := h8 c hc'
          rw [visits_at_of_get t c cn h19] at this
          exact this
        · rw [List.mem_singleton.1 hc', visits_at_of_get t2 t.length _ hchild2]
          show (new_node okm (some 0) m _ _).visits + 1 = 1
          rw [hst.2.2.2.2.2.2.1]
          rfl

/-! ## The final choice -/

/-- The final loop of `mcts_get_best_move`: it keeps `best` when no child has more than
`most` visits, and otherwise returns the first child, in the order of the list, among those
with the highest number of visits. -/
theorem most_visited_loop_spec (t : Tree) (cs : List Nat)
    (h : ∀ c ∈ cs, ∃ cn : MCTSNode, t[c]? = some cn) (most : Int) (best : Option Nat) :
    ∃ r, most_visited_loop t cs most best = some r ∧
      ((r = best ∧ ∀ c ∈ cs, visits_at t c ≤ most) ∨
        ∃ (k c : Nat), cs[k]? = some c ∧ r = some c ∧ most < visits_at t c ∧
          ∀ (j c' : Nat), cs[j]? = some c' →
            visits_at t c' ≤ visits_at t c ∧ (j < k → visits_at t c' < visits_at t c)) := by
  induction cs generalizing most best with
  | nil =>
    refine ⟨best, rfl, Or.inl ⟨rfl, ?_⟩⟩
    intro c hc
    cases hc
  | cons c cs ih =>
    obtain ⟨cn, hcn⟩ := h c (List.mem_cons_self c cs)
    have h' : ∀ d ∈ cs, ∃ dn : MCTSNode, t[d]? = some dn :=
      fun d hd => h d (List.mem_cons_of_mem c hd)
    have hvc : visits_at t c = cn.visits := visits_at_of_get t c cn hcn
    unfold most_visited_loop
    rw [hcn]
    simp only []
    by_cases hgt : cn.visits > most
    · rw [if_pos hgt]
      obtain ⟨r, hr, hr'⟩ := ih h' cn.visits (some c)
      refine ⟨r, hr, Or.inr ?_⟩
      rcases hr' with ⟨h1, h2⟩ | ⟨k, c2, h1, h2, h3, h4⟩
      · refine ⟨0, c, by simp, h1, by rw [hvc]; exact hgt, ?_⟩
        intro j c' hj
        cases j with
        | zero =>
          simp only [List.getElem?_cons_zero, Option.some.injEq] at hj
          subst hj
          exact ⟨le_refl _, fun hlt => absurd hlt (lt_irrefl 0)⟩
        | succ j =>
          simp only [List.getElem?_cons_succ] at hj
          refine ⟨?_, fun hlt => absurd hlt (Nat.not_lt_zero _)⟩
          rw [hvc]
          exact h2 c' (List.getElem?_mem hj)
      · refine ⟨k + 1, c2, by simpa using h1, h2, by omega, ?_⟩
        intro j c' hj
        cases j with
        | zero =>
          simp only [List.getElem?_cons_zero, Option.some.injEq] at hj
          subst hj
          rw [hvc]
          exact ⟨le_of_lt h3, fun _ => h3⟩
        | succ j =>
          simp only [List.getElem?_cons_succ] at hj
          exact ⟨(h4 j c' hj).1, fun hlt => (h4 j c' hj).2 (by omega)⟩
    · rw [if_neg hgt]
      obtain ⟨r, hr, hr'⟩ := ih h' most best
      refine ⟨r, hr, ?_⟩
      rcases hr' with ⟨h1, h2⟩ | ⟨k, c2, h1, h2, h3, h4⟩
      · refine Or.inl ⟨h1, ?_⟩
        intro d hd
        rcases List.mem_cons.1 hd with hd | hd
        · rw [hd, hvc]
          omega
        · exact h2 d hd
      · refine Or.inr ⟨k + 1, c2, by simpa using h1, h2, h3, ?_⟩
        intro j c' hj
        cases j with
        | zero =>
          simp only [List.getElem?_cons_zero, Option.some.injEq] at hj
          subst hj
          rw [hvc]
          exact ⟨by omega, fun _ => by omega⟩
        | succ j =>
          simp only [List.getElem?_cons_succ] at hj
          exact ⟨(h4 j c' hj).1, fun hlt => (h4 j c' hj).2 (by omega)⟩

/-- The end of `mcts_get_best_move` on a heap with the invariant whose root has a child: the
answer is the move of the first child with the highest number of visits. -/
theorem choose_move_most_visited (o : Oracle) (t : Tree) (s : Calls) (board : Board)
    (rn : MCTSNode) (h : HeapInv t) (hrn : t[0]? = some rn) (hc : rn.children ≠ []) :
    ∃ (k c : Nat) (cn : MCTSNode), rn.children[k]? = some c ∧ t[c]? = some cn ∧
      choose_move o t s 0 board = some cn.move ∧
      ∀ (j c' : Nat) (cn' : MCTSNode), rn.children[j]? = some c' → t[c']? = some cn' →
        cn'.visits ≤ cn.visits ∧ (j < k → cn'.visits < cn.visits) := by
  have ok := h.1 0 rn hrn
  have hkids : ∀ c ∈ rn.children, ∃ cn : MCTSNode, t[c]? = some cn := by
    intro c hc'
    obtain ⟨cn, h1, _⟩ := ok.child_ok c hc'
    exact ⟨cn, h1⟩
  obtain ⟨r, hr, hr'⟩ := most_visited_loop_spec t rn.children hkids (-1) none
  rcases hr' with ⟨_, h2⟩ | ⟨k, c, h1, h2, _, h4⟩
  · exfalso
    obtain ⟨c, cs, hcs⟩ := List.exists_cons_of_ne_nil hc
    have hmem : c ∈ rn.children := by
      rw [hcs]
      exact List.mem_cons_self c cs
    obtain ⟨cn, h3⟩ := hkids c hmem
    have := h2 c hmem
    rw [visits_at_of_get t c cn h3] at this
    have hcnt := (h.2 c cn h3).counts
    omega
  · obtain ⟨cn, h3⟩ := hkids c (List.getElem?_mem h1)
    refine ⟨k, c, cn, h1, h3, ?_, ?_⟩
    · unfold choose_move
      rw [hrn]
      simp only []
      rw [hr, h2]
      simp only []
      rw [h3]
    · intro j c' cn' hj hcn'
      have := h4 j c' hj
      rw [visits_at_of_get t c' cn' hcn', visits_at_of_get t c cn h3] at this
      exact this

/-- When the root can be allocated, is not terminal and gets its list of valid moves,
`mcts_get_best_move` runs the loop on the heap that holds the fresh root and ends with
`choose_move`. -/
theorem mcts_search_eq (fl : DoubleOps) (o : Oracle) (iters : Nat) (board : Board)
    (player : Int) (h0 : o.malloc_ok 0 = true) (h1 : o.malloc_ok 1 = true)
    (hgo : check_game_over board = -1) :
    mcts_search fl o iters board player =
      match mcts_loop fl o iters [new_node true none (-1) board player]
          { rands := 0, mallocs := 2 } 0 with
      | none => none
      | some (t1, s1) => choose_move o t1 s1 0 board := by
  unfold mcts_search
  have hcreate : create_node o [] { rands := 0, mallocs := 0 } none (-1) board player =
      ([new_node true none (-1) board player], { rands := 0, mallocs := 2 }, some 0) := by
    unfold create_node copy_board
    simp [h0, h1, hgo]
  rw [hcreate]
  simp only [List.getElem?_cons_zero]
  have hst := new_node_static true none (-1) board player
  have hterm : (new_node true none (-1) board player).is_terminal = false := by
    rw [← Bool.not_eq_true, hst.2.2.2.2.2.2.2.2]
    simp [hgo]
  have hun : (new_node true none (-1) board player).untried_moves = valid_columns board := by
    rw [new_node_untried, if_pos ⟨hgo, rfl⟩]
  have hne := valid_columns_ne_nil_of_ongoing board hgo
  rw [hterm]
  simp only [Bool.false_eq_true, if_false]
  have hnotempty : ¬ (((new_node true none (-1) board player).untried_moves.length == 0 &&
      (new_node true none (-1) board player).children.length == 0) = true) := by
    rw [hun]
    simp only [Bool.and_eq_true, beq_iff_eq, not_and]
    intro hz
    exact absurd (List.length_eq_zero.1 hz) hne
  rw [if_neg hnotempty]

/-! ## Untried moves and children -/

theorem set_push_get (t : Tree) (i : Nat) (node' child : MCTSNode) (hi : i < t.length)
    (x : Nat) :
    ((t ++ [child]).set i node')[x]? =
      if x = i then some node'
      else if x < t.length then t[x]?
      else if x = t.length then some child
      else none := by
  by_cases hx : x = i
  · subst hx
    rw [if_pos rfl, List.getElem?_set_self (by simp; omega)]
  · rw [if_neg hx, List.getElem?_set_ne (fun e => hx e.symm)]
    by_cases hlt : x < t.length
    · rw [if_pos hlt, List.getElem?_append_left hlt]
    · rw [if_neg hlt]
      by_cases heq : x = t.length
      · subst heq
        rw [if_pos rfl, List.getElem?_concat_length]
      · rw [if_neg heq]
        apply List.getElem?_eq_none
        simp only [List.length_append, List.length_singleton]
        omega

theorem new_node_count_le (okm : Bool) (parent : Option Nat) (move : Int) (board : Board)
    (player : Int) :
    ((new_node okm parent move board player).is_terminal = true →
      (new_node okm parent move board player).untried_moves = [] ∧
        (new_node okm parent move board player).children = []) ∧
    move_count (new_node okm parent move board player) ≤
      (valid_columns (new_node okm parent move board player).board).length := by
  have hst := new_node_static okm parent move board player
  refine ⟨fun h => ⟨new_node_terminal_untried okm parent move board player h, hst.2.2.2.2.1⟩, ?_⟩
  unfold move_count
  rw [hst.2.2.2.2.1, hst.1]
  simpa using new_node_untried_length_le okm parent move board player

theorem new_node_count_eq (parent : Option Nat) (move : Int) (board : Board) (player : Int)
    (h : (new_node true parent move board player).is_terminal = false) :
    move_count (new_node true parent move board player) =
      (valid_columns (new_node true parent move board player).board).length := by
  have hst := new_node_static true parent move board player
  have hgo : check_game_over board = -1 := by
    by_contra hne
    rw [hst.2.2.2.2.2.2.2.2.2 hne] at h
    exact absurd h (by simp)
  unfold move_count
  rw [hst.2.2.2.2.1, hst.1, new_node_untried, if_pos ⟨hgo, rfl⟩]
  simp

/-- A call of `expand_node` keeps every node of the heap at its address, with its board, and
does not increase its number of untried moves and children. -/
theorem expand_node_count_le (o : Oracle) (t : Tree) (s : Calls) (i : Nat) (t' : Tree)
    (s' : Calls) (leaf : Nat) (he : expand_node o t s i = some (t', s', leaf)) (j : Nat)
    (n : MCTSNode) (hn : t[j]? = some n) :
    ∃ n' : MCTSNode, t'[j]? = some n' ∧ n'.board = n.board ∧
      n'.is_terminal = n.is_terminal ∧ move_count n' ≤ move_count n := by
  cases hnode : t[i]? with
  | none =>
    unfold expand_node at he
    rw [hnode] at he
    cases he
  | some node =>
    rcases expand_node_shape o t s i node hnode with ⟨s'', hA⟩ | ⟨_, hlen, m, okm, s'', _, _, _, _, hB⟩
    · rw [hA] at he
      cases he
      exact ⟨n, hn, rfl, rfl, le_refl _⟩
    · rw [hB] at he
      cases he
      have hi := lt_length_of_get hnode
      rw [set_push_get t i _ _ hi j]
      by_cases hji : j = i
      · subst hji
        rw [hnode] at hn
        cases hn
        rw [if_pos rfl]
        refine ⟨_, rfl, rfl, rfl, ?_⟩
        unfold move_count
        simp only [List.length_dropLast, List.length_set]
        split
        · simp only [List.length_append, List.length_singleton]
          omega
        · omega
      · rw [if_neg hji, if_pos (lt_length_of_get hn)]
        exact ⟨n, hn, rfl, rfl, le_refl _⟩

/-- In every heap built by `create_node` and `expand_node` a terminal node has no untried
move and no child, and no node has more untried moves and children together than its board
has legal columns. -/
theorem builtHeap_count_le (o : Oracle) (t : Tree) (h : BuiltHeap o t) (i : Nat)
    (n : MCTSNode) (hn : t[i]? = some n) :
    (n.is_terminal = true → n.untried_moves = [] ∧ n.children = []) ∧
      move_count n ≤ (valid_columns n.board).length := by
  induction h generalizing i n with
  | empty => simp at hn
  | create t s parent move board player _ ih =>
    rcases create_node_cases o t s parent move board player with
      ⟨_, okm, s', e, _⟩ | ⟨_, s', e⟩
    · rw [e] at hn
      simp only at hn
      by_cases hi : i < t.length
      · rw [List.getElem?_append_left hi] at hn
        exact ih i n hn
      · have hlen := lt_length_of_get hn
        simp only [List.length_append, List.length_singleton] at hlen
        have hi' : i = t.length := by omega
        subst hi'
        rw [List.getElem?_concat_length] at hn
        cases hn
        exact new_node_count_le okm parent move board player
    · rw [e] at hn
      exact ih i n hn
  | expand t s j t' s' leaf _ he ih =>
    cases hnode : t[j]? with
    | none =>
      unfold expand_node at he
      rw [hnode] at he
      cases he
    | some node =>
      rcases expand_node_shape o t s j node hnode with
        ⟨s'', hA⟩ | ⟨hnt, hlen, m, okm, s'', _, _, _, _, hB⟩
      · rw [hA] at he
        cases he
        exact ih i n hn
      · rw [hB] at he
        cases he
        have hj := lt_length_of_get hnode
        rw [set_push_get t j _ _ hj i] at hn
        by_cases hij : i = j
        · subst hij
          rw [if_pos rfl] at hn
          cases hn
          have hold := ih i node hnode
          refine ⟨?_, ?_⟩
          · intro hterm
            have hterm' : node.is_terminal = true := hterm
            rw [hnt] at hterm'
            exact absurd hterm' (by simp)
          · refine le_trans ?_ hold.2
            unfold move_count
            simp only [List.length_dropLast, List.length_set]
            split
            · simp only [List.length_append, List.length_singleton]
              omega
            · omega
        · rw [if_neg hij] at hn
          by_cases hlt : i < t.length
          · rw [if_pos hlt] at hn
            exact ih i n hn
          · rw [if_neg hlt] at hn
            by_cases heq : i = t.length
            · rw [if_pos heq] at hn
              cases hn
              exact new_node_count_le okm (some j) m _ _
            · rw [if_neg heq] at hn
              cases hn

/-- In a heap built by `create_node` and `expand_node` without allocation failure, a node
that is not terminal has exactly as many untried moves and children together as its board
has legal columns. -/
theorem builtHeap_count_eq (o : Oracle) (hok : ∀ k, o.malloc_ok k = true) (t : Tree)
    (h : BuiltHeap o t) (i : Nat) (n : MCTSNode) (hn : t[i]? = some n)
    (hterm : n.is_terminal = false) :
    move_count n = (valid_columns n.board).length := by
  induction h generalizing i n with
  | empty => simp at hn
  | create t s parent move board player _ ih =>
    rcases create_node_cases o t s parent move board player with
      ⟨_, okm, s', e, hokm⟩ | ⟨_, s', e⟩
    · rw [e] at hn
      simp only at hn
      by_cases hi : i < t.length
      · rw [List.getElem?_append_left hi] at hn
        exact ih i n hn hterm
      · have hlen := lt_length_of_get hn
        simp only [List.length_append, List.length_singleton] at hlen
        have hi' : i = t.length := by omega
        subst hi'
        rw [List.getElem?_concat_length] at hn
        cases hn
        have hst := new_node_static okm parent move board player
        have hgo : check_game_over board = -1 := by
          by_contra hne
          rw [hst.2.2.2.2.2.2.2.2.2 hne] at hterm
          exact absurd hterm (by simp)
        have hokm' : okm = true := (hokm hgo).trans (hok _)
        subst hokm'
        exact new_node_count_eq parent move board player hterm
    · rw [e] at hn
      exact ih i n hn hterm
  | expand t s j t' s' leaf hb he ih =>
    cases hnode : t[j]? with
    | none =>
      unfold expand_node at he
      rw [hnode] at he
      cases he
    | some node =>
      rcases expand_node_shape o t s j node hnode with
        ⟨s'', hA⟩ | ⟨hnt, hlen, m, okm, s'', _, _, _, hokm, hB⟩
      · rw [hA] at he
        cases he
        exact ih i n hn hterm
      · rw [hB] at he
        cases he
        have hj := lt_length_of_get hnode
        rw [set_push_get t j _ _ hj i] at hn
        by_cases hij : i = j
        · subst hij
          rw [if_pos rfl] at hn
          cases hn
          have hold := ih i node hnode hnt
          have hcols := valid_columns_length_le node.board
          unfold move_count at hold ⊢
          simp only [List.length_dropLast, List.length_set]
          rw [if_pos (by omega)]
          simp only [List.length_append, List.length_singleton]
          show node.untried_moves.length - 1 + (node.children.length + 1) =
            (valid_columns node.board).length
          omega
        · rw [if_neg hij] at hn
          by_cases hlt : i < t.length
          · rw [if_pos hlt] at hn
            exact ih i n hn hterm
          · rw [if_neg hlt] at hn
            by_cases heq : i = t.length
            · rw [if_pos heq] at hn
              cases hn
              have hst := new_node_static okm (some j) m
                (drop_piece node.board (get_next_open_row node.board m) m node.player)
                (other_player node.player)
              have hgo : check_game_over (drop_piece node.board
                  (get_next_open_row node.board m) m node.player) = -1 := by
                by_contra hne
                rw [hst.2.2.2.2.2.2.2.2.2 hne] at hterm
                exact absurd hterm (by simp)
              have hokm' : okm = true := (hokm hgo).trans (hok _)
              subst hokm'
              exact new_node_count_eq (some j) m _ _ hterm
            · rw [if_neg heq] at hn
              cases hn

/-! ## Random playouts: the result -/

/-- The playout loop without allocation failure, entered with `winner` equal to
`check_game_over` of the board and a player to move: it ends on the first finished board
of the run, returns `check_game_over` of that board, and plays at most one move per empty
cell of the starting board. -/
theorem playout_loop_run (o : Oracle) (hok : ∀ k, o.malloc_ok k = true) (fuel : Nat)
    (board : Board) (player winner : Int) (s : Calls)
    (hw : winner = check_game_over board) (hp : player = PLAYER1 ∨ player = PLAYER2)
    (hfuel : empty_cells board + 1 ≤ fuel) :
    ∃ (final : Board) (s' : Calls),
      playout_loop o fuel board player winner s = some (check_game_over final, s') ∧
      PlayoutRun o board player s.rands final s'.rands ∧ check_game_over final ≠ -1 ∧
      s.rands ≤ s'.rands ∧ s'.rands - s.rands ≤ empty_cells board ∧
      (winner ≠ -1 → s' = s) := by
  induction fuel generalizing board player winner s with
  | zero => omega
  | succ fuel ih =>
    unfold playout_loop
    by_cases hgo : winner = -1
    · have hw' : ¬ ((winner != -1) = true) := by simp [hgo]
      rw [if_neg hw']
      simp only []
      have hgo' : check_game_over board = -1 := by rw [← hw]; exact hgo
      have hne := valid_columns_ne_nil_of_ongoing board hgo'
      have hpos : 0 < (valid_columns board).length := List.length_pos.2 hne
      rw [hok]
      have e : ¬ ((num_moves (get_valid_moves true board) == 0 ||
          (get_valid_moves true board).isNone) = true) := by
        simp [get_valid_moves, num_moves, hne]
      rw [if_neg e]
      have e2 : (get_valid_moves true board).getD [] = valid_columns board := rfl
      have e3 : num_moves (get_valid_moves true board) = (valid_columns board).length := rfl
      rw [e2, e3]
      have hidx : o.rand s.rands % (valid_columns board).length <
          (valid_columns board).length := Nat.mod_lt _ hpos
      have hget := List.getElem?_eq_getElem hidx
      rw [hget]
      simp only []
      have hmem : (valid_columns board)[o.rand s.rands % (valid_columns board).length] ∈
          valid_columns board := List.getElem_mem _
      generalize (valid_columns board)[o.rand s.rands % (valid_columns board).length] = col
        at hmem hget
      have hvalid := (mem_valid_columns board col).1 hmem
      have hrow := get_next_open_row_of_valid board col hvalid
      have hcol := (is_valid_location_iff board col).1 hvalid
      have hne' : (get_next_open_row board col != -1) = true := by
        simp only [bne_iff_ne, ne_eq]
        omega
      rw [if_pos hne']
      have hpe : player ≠ EMPTY := by
        rcases hp with hp | hp <;> rw [hp] <;> simp [PLAYER1, PLAYER2, EMPTY]
      have hdrop := empty_cells_drop board (get_next_open_row board col) col player
        ⟨hrow.1, hrow.2.1, hcol.1, hcol.2.1⟩ hrow.2.2.1 hpe
      obtain ⟨final, s', h1, h2, h3, h4, h5, _⟩ := ih
        (drop_piece board (get_next_open_row board col) col player)
        (if player == PLAYER1 then PLAYER2 else PLAYER1)
        (check_game_over (drop_piece board (get_next_open_row board col) col player))
        { rands := s.rands + 1, mallocs := s.mallocs + 1 } rfl
        (other_player_range player) (by omega)
      refine ⟨final, s', h1, ?_, h3, ?_, ?_, fun h => absurd hgo h⟩
      · exact PlayoutRun.move board player s.rands col final s'.rands hgo' hget h2
      · simp only at h4
        omega
      · simp only at h4 h5
        omega
    · have hw' : (winner != -1) = true := by simpa using hgo
      rw [if_pos hw']
      have hfin : check_game_over board ≠ -1 := by rw [← hw]; exact hgo
      refine ⟨board, s, by rw [hw], PlayoutRun.done board player s.rands hfin, hfin,
        le_refl _, by simp, fun _ => rfl⟩

/-! ## The claims about the search tree -/

/-- C12: from a fresh root on a board that is not over and has `B` legal columns, without
allocation failure, for every random source and every `i ≤ B`: after `i` passes of the loop
the root has exactly `i` children, with pairwise distinct moves, and `B - i` untried moves;
every child has `visits = 1`; the moves of the children and the untried moves together are
the legal columns, each once; and after `B` passes the moves of the children are exactly the
legal columns. -/
theorem c12_first_rounds (fl : DoubleOps) (o : Oracle) (board : Board) (player : Int)
    (s : Calls) (i : Nat) (hok : ∀ k, o.malloc_ok k = true)
    (hgo : check_game_over board = -1) (hi : i ≤ (valid_columns board).length) :
    ∃ (t : Tree) (s' : Calls) (rn : MCTSNode),
      mcts_loop fl o i [new_node true none (-1) board player] s 0 = some (t, s') ∧
      t[0]? = some rn ∧ rn.children.length = i ∧
      rn.untried_moves.length = (valid_columns board).length - i ∧
      (rn.children.map (move_at t)).Nodup ∧
      (∀ c ∈ rn.children, visits_at t c = 1) ∧
      List.Perm (rn.children.map (move_at t) ++ rn.untried_moves) (valid_columns board) ∧
      (i = (valid_columns board).length →
        List.Perm (rn.children.map (move_at t)) (valid_columns board)) := by
  obtain ⟨t, s', rn, h1, _, h3, h4, h5, h6, h7, h8⟩ :=
    first_rounds fl o board player s hok hgo i hi
  have hperm := h3 0 rn h4 h5
  rw [h6] at hperm
  have hbudget := fullInv_budget t h3 0 rn h4 h5
  rw [h6, h7] at hbudget
  have hnodup : (node_moves t rn).Nodup := hperm.nodup_iff.2 (valid_columns_nodup board)
  refine ⟨t, s', rn, h1, h4, h7, by omega, (List.nodup_append.1 hnodup).1, h8, hperm, ?_⟩
  intro hB
  have hnil : rn.untried_moves = [] := List.length_eq_zero.1 (by omega)
  unfold node_moves at hperm
  rw [hnil, List.append_nil] at hperm
  exact hperm

/-- An instance of C12: two passes on the scenario board, which has seven legal columns. -/
theorem c12_first_rounds_witness :
    (∀ k, zero_oracle.malloc_ok k = true) ∧ check_game_over three_in_column_3 = -1 ∧
    2 ≤ (valid_columns three_in_column_3).length ∧
    ∃ (t : Tree) (s' : Calls) (rn : MCTSNode),
      mcts_loop c_double zero_oracle 2 [new_node true none (-1) three_in_column_3 PLAYER1]
          { rands := 0, mallocs := 2 } 0 = some (t, s') ∧
      t[0]? = some rn ∧ rn.children.length = 2 ∧ (∀ c ∈ rn.children, visits_at t c = 1) :=
  ⟨fun _ => rfl, by decide, by decide,
    by
      obtain ⟨t, s', rn, h1, h2, h3, _, _, h6, _⟩ :=
        c12_first_rounds c_double zero_oracle three_in_column_3 PLAYER1
          { rands := 0, mallocs := 2 } 2 (fun _ => rfl) (by decide) (by decide)
      exact ⟨t, s', rn, h1, h2, h3, h6⟩⟩

/-- C13, refuted as stated: the node that `create_node` builds for a board won by `PLAYER1`
in which all seven columns are still open (the child for column 3 of the scenario board,
with `PLAYER2` to move) is terminal and has no untried move and no child, so
`num_untried_moves + num_children` is 0 and not the number 7 of legal columns. -/
theorem c13_counterexample :
    ((create_node zero_oracle [] { rands := 0, mallocs := 0 } none (-1) won_in_column_3
        PLAYER2).1.map fun n => (n.is_terminal, move_count n)) = [(true, 0)] ∧
      (valid_columns won_in_column_3).length = 7 := by
  decide

/-- C13, amended: in every heap built by `create_node` and changed by `expand_node` only, a
terminal node has no untried move and no child; no node has more untried moves and children
together than its board has legal columns, and a node that is not terminal has exactly that
many when no allocation fails; and a call of `expand_node` keeps the board of every node and
never increases its number of untried moves and children. -/
theorem c13_move_count (o : Oracle) (t : Tree) (h : BuiltHeap o t) :
    (∀ (i : Nat) (n : MCTSNode), t[i]? = some n →
      (n.is_terminal = true → n.untried_moves = [] ∧ n.children = []) ∧
      move_count n ≤ (valid_columns n.board).length ∧
      ((∀ k, o.malloc_ok k = true) → n.is_terminal = false →
        move_count n = (valid_columns n.board).length)) ∧
    (∀ (s : Calls) (i : Nat) (t' : Tree) (s' : Calls) (leaf : Nat),
      expand_node o t s i = some (t', s', leaf) →
      ∀ (j : Nat) (n : MCTSNode), t[j]? = some n →
        ∃ n' : MCTSNode, t'[j]? = some n' ∧ n'.board = n.board ∧
          n'.is_terminal = n.is_terminal ∧ move_count n' ≤ move_count n) := by
  constructor
  · intro i n hn
    have hle := builtHeap_count_le o t h i n hn
    exact ⟨hle.1, hle.2, fun hok hterm => builtHeap_count_eq o hok t h i n hn hterm⟩
  · intro s i t' s' leaf he j n hn
    exact expand_node_count_le o t s i t' s' leaf he j n hn

/-- An instance of the amended C13: the heap after one expansion of a fresh root on the
empty board. -/
theorem c13_move_count_witness :
    ∃ t, BuiltHeap zero_oracle t ∧
      ∀ (i : Nat) (n : MCTSNode), t[i]? = some n →
        (n.is_terminal = true → n.untried_moves = [] ∧ n.children = []) ∧
        move_count n ≤ (valid_columns n.board).length := by
  obtain ⟨t', s', leaf, he, _⟩ := expand_node_ok zero_oracle root_heap
    { rands := 0, mallocs := 2 } 0 (heapInv_root true init_board PLAYER1).1 (by decide)
  have hb : BuiltHeap zero_oracle t' :=
    BuiltHeap.expand root_heap _ 0 t' s' leaf
      (BuiltHeap.create [] { rands := 0, mallocs := 0 } none (-1) init_board PLAYER1
        BuiltHeap.empty) he
  exact ⟨t', hb, fun i n hn =>
    ⟨((c13_move_count zero_oracle t' hb).1 i n hn).1,
      ((c13_move_count zero_oracle t' hb).1 i n hn).2.1⟩⟩

/-- C15: on a node that is terminal or has no untried move, `expand_node` returns the node
and changes nothing.  On a node that is not terminal and has `n > 0` untried moves, when
`malloc` gives a node (and, as for every node of a heap that the search builds, the untried
moves are legal on its board and it has fewer than `COLS` children), `expand_node` takes
the untried move `m` at index `rand() % n`; stores at the end of the heap a child whose board
is the board of the node with one piece of the player of the node in the lowest empty cell
of column `m`, whose player is the other player, whose move is `m`, whose parent is the node
and whose `visits` and `wins` are 0; appends it as the last child; keeps every other untried
move exactly once; keeps the board and all other fields of the node and all other nodes;
and returns the new child. -/
theorem c15_expand_node (o : Oracle) (t : Tree) (s : Calls) (i : Nat) (node : MCTSNode)
    (hnode : t[i]? = some node) :
    ((node.is_terminal = true ∨ node.untried_moves = []) →
      expand_node o t s i = some (t, s, i)) ∧
    (node.is_terminal = false → 0 < node.untried_moves.length →
      (∀ m ∈ node.untried_moves, is_valid_location node.board m = true) →
      node.children.length < COLS → o.malloc_ok s.mallocs = true →
      ∃ (m : Int) (t' : Tree) (s' : Calls) (child node' : MCTSNode),
        node.untried_moves[o.rand s.rands % node.untried_moves.length]? = some m ∧
        expand_node o t s i = some (t', s', t.length) ∧
        t'.length = t.length + 1 ∧ t'[t.length]? = some child ∧ t'[i]? = some node' ∧
        (∀ j, j ≠ i → j < t.length → t'[j]? = t[j]?) ∧
        child.board = drop_piece node.board (get_next_open_row node.board m) m node.player ∧
        0 ≤ get_next_open_row node.board m ∧ get_next_open_row node.board m < ROWS ∧
        node.board (get_next_open_row node.board m) m = EMPTY ∧
        (∀ r : Int, get_next_open_row node.board m < r → r < ROWS → node.board r m ≠ EMPTY) ∧
        child.player = other_player node.player ∧
        (node.player = PLAYER1 → child.player = PLAYER2) ∧
        (node.player = PLAYER2 → child.player = PLAYER1) ∧
        child.move = m ∧ child.parent = some i ∧ child.visits = 0 ∧ child.wins = 0 ∧
        child.children = [] ∧
        node'.children = node.children ++ [t.length] ∧
        List.Perm (m :: node'.untried_moves) node.untried_moves ∧
        SameStatic node node' ∧ node'.wins = node.wins ∧ node'.visits = node.visits) := by
  constructor
  · intro h
    unfold expand_node
    rw [hnode]
    simp only []
    rw [if_pos]
    rcases h with h | h
    · simp [h]
    · simp [h]
  · intro hterm hlen hvalid hcap hm
    obtain ⟨m, okm, s', hget, _, hexp⟩ :=
      expand_node_success o t s i node hnode hterm hlen hvalid hm
    rw [if_pos hcap] at hexp
    have hi := lt_length_of_get hnode
    have hmem : m ∈ node.untried_moves := List.getElem?_mem hget
    have hrow := get_next_open_row_of_valid node.board m (hvalid m hmem)
    have hst := new_node_static okm (some i) m
      (drop_piece node.board (get_next_open_row node.board m) m node.player)
      (other_player node.player)
    have hperm := perm_untried_removal node.untried_moves
      (o.rand s.rands % node.untried_moves.length) (Nat.mod_lt _ hlen)
    have hgetD : node.untried_moves.getD (o.rand s.rands % node.untried_moves.length) 0 = m := by
      rw [List.getD_eq_getElem?_getD, hget]
      rfl
    rw [hgetD] at hperm
    refine ⟨m, _, s', _,
      { node with
        children := node.children ++ [t.length],
        untried_moves :=
          (node.untried_moves.set (o.rand s.rands % node.untried_moves.length)
            (node.untried_moves.getD (node.untried_moves.length - 1) 0)).dropLast },
      hget, hexp, by simp, ?_, ?_, ?_, hst.1, hrow.1, hrow.2.1,
      hrow.2.2.1, hrow.2.2.2, hst.2.1, ?_, ?_, hst.2.2.1, hst.2.2.2.1, hst.2.2.2.2.2.2.1,
      hst.2.2.2.2.2.1, hst.2.2.2.2.1, rfl, hperm, ⟨rfl, rfl, rfl, rfl, rfl, rfl⟩, rfl, rfl⟩
    · rw [set_push_get t i _ _ hi t.length, if_neg (by omega), if_neg (lt_irrefl _),
        if_pos rfl]
    · rw [set_push_get t i _ _ hi i, if_pos rfl]
    · intro j hji hj
      rw [set_push_get t i _ _ hi j, if_neg hji, if_pos hj]
    · intro hp
      rw [hst.2.1, hp]
      rfl
    · intro hp
      rw [hst.2.1, hp]
      rfl

/-- An instance of C15: the expansion of a fresh root on the empty board. -/
theorem c15_expand_node_witness :
    ∃ (m : Int) (t' : Tree) (s' : Calls) (child : MCTSNode),
      expand_node zero_oracle root_heap { rands := 0, mallocs := 2 } 0 =
        some (t', s', root_heap.length) ∧
      t'[root_heap.length]? = some child ∧ child.move = m ∧ child.parent = some 0 := by
  obtain ⟨m, t', s', child, _, _, h2, _, h4, _, _, _, _, _, _, _, _, _, _, h15, h16, _⟩ :=
    (c15_expand_node zero_oracle root_heap { rands := 0, mallocs := 2 } 0
      (new_node true none (-1) init_board PLAYER1) rfl).2 (by decide) (by decide)
      (new_node_untried_ok true none (-1) init_board PLAYER1) (by decide) rfl
  exact ⟨m, t', s', child, h2, h4, h15, h16⟩

/-- C16: when its allocations succeed, `create_node` stores at the end of the heap, and
returns, a node that holds the board, the player, the move and the parent it was given,
with `visits = 0`, `wins = 0` and no child; `is_terminal` is true exactly when
`check_game_over(board) != -1` and `terminal_winner` is `check_game_over(board)`; a node
that is not terminal has the list returned by `get_valid_moves` as its untried moves, and a
terminal node has none. -/
theorem c16_create_node (o : Oracle) (t : Tree) (s : Calls) (parent : Option Nat)
    (move : Int) (board : Board) (player : Int) (h0 : o.malloc_ok s.mallocs = true)
    (h1 : o.malloc_ok (s.mallocs + 1) = true) :
    ∃ n s', create_node o t s parent move board player = (t ++ [n], s', some t.length) ∧
      n.board = board ∧ n.player = player ∧ n.move = move ∧ n.parent = parent ∧
      n.visits = 0 ∧ n.wins = 0 ∧ n.children = [] ∧
      (n.is_terminal = true ↔ check_game_over board ≠ -1) ∧
      n.terminal_winner = check_game_over board ∧
      (n.is_terminal = false → get_valid_moves true board = some n.untried_moves ∧
        ∀ c : Int, c ∈ n.untried_moves ↔ is_valid_location board c = true) ∧
      (n.is_terminal = true → n.untried_moves = []) := by
  obtain ⟨n, s', h2, h3, h4, h5, h6, h7, h8, h9, h10, h11, h12, h13⟩ :=
    create_node_spec o t s parent move board player h0 h1
  refine ⟨n, s', h2, h3, h4, h5, h6, h7, h8, h9, h10, h11, ?_, h13⟩
  intro hterm
  have hv := h12 hterm
  refine ⟨hv, ?_⟩
  intro c
  have : n.untried_moves = valid_columns board := by
    unfold get_valid_moves at hv
    simp only [if_true, Option.some.injEq] at hv
    exact hv.symm
  rw [this]
  exact mem_valid_columns board c

/-- An instance of C16: the root of a search on the empty board. -/
theorem c16_create_node_witness :
    zero_oracle.malloc_ok 0 = true ∧ zero_oracle.malloc_ok 1 = true ∧
    ∃ n s', create_node zero_oracle [] { rands := 0, mallocs := 0 } none (-1) init_board
        PLAYER1 = ([] ++ [n], s', some 0) ∧
      n.visits = 0 ∧ n.wins = 0 ∧ n.children = [] ∧ n.terminal_winner = check_game_over init_board :=
  ⟨rfl, rfl, by
    obtain ⟨n, s', h2, _, _, _, _, h7, h8, h9, _, h11, _⟩ :=
      c16_create_node zero_oracle [] { rands := 0, mallocs := 0 } none (-1) init_board PLAYER1
        rfl rfl
    exact ⟨n, s', h2, h7, h8, h9, h11⟩⟩

/-- C17: on a node as `create_node` builds it (its terminal flag and winner are those of
`check_game_over` on its board, and `PLAYER1` or `PLAYER2` is to move), without allocation
failure and for every random source, `simulate_random_playout` returns a value among `0`,
`PLAYER1`, `PLAYER2` (never `-1`) after at most as many moves (one random value is drawn for
each move) as the board has empty cells.  On a terminal node it returns `terminal_winner`
and draws nothing.  On a node that is not terminal it returns `check_game_over` of the first
finished board of the run that drops a piece in the legal column picked by each random
value, the movers alternating from the player of the node.  The function works on a copy
of the board: the heap is not an output of it. -/
theorem c17_playout (o : Oracle) (t : Tree) (s : Calls) (i : Nat) (node : MCTSNode)
    (hok : ∀ k, o.malloc_ok k = true) (hnode : t[i]? = some node)
    (hp : node.player = PLAYER1 ∨ node.player = PLAYER2)
    (hw : node.terminal_winner = check_game_over node.board)
    (hterm : node.is_terminal = true ↔ check_game_over node.board ≠ -1) :
    ∃ (r : Int) (s' : Calls), simulate_random_playout o t s i = some (r, s') ∧
      (r = 0 ∨ r = PLAYER1 ∨ r = PLAYER2) ∧ r ≠ -1 ∧
      s.rands ≤ s'.rands ∧ s'.rands - s.rands ≤ empty_cells node.board ∧
      (node.is_terminal = true → r = node.terminal_winner ∧ s' = s) ∧
      (node.is_terminal = false →
        ∃ final : Board, PlayoutRun o node.board node.player s.rands final s'.rands ∧
          check_game_over final ≠ -1 ∧ r = check_game_over final) := by
  have hfuel : empty_cells (copy_board node.board) + 1 ≤ PLAYOUT_FUEL := by
    have := empty_cells_le (copy_board node.board)
    simp only [PLAYOUT_FUEL, ROWS, COLS] at this ⊢
    omega
  obtain ⟨final, s', h1, h2, h3, h4, h5, h6⟩ := playout_loop_run o hok PLAYOUT_FUEL
    (copy_board node.board) node.player node.terminal_winner s hw hp hfuel
  refine ⟨check_game_over final, s', ?_, ?_, h3, h4, h5, ?_, ?_⟩
  · unfold simulate_random_playout
    rw [hnode]
    exact h1
  · rcases check_game_over_range final with h | h | h | h
    · exact absurd h h3
    · exact Or.inl h
    · exact Or.inr (Or.inl h)
    · exact Or.inr (Or.inr h)
  · intro ht
    have hne : node.terminal_winner ≠ -1 := by
      rw [hw]
      exact hterm.1 ht
    have hs := h6 hne
    subst hs
    refine ⟨?_, rfl⟩
    cases h2 with
    | done _ _ _ _ => exact hw.symm
    | move _ _ _ col _ _ hgo _ _ => exact absurd hgo (hterm.1 ht)
  · intro _
    exact ⟨final, h2, h3, rfl⟩

/-- An instance of C17: a playout from a fresh root on the empty board. -/
theorem c17_playout_witness :
    (∀ k, zero_oracle.malloc_ok k = true) ∧
    ∃ (r : Int) (s' : Calls),
      simulate_random_playout zero_oracle root_heap { rands := 0, mallocs := 2 } 0 =
        some (r, s') ∧ (r = 0 ∨ r = PLAYER1 ∨ r = PLAYER2) ∧
      s'.rands - 0 ≤ empty_cells init_board :=
  ⟨fun _ => rfl, by
    have hst := new_node_static true none (-1) init_board PLAYER1
    obtain ⟨r, s', h1, h2, _, _, h5, _⟩ := c17_playout zero_oracle root_heap
      { rands := 0, mallocs := 2 } 0 (new_node true none (-1) init_board PLAYER1)
      (fun _ => rfl) rfl (Or.inl hst.2.1) (by rw [hst.2.2.2.2.2.2.2.1, hst.1])
      (by rw [hst.1]; exact hst.2.2.2.2.2.2.2.2)
    rw [hst.1] at h5
    exact ⟨r, s', h1, h2, h5⟩⟩

/-- C18: a column whose top cell is occupied is not accepted by `is_valid_location`, and it
is not accepted on any board obtained from there by legal drops of `PLAYER1` or `PLAYER2`:
such drops leave every occupied cell of the board as it is. -/
theorem c18_full_column (board : Board) (c : Int) (hocc : board 0 c ≠ EMPTY) :
    is_valid_location board c = false ∧
    ∀ b : Board, DropsFrom board b →
      is_valid_location b c = false ∧
      ∀ r c' : Int, board r c' ≠ EMPTY → b r c' = board r c' := by
  refine ⟨(is_valid_location_eq_false_iff board c).2 (Or.inr (Or.inr hocc)), ?_⟩
  intro b hb
  refine ⟨?_, fun r c' h => dropsFrom_keeps_occupied board b hb r c' h⟩
  rw [is_valid_location_eq_false_iff]
  right
  right
  rw [dropsFrom_keeps_occupied board b hb 0 c hocc]
  exact hocc

/-- An instance of C18: column 0 of a board on which it is full, after a drop in column 1. -/
theorem c18_full_column_witness :
    column_0_full 0 0 ≠ EMPTY ∧
    is_valid_location
      (drop_piece column_0_full (get_next_open_row column_0_full 1) 1 PLAYER1) 0 = false :=
  ⟨by decide,
    ((c18_full_column column_0_full 0 (by decide)).2 _
      (DropsFrom.drop column_0_full 1 PLAYER1 DropsFrom.start (by decide) (Or.inl rfl))).1⟩

/-- C20: a column accepted by `is_valid_location` has an open row, so `get_next_open_row`
returns a row of `[0, ROWS)` and never `-1`; this holds for every move that `get_valid_moves`
returns (the moves of a playout) and, in the heap after any number of passes of the search
loop, whatever the random source and the allocation failures, for every untried move of
every node (the moves of an expansion): the two `invalid move` branches are not taken.  In
such a heap every node has `num_children + num_untried_moves ≤ COLS`, so a node with an
untried move has `num_children < COLS`: the capacity branch is not taken. -/
theorem c20_error_branches :
    (∀ (board : Board) (c : Int), is_valid_location board c = true →
      0 ≤ get_next_open_row board c ∧ get_next_open_row board c < ROWS ∧
        get_next_open_row board c ≠ -1) ∧
    (∀ (ok : Bool) (board : Board) (l : List Int) (m : Int),
      get_valid_moves ok board = some l → m ∈ l → get_next_open_row board m ≠ -1) ∧
    (∀ (fl : DoubleOps) (o : Oracle) (okm : Bool) (board : Board) (player : Int) (s : Calls)
        (N : Nat),
      ∃ (t : Tree) (s' : Calls),
        mcts_loop fl o N [new_node okm none (-1) board player] s 0 = some (t, s') ∧
        ∀ (i : Nat) (n : MCTSNode), t[i]? = some n →
          (∀ m ∈ n.untried_moves,
            is_valid_location n.board m = true ∧ get_next_open_row n.board m ≠ -1) ∧
          n.children.length + n.untried_moves.length ≤ COLS ∧
          (n.untried_moves ≠ [] → n.children.length < COLS)) := by
  have hrow : ∀ (board : Board) (c : Int), is_valid_location board c = true →
      0 ≤ get_next_open_row board c ∧ get_next_open_row board c < ROWS ∧
        get_next_open_row board c ≠ -1 := by
    intro board c h
    have := get_next_open_row_of_valid board c h
    exact ⟨this.1, this.2.1, by omega⟩
  refine ⟨hrow, ?_, ?_⟩
  · intro ok board l m hl hm
    cases ok with
    | false => simp [get_valid_moves] at hl
    | true =>
      simp only [get_valid_moves, if_true, Option.some.injEq] at hl
      subst hl
      exact (hrow board m ((mem_valid_columns board m).1 hm)).2.2
  · intro fl o okm board player s N
    obtain ⟨t, s', _, h1, h2, _⟩ := mcts_loop_inv fl o N
      [new_node okm none (-1) board player] s (heapInv_root okm board player)
      (new_node okm none (-1) board player) (by simp)
    refine ⟨t, s', h1, ?_⟩
    intro i n hn
    have ok := h2.1 i n hn
    have inv := h2.2 i n hn
    have hle : n.children.length + n.untried_moves.length ≤ COLS :=
      le_trans inv.budget (valid_columns_length_le n.board)
    refine ⟨fun m hm => ⟨ok.untried_ok m hm, (hrow n.board m (ok.untried_ok m hm)).2.2⟩, hle, ?_⟩
    intro hne
    have := List.length_pos.2 hne
    omega


/-! ## Gravity -/

theorem gravityConsistent_init : GravityConsistent init_board := by
  intro r r' c _ _ _ _ _ h
  exact absurd rfl h

theorem gravityConsistent_drop (b : Board) (col player : Int) (h : GravityConsistent b)
    (hvalid : is_valid_location b col = true) (hplayer : player = PLAYER1 ∨ player = PLAYER2) :
    GravityConsistent (drop_piece b (get_next_open_row b col) col player) := by
  obtain ⟨h0, h1, _, h3⟩ := get_next_open_row_of_valid b col hvalid
  have hcol := (is_valid_location_iff b col).1 hvalid
  have hpl : player ≠ EMPTY := by
    rcases hplayer with e | e <;> rw [e] <;> decide
  intro r r' c hr hlt hr' hc0 hc hocc
  rw [drop_piece_apply b _ col player r' c ⟨h0, h1, hcol.1, hcol.2.1⟩]
  rw [drop_piece_apply b _ col player r c ⟨h0, h1, hcol.1, hcol.2.1⟩] at hocc
  by_cases e' : r' = get_next_open_row b col ∧ c = col
  · rw [if_pos e']
    exact hpl
  · rw [if_neg e']
    by_cases e : r = get_next_open_row b col ∧ c = col
    · rw [e.2]
      exact h3 r' (by rw [← e.1]; exact hlt) hr'
    · rw [if_neg e] at hocc
      exact h r r' c hr hlt hr' hc0 hc hocc

theorem gravityConsistent_of_drops (b : Board) (h : DropsFrom init_board b) :
    GravityConsistent b := by
  induction h with
  | start => exact gravityConsistent_init
  | drop b col player _ hvalid hplayer ih => exact gravityConsistent_drop b col player ih hvalid hplayer

/-- On a gravity-consistent board a column in range is accepted exactly when one of its
cells is empty. -/
theorem valid_iff_column_has_empty (b : Board) (h : GravityConsistent b) (c : Int)
    (hc0 : 0 ≤ c) (hc : c < COLS) :
    is_valid_location b c = true ↔ ∃ r : Int, 0 ≤ r ∧ r < ROWS ∧ b r c = EMPTY := by
  rw [is_valid_location_iff]
  constructor
  · intro hv
    exact ⟨0, le_refl 0, by decide, hv.2.2⟩
  · rintro ⟨r, hr0, hr, he⟩
    refine ⟨hc0, hc, ?_⟩
    by_contra hocc
    rcases eq_or_lt_of_le hr0 with e | hlt
    · rw [← e] at he
      exact hocc he
    · exact h 0 r c (le_refl 0) hlt hr hc0 hc hocc he

theorem open_row_iff_column_has_empty (b : Board) (c : Int) :
    get_next_open_row b c ≠ -1 ↔ ∃ r : Int, 0 ≤ r ∧ r < ROWS ∧ b r c = EMPTY := by
  rcases get_next_open_row_spec b c with ⟨h1, h2⟩ | ⟨h1, h2, h3, _⟩
  · constructor
    · intro h
      exact absurd h1 h
    · rintro ⟨r, hr0, hr, he⟩
      exact absurd he (h2 r hr0 hr)
  · constructor
    · intro _
      exact ⟨_, h1, h2, h3⟩
    · intro _
      omega

/-- C22: every board reached from the empty board of `init_board` by legal drops (a column
accepted by `is_valid_location`, the row of `get_next_open_row`, a piece of `PLAYER1` or
`PLAYER2` written by `drop_piece`) is gravity-consistent: in no column does an `EMPTY` cell
lie below an occupied cell.  On such a board `is_board_full` is true exactly when no cell
of the board is `EMPTY`, and for a column `c` in range `is_valid_location(board, c)` is
true exactly when column `c` has an `EMPTY` cell, that is, exactly when
`get_next_open_row(board, c) != -1`. -/
theorem c22_gravity (b : Board) (h : DropsFrom init_board b) :
    GravityConsistent b ∧
    (is_board_full b = true ↔
      ∀ r c : Int, 0 ≤ r → r < ROWS → 0 ≤ c → c < COLS → b r c ≠ EMPTY) ∧
    ∀ c : Int, 0 ≤ c → c < COLS →
      (is_valid_location b c = true ↔ ∃ r : Int, 0 ≤ r ∧ r < ROWS ∧ b r c = EMPTY) ∧
      ((∃ r : Int, 0 ≤ r ∧ r < ROWS ∧ b r c = EMPTY) ↔ get_next_open_row b c ≠ -1) ∧
      (is_valid_location b c = true ↔ get_next_open_row b c ≠ -1) := by
  have hg := gravityConsistent_of_drops b h
  refine ⟨hg, ?_, ?_⟩
  · rw [is_board_full_iff_top]
    constructor
    · intro htop r c hr0 hr hc0 hc
      rcases eq_or_lt_of_le hr0 with e | hlt
      · rw [← e]
        exact htop c hc0 hc
      · exact hg 0 r c (le_refl 0) hlt hr hc0 hc (htop c hc0 hc)
    · intro hall c hc0 hc
      exact hall 0 c (le_refl 0) (by decide) hc0 hc
  · intro c hc0 hc
    have h1 := valid_iff_column_has_empty b hg c hc0 hc
    have h2 := open_row_iff_column_has_empty b c
    exact ⟨h1, h2.symm, h1.trans h2.symm⟩

/-- An instance of C22: the board after one drop of `PLAYER1` in column 3 of the empty
board. -/
theorem c22_gravity_witness :
    DropsFrom init_board (drop_piece init_board (get_next_open_row init_board 3) 3 PLAYER1) ∧
    GravityConsistent (drop_piece init_board (get_next_open_row init_board 3) 3 PLAYER1) ∧
    (is_valid_location (drop_piece init_board (get_next_open_row init_board 3) 3 PLAYER1) 3
        = true ↔
      get_next_open_row (drop_piece init_board (get_next_open_row init_board 3) 3 PLAYER1) 3
        ≠ -1) :=
  ⟨DropsFrom.drop init_board 3 PLAYER1 DropsFrom.start (by decide) (Or.inl rfl),
    (c22_gravity _
      (DropsFrom.drop init_board 3 PLAYER1 DropsFrom.start (by decide) (Or.inl rfl))).1,
    ((c22_gravity _
      (DropsFrom.drop init_board 3 PLAYER1 DropsFrom.start (by decide) (Or.inl rfl))).2.2
        3 (by decide) (by decide)).2.2⟩

/-! ## Counters of the heaps of a search -/

theorem heapInv_nil : HeapInv [] := by
  refine ⟨treeOK_nil, ?_⟩
  intro i n hn
  simp at hn

theorem backpropagate_lt (t : Tree) (leaf : Nat) (w : Int) (t' : Tree)
    (hb : backpropagate t leaf w = some t') : leaf < t.length := by
  by_contra hge
  have hnone : t[leaf]? = none := List.getElem?_eq_none (by omega)
  unfold backpropagate at hb
  cases hl : t.length with
  | zero =>
    rw [hl] at hb
    simp [backpropagate_loop] at hb
  | succ k =>
    rw [hl] at hb
    simp [backpropagate_loop, hnone] at hb

/-- A call of `backpropagate` that returns keeps the invariant of the heap. -/
theorem backpropagate_heapInv (t : Tree) (leaf : Nat) (w : Int) (t' : Tree) (h : HeapInv t)
    (hb : backpropagate t leaf w = some t') : HeapInv t' := by
  have hleaf := backpropagate_lt t leaf w t' hb
  obtain ⟨t2, h6, h7, h8⟩ := backpropagate_spec t leaf w (parentsBelow_of_treeOK t h.1) hleaf
  rw [hb] at h6
  cases h6
  apply heapInv_of_sameLinks t t' h h7
  intro j n hn
  by_cases hc : OnChain t leaf j
  · have hcnt := credit_counts w n (h.2 j n hn).counts
    exact ⟨_, (h8 j n hn).1 hc, sameLinks_credit w n, hcnt.1, hcnt.2⟩
  · have hcnt := (h.2 j n hn).counts
    exact ⟨_, (h8 j n hn).2 hc, sameLinks_refl n, hcnt.1, hcnt.2⟩

/-- A call of `expand_node` that returns keeps the invariant of the heap. -/
theorem expand_node_heapInv (o : Oracle) (t : Tree) (s : Calls) (i : Nat) (t' : Tree)
    (s' : Calls) (leaf : Nat) (h : HeapInv t)
    (he : expand_node o t s i = some (t', s', leaf)) : HeapInv t' := by
  cases hn : t[i]? with
  | none =>
    unfold expand_node at he
    rw [hn] at he
    cases he
  | some node =>
    rcases expand_node_step o t s i node h hn with ⟨_, s1, h1⟩ | ⟨_, _, _, m, okm, s1, _, _, h1, h2, _⟩
    · rw [h1] at he
      cases he
      exact h
    · rw [h1] at he
      cases he
      exact h2

theorem searchHeap_inv (o : Oracle) (t : Tree) (h : SearchHeap o t) : HeapInv t := by
  induction h with
  | root s board player =>
    rcases create_node_cases o [] s none (-1) board player with
      ⟨_, okm, s', h1, _⟩ | ⟨_, s', h1⟩
    · rw [h1]
      exact heapInv_root okm board player
    · rw [h1]
      exact heapInv_nil
  | expand t s i t' s' leaf _ he ih => exact expand_node_heapInv o t s i t' s' leaf ih he
  | backprop t leaf winner t' _ hb ih => exact backpropagate_heapInv t leaf winner t' ih hb

/-- C21: `create_node` gives every node `wins = 0` and `visits = 0`, and in every heap
obtained from a root by calls of `expand_node` and of `backpropagate`, with any outcomes (so
with the outcomes `0`, `PLAYER1`, `PLAYER2`), every node has `0 ≤ wins ≤ visits`; hence the
win rate `wins / visits` of a visited node, as a rational number, lies in `[0, 1]`.  On such
a heap `expand_node` and `backpropagate` return on every node, and the heap they give is one
of these heaps again. -/
theorem c21_wins_le_visits (o : Oracle) (t : Tree) (h : SearchHeap o t) :
    (∀ (i : Nat) (n : MCTSNode), t[i]? = some n →
      0 ≤ n.wins ∧ n.wins ≤ n.visits ∧
      (n.visits ≠ 0 → 0 ≤ (n.wins : ℚ) / (n.visits : ℚ) ∧ (n.wins : ℚ) / (n.visits : ℚ) ≤ 1)) ∧
    (∀ (s : Calls) (parent : Option Nat) (move : Int) (board : Board) (player : Int)
        (n : MCTSNode) (s' : Calls) (r : Option Nat),
      create_node o t s parent move board player = (t ++ [n], s', r) →
        n.wins = 0 ∧ n.visits = 0) ∧
    (∀ (s : Calls) (i : Nat), i < t.length →
      ∃ t' s' leaf, expand_node o t s i = some (t', s', leaf) ∧ SearchHeap o t') ∧
    (∀ (leaf : Nat) (winner : Int), leaf < t.length →
      ∃ t', backpropagate t leaf winner = some t' ∧ SearchHeap o t') := by
  have hinv := searchHeap_inv o t h
  refine ⟨?_, ?_, ?_, ?_⟩
  · intro i n hn
    have hc := (hinv.2 i n hn).counts
    refine ⟨hc.1, hc.2, ?_⟩
    intro hv
    have hpos : (0 : ℚ) < (n.visits : ℚ) := by
      have : 0 < n.visits := lt_of_le_of_ne (le_trans hc.1 hc.2) (Ne.symm hv)
      exact_mod_cast this
    have hw0 : (0 : ℚ) ≤ (n.wins : ℚ) := by exact_mod_cast hc.1
    have hwv : (n.wins : ℚ) ≤ (n.visits : ℚ) := by exact_mod_cast hc.2
    exact ⟨div_nonneg hw0 (le_of_lt hpos), (div_le_one hpos).2 hwv⟩
  · intro s parent move board player n s' r hcr
    rcases create_node_cases o t s parent move board player with
      ⟨_, okm, s1, h1, _⟩ | ⟨_, s1, h1⟩
    · rw [h1] at hcr
      have e := congrArg Prod.fst hcr
      simp only [List.append_cancel_left_eq, List.cons.injEq, and_true] at e
      rw [← e]
      have hst := new_node_static okm parent move board player
      exact ⟨hst.2.2.2.2.2.1, hst.2.2.2.2.2.2.1⟩
    · rw [h1] at hcr
      have e := congrArg (fun x => x.1.length) hcr
      simp at e
  · intro s i hi
    obtain ⟨t', s', leaf, he, _⟩ := expand_node_ok o t s i hinv.1 hi
    exact ⟨t', s', leaf, he, SearchHeap.expand t s i t' s' leaf h he⟩
  · intro leaf winner hleaf
    obtain ⟨t', hb, _⟩ := backpropagate_ok t leaf winner hinv.1 hleaf
    exact ⟨t', hb, SearchHeap.backprop t leaf winner t' h hb⟩

/-- An instance of C21: the heap of a root on the empty board. -/
theorem c21_wins_le_visits_witness :
    SearchHeap zero_oracle
      (create_node zero_oracle [] { rands := 0, mallocs := 0 } none (-1) init_board PLAYER1).1 ∧
    ∃ t', backpropagate
        (create_node zero_oracle [] { rands := 0, mallocs := 0 } none (-1) init_board PLAYER1).1
        0 PLAYER2 = some t' ∧ SearchHeap zero_oracle t' :=
  ⟨SearchHeap.root { rands := 0, mallocs := 0 } init_board PLAYER1,
    (c21_wins_le_visits zero_oracle _
      (SearchHeap.root { rands := 0, mallocs := 0 } init_board PLAYER1)).2.2.2 0 PLAYER2
      (by decide)⟩

/-! ## The accounting of visits -/

theorem visitInv_root (okm : Bool) (board : Board) (player : Int) :
    VisitInv [new_node okm none (-1) board player] := by
  intro i n hn
  have hi : i = 0 := by
    have := lt_length_of_get hn
    simpa using this
  subst hi
  simp only [List.getElem?_cons_zero, Option.some.injEq] at hn
  subst hn
  have hst := new_node_static okm none (-1) board player
  refine ⟨fun h => absurd rfl h, fun _ => ?_⟩
  unfold children_visits own_visit
  rw [hst.2.2.2.2.1, hst.2.2.2.2.2.2.1]
  simp

/-- The selection step of a pass, in a search without allocation failure and with scores
above `-1.0`: it adds at most one node, and leaves the accounting of visits as the
backpropagation needs it. -/
theorem select_node_visits (fl : DoubleOps) (o : Oracle) (t : Tree) (s : Calls)
    (hfl : ScoresBeatInitial fl) (hok : ∀ k, o.malloc_ok k = true) (h : HeapInv t)
    (hf : FullInv t) (hb : VisitsLe t INT_MAX) (hv : VisitInv t) (hroot : 0 < t.length)
    (t1 : Tree) (s1 : Calls) (leaf : Nat)
    (hsel : select_node fl o t.length t s 0 = some (t1, s1, leaf)) :
    VisitPre t1 leaf ∧ t1.length ≤ t.length + 1 := by
  obtain ⟨t1', s1', leaf', j, jn, h1, h2, _, h3⟩ :=
    select_node_step fl o t.length t s 0 h.1 hroot (by omega)
  rw [hsel] at h1
  cases h1
  rcases h3 with ⟨hjt, e1, _, e3⟩ | ⟨hjt, hlen, hexp⟩ | ⟨hjt, hun, hbad, _, _, _⟩
  · subst e1
    subst e3
    refine ⟨⟨fun i n hn _ => hv i n hn, ?_⟩, by omega⟩
    intro n hn hnt
    rw [h2] at hn
    cases hn
    rw [hjt] at hnt
    exact absurd hnt (by simp)
  · rcases expand_node_step o t s j jn h h2 with
      ⟨hreason, _⟩ | ⟨_, _, _, m, okm, s', hget, hokm, hB, _, hgrow⟩
    · exfalso
      rcases hreason with hr | hr | hr
      · rw [hjt] at hr
        exact absurd hr (by simp)
      · rw [hr] at hlen
        exact absurd hlen (by simp)
      · rw [hok] at hr
        exact absurd hr (by simp)
    · rw [hB] at hexp
      cases hexp
      have hj := lt_length_of_get h2
      have hold : ∀ (x : Nat) (n : MCTSNode), t[x]? = some n → ∀ c ∈ n.children,
          visits_at (expanded_heap t j jn (o.rand s.rands % jn.untried_moves.length) m okm) c
            = visits_at t c := by
        intro x n hn c hc
        obtain ⟨cn, h4, _⟩ := (h.1 x n hn).child_ok c hc
        exact (grows_move_at t _ hgrow c (lt_length_of_get h4)).2
      have hnew : visits_at
          (expanded_heap t j jn (o.rand s.rands % jn.untried_moves.length) m okm) t.length
            = 0 := by
        unfold visits_at
        rw [expanded_heap_get t j jn _ m okm hj t.length, if_neg (by omega),
          if_neg (lt_irrefl _), if_pos rfl]
        exact (new_node_static okm (some j) m _ _).2.2.2.2.2.2.1
      refine ⟨⟨?_, ?_⟩, by rw [expanded_heap_length]⟩
      · intro i n hn hil
        rw [expanded_heap_get t j jn _ m okm hj i] at hn
        by_cases hij : i = j
        · subst hij
          rw [if_pos rfl] at hn
          cases hn
          have hvj := hv i jn h2
          refine ⟨hvj.1, fun hnt => ?_⟩
          rw [hvj.2 hnt]
          unfold children_visits
          simp only [List.map_append, List.map_cons, List.map_nil, List.sum_append,
            List.sum_cons, List.sum_nil]
          rw [hnew, List.map_congr_left (hold i jn h2)]
          ring
        · rw [if_neg hij] at hn
          by_cases hlt : i < t.length
          · rw [if_pos hlt] at hn
            have hvi := hv i n hn
            refine ⟨hvi.1, fun hnt => ?_⟩
            rw [hvi.2 hnt]
            unfold children_visits
            rw [List.map_congr_left (hold i n hn)]
          · rw [if_neg hlt] at hn
            by_cases he : i = t.length
            · exact absurd he hil
            · rw [if_neg he] at hn
              cases hn
      · intro n hn _
        rw [expanded_heap_get t j jn _ m okm hj t.length, if_neg (by omega),
          if_neg (lt_irrefl _), if_pos rfl] at hn
        cases hn
        have hst := new_node_static okm (some j) m
          (drop_piece jn.board (get_next_open_row jn.board m) m jn.player)
          (other_player jn.player)
        unfold children_visits own_visit
        rw [hst.2.2.2.2.1, hst.2.2.2.2.2.2.1, if_neg (by omega)]
        simp
  · exfalso
    have hch := has_move_of_not_terminal t h hf j jn h2 hjt hun
    rcases hbad with hbad | hbad
    · exact hch hbad
    · obtain ⟨c, hc⟩ := best_child_found fl t jn.children hch (by
        intro c hc
        obtain ⟨cn, h4, h5, _⟩ := (h.1 j jn h2).child_ok c hc
        have hcnt := (h.2 c cn h4).counts
        have hpcnt := (h.2 j jn h2).counts
        exact ucb1_beats fl hfl t c j cn jn h4 h5 h2 hcnt.1 hcnt.2 (hb c cn h4)
          (le_trans hpcnt.1 hpcnt.2) (hb j jn h2))
      rw [hc] at hbad
      cases hbad

/-- The backpropagation from `leaf` completes the accounting of visits. -/
theorem backprop_visitInv (t1 t2 : Tree) (leaf : Nat) (w : Int) (h : HeapInv t1)
    (hlen : t2.length = t1.length)
    (hspec : ∀ (j : Nat) (n : MCTSNode), t1[j]? = some n →
      (OnChain t1 leaf j → t2[j]? = some (credit w n)) ∧
      (¬ OnChain t1 leaf j → t2[j]? = some n))
    (hpre : VisitPre t1 leaf) : VisitInv t2 := by
  intro i n2 hn2
  have hi : i < t1.length := by
    rw [← hlen]
    exact lt_length_of_get hn2
  obtain ⟨n1, hn1⟩ : ∃ n1, t1[i]? = some n1 := ⟨t1[i], List.getElem?_eq_getElem hi⟩
  have hcv := backprop_children_visits t1 t2 leaf w h hspec i n1 hn1
  have hcnt := (h.2 i n1 hn1).counts
  by_cases hc : OnChain t1 leaf i
  · rw [(hspec i n1 hn1).1 hc] at hn2
    cases hn2
    by_cases hil : i = leaf
    · subst hil
      refine ⟨fun _ => ?_, fun hnt => ?_⟩
      · show 1 ≤ n1.visits + 1
        linarith [hcnt.1, hcnt.2]
      · have h1 := hpre.2 n1 hn1 hnt
        have h2 := hcv.2 (fun hh => hh.2 rfl)
        show n1.visits + 1 = own_visit i + ((n1.children.map (visits_at t2)).sum)
        rw [h2]
        exact h1
    · have hp := hpre.1 i n1 hn1 hil
      refine ⟨fun _ => ?_, fun hnt => ?_⟩
      · show 1 ≤ n1.visits + 1
        linarith [hcnt.1, hcnt.2]
      · have h1 := hp.2 hnt
        have h2 := hcv.1 ⟨hc, hil⟩
        show n1.visits + 1 = own_visit i + ((n1.children.map (visits_at t2)).sum)
        rw [h2, h1]
        unfold children_visits
        ring
  · rw [(hspec i n1 hn1).2 hc] at hn2
    have e12 : n2 = n1 := (Option.some.inj hn2).symm
    rw [e12]
    have hil : i ≠ leaf := by
      intro e
      apply hc
      rw [e]
      exact OnChain.here leaf
    have hp := hpre.1 i n1 hn1 hil
    refine ⟨hp.1, fun hnt => ?_⟩
    rw [hp.2 hnt]
    unfold children_visits
    rw [hcv.2 (fun hh => hc hh.1)]

/-- One pass of the loop in a search without allocation failure and with scores above
`-1.0`: the accounting of visits is kept and at most one node is added. -/
theorem roundFacts_visits (fl : DoubleOps) (o : Oracle) (t : Tree) (s : Calls) (t2 : Tree)
    (s2 : Calls) (hfl : ScoresBeatInitial fl) (hok : ∀ k, o.malloc_ok k = true)
    (h : HeapInv t) (hf : FullInv t) (hb : VisitsLe t INT_MAX) (hv : VisitInv t)
    (hroot : 0 < t.length) (hfacts : RoundFacts fl o t s t2 s2) :
    VisitInv t2 ∧ t.length ≤ t2.length ∧ t2.length ≤ t.length + 1 := by
  obtain ⟨t1, s1, leaf, w, h1, _, _, h4, h5, _, h7, h8, _⟩ := hfacts
  obtain ⟨hpre, hle⟩ := select_node_visits fl o t s hfl hok h hf hb hv hroot t1 s1 leaf h1
  refine ⟨backprop_visitInv t1 t2 leaf w h4 h7 h8 hpre, ?_, ?_⟩
  · rw [h7]
    exact h5.1
  · rw [h7]
    exact hle

theorem sum_ge_one (l : List Int) (hne : l ≠ []) (h : ∀ x ∈ l, 1 ≤ x) : 1 ≤ l.sum := by
  induction l with
  | nil => exact absurd rfl hne
  | cons a as ih =>
    rw [List.sum_cons]
    have ha := h a (List.mem_cons_self a as)
    by_cases hnil : as = []
    · rw [hnil]
      simpa using ha
    · have := ih hnil (fun x hx => h x (List.mem_cons_of_mem a hx))
      omega

/-- On a visited child of a visited parent `ucb1` takes neither of its two early returns:
it returns the value of the UCB1 formula. -/
theorem ucb1_formula (fl : DoubleOps) (t : Tree) (c i : Nat) (cn pn : MCTSNode)
    (hc : t[c]? = some cn) (hp : cn.parent = some i) (hi : t[i]? = some pn)
    (hv : 1 ≤ cn.visits) (hpv : 1 ≤ pn.visits) :
    ucb1 fl t c = some (fl.ucb cn.wins cn.visits pn.visits) := by
  unfold ucb1
  rw [hc]
  simp only []
  rw [if_neg (by simp; omega), hp]
  simp only []
  rw [hi]
  simp only []
  rw [if_neg (by simp; omega)]

theorem select_node_terminal (fl : DoubleOps) (o : Oracle) (fuel : Nat) (t : Tree) (s : Calls)
    (i : Nat) (node : MCTSNode) (hn : t[i]? = some node) (hterm : node.is_terminal = true) :
    select_node fl o (fuel + 1) t s i = some (t, s, i) := by
  unfold select_node
  rw [hn]
  simp only []
  rw [if_pos hterm]

/-- The loop in a search without allocation failure and with scores above `-1.0`, from a
root that is not terminal, as long as the counters stay within `INT_MAX`: the invariants are
kept and every pass adds at most one node. -/
theorem mcts_loop_visits (fl : DoubleOps) (o : Oracle) (iters : Nat) (t : Tree) (s : Calls)
    (hfl : ScoresBeatInitial fl) (hok : ∀ k, o.malloc_ok k = true) (h : HeapInv t)
    (hf : FullInv t) (hv : VisitInv t) (rn : MCTSNode) (hrn : t[0]? = some rn)
    (hnt : rn.is_terminal = false) (K : Int) (hK : 0 ≤ K) (hb : VisitsLe t K)
    (hKN : K + iters ≤ INT_MAX) :
    ∃ (t' : Tree) (s' : Calls) (rn' : MCTSNode),
      mcts_loop fl o iters t s 0 = some (t', s') ∧ HeapInv t' ∧ FullInv t' ∧ VisitInv t' ∧
        t'[0]? = some rn' ∧ rn'.is_terminal = false ∧ t.length ≤ t'.length ∧
        t'.length ≤ t.length + iters ∧ VisitsLe t' (K + iters) := by
  induction iters generalizing t s rn K with
  | zero =>
    exact ⟨t, s, rn, rfl, h, hf, hv, hrn, hnt, le_refl _, le_refl _, by simpa using hb⟩
  | succ n ih =>
    have hroot := lt_length_of_get hrn
    obtain ⟨t2, s2, h1, h2⟩ := mcts_round_facts fl o t s h hroot
    obtain ⟨rn2, h3, _, h5⟩ := roundFacts_root fl o t s t2 s2 h2 rn hrn
    have hbmax : VisitsLe t INT_MAX :=
      visitsLe_mono t K INT_MAX (by push_cast at hKN; omega) hb
    obtain ⟨hf2, _⟩ := roundFacts_full fl o t s t2 s2 hfl hok h hf hbmax rn hrn hnt h2
    obtain ⟨hv2, hl1, hl2⟩ :=
      roundFacts_visits fl o t s t2 s2 hfl hok h hf hbmax hv hroot h2
    have hb2 := roundFacts_visitsLe fl o t s t2 s2 h hroot K hK hb h2
    have hinv2 : HeapInv t2 := by
      obtain ⟨_, _, _, _, _, _, _, _, _, _, _, _, hinv⟩ := h2
      exact hinv
    obtain ⟨t', s', rn', h8, h9, h10, h11, h12, h13, h14, h15, h16⟩ :=
      ih t2 s2 hinv2 hf2 hv2 rn2 h3 (by rw [h5.2.2.2.2.1]; exact hnt) (K + 1) (by omega) hb2
        (by push_cast at hKN ⊢; omega)
    refine ⟨t', s', rn', ?_, h9, h10, h11, h12, h13, by omega, by omega, ?_⟩
    · rw [mcts_loop_succ, h1]
      exact h8
    · have e : K + ((n + 1 : Nat) : Int) = K + 1 + (n : Int) := by
        push_cast
        ring
      rw [e]
      exact h16

/-! ## The scores of the search in `double` arithmetic -/

/-- In `double` arithmetic every score that `ucb1` returns for counters of type `int` with
`0 ≤ wins ≤ visits` compares greater than `-1.0`. -/
theorem scoresBeatInitial_c_double : ScoresBeatInitial c_double := by
  refine ⟨?_, ?_, ?_⟩
  · show decide (signed true 1 <
      signed false ((2 : ℚ) ^ (1024 : Int) - (2 : ℚ) ^ (971 : Int))) = true
    simp only [signed, Bool.false_eq_true, if_false, if_true, decide_eq_true_eq]
    have h3 : (2 : ℚ) ^ (971 : Int) ≤ (2 : ℚ) ^ (1024 : Int) := two_zpow_le (by norm_num)
    linarith
  · intro w v hw hwv hv hvb
    exact gt_neg_one_of_within _ _ (ratio_within w v hw hwv hv hvb)
  · intro w v pv hw hwv hv hvb hpv hpvb
    exact gt_neg_one_of_within _ _ (ucb_within w v pv hw hwv hv hvb hpv hpvb)

/-- C11: from a root that is not terminal, for every random source, every pattern of
allocation failures, every semantics of the `double` operations and every `N`, the loop of
`mcts_get_best_move` runs `N` passes and the root then has `visits = N`; when moreover every
allocation succeeds, then in `double` arithmetic, for every `N` in the range of the C `int`
that counts the passes, the `visits` of the children of the root also sum to `N`. -/
theorem c11_root_visits (o : Oracle) (board : Board) (player : Int) (s : Calls) (N : Nat)
    (hgo : check_game_over board = -1) :
    (∀ (fl : DoubleOps) (okm : Bool), ∃ (t' : Tree) (s' : Calls) (rn' : MCTSNode),
      mcts_loop fl o N [new_node okm none (-1) board player] s 0 = some (t', s') ∧
        t'[0]? = some rn' ∧ rn'.visits = N) ∧
    ((∀ k, o.malloc_ok k = true) → (N : Int) ≤ INT_MAX →
      ∃ (t' : Tree) (s' : Calls) (rn' : MCTSNode),
        mcts_loop c_double o N [new_node true none (-1) board player] s 0 = some (t', s') ∧
          t'[0]? = some rn' ∧ rn'.visits = N ∧ children_visits t' rn' = N) := by
  constructor
  · intro fl okm
    have hst := new_node_static okm none (-1) board player
    obtain ⟨t', s', rn', h1, _, h3, h4, _⟩ := mcts_loop_inv fl o N
      [new_node okm none (-1) board player] s (heapInv_root okm board player)
      (new_node okm none (-1) board player) (by simp)
    refine ⟨t', s', rn', h1, h3, ?_⟩
    rw [h4, hst.2.2.2.2.2.2.1]
    simp
  · intro hok hN
    have hst := new_node_static true none (-1) board player
    have hterm : (new_node true none (-1) board player).is_terminal = false := by
      rw [← Bool.not_eq_true, hst.2.2.2.2.2.2.2.2]
      simp [hgo]
    obtain ⟨t', s', rn', h1, _, _, h4, h5, h6, _⟩ := mcts_loop_full c_double o N
      [new_node true none (-1) board player] s scoresBeatInitial_c_double hok
      (heapInv_root true board player) (fullInv_root board player)
      (new_node true none (-1) board player) (by simp) hterm 0 (le_refl 0)
      (visitsLe_root true board player) (by omega)
    refine ⟨t', s', rn', h1, h4, ?_, ?_⟩
    · rw [h5, hst.2.2.2.2.2.2.1]
      simp
    · rw [h6]
      unfold children_visits
      rw [hst.2.2.2.2.1]
      simp

/-- An instance of C11: twenty passes from the empty board, of which thirteen select a
child of the root by its UCB1 score. -/
theorem c11_root_visits_witness :
    check_game_over init_board = -1 ∧ (∀ k, zero_oracle.malloc_ok k = true) ∧
    ∃ (t' : Tree) (s' : Calls) (rn' : MCTSNode),
      mcts_loop c_double zero_oracle 20 [new_node true none (-1) init_board PLAYER1]
          { rands := 0, mallocs := 2 } 0 = some (t', s') ∧
        t'[0]? = some rn' ∧ rn'.visits = (20 : Nat) ∧ children_visits t' rn' = (20 : Nat) :=
  ⟨by decide, fun _ => rfl,
    (c11_root_visits zero_oracle init_board PLAYER1 { rands := 0, mallocs := 2 } 20
      (by decide)).2 (fun _ => rfl) (by decide)⟩

/-- C23: in a search from a root that is not terminal, without allocation failure, in
`double` arithmetic, for every random source and every `N` below `INT_MAX`: after `N`
completed passes of the loop every node other than the root has `visits ≥ 1`, and every
node other than the root that is not terminal has `visits = 1 + ` the sum of the visits of
its children; the next pass completes and adds at most one node.  `select_node` returns at
a terminal node and calls `expand_node` at a node with an untried move, so it evaluates
`ucb1` only on the children of a node that is not terminal and has no untried move: such a
node has a child and `visits ≥ 1`, each of its children has `visits ≥ 1` and points to it as
parent, and `ucb1` on the child takes neither the `visits == 0` return nor the return for a
missing or unvisited parent: it is the value of the UCB1 formula on a positive number of
visits and a parent count of at least 1, a finite `double` that is not negative (no
division by zero and no logarithm of zero occurs). -/
theorem c23_visit_accounting (o : Oracle) (board : Board) (player : Int)
    (s : Calls) (N : Nat) (hok : ∀ k, o.malloc_ok k = true)
    (hgo : check_game_over board = -1) (hN : (N : Int) < INT_MAX) :
    ∃ (t : Tree) (s' : Calls) (t2 : Tree) (s2 : Calls),
      mcts_loop c_double o N [new_node true none (-1) board player] s 0 = some (t, s') ∧
      mcts_round c_double o t s' 0 = some (t2, s2) ∧
      mcts_loop c_double o (N + 1) [new_node true none (-1) board player] s 0 =
        some (t2, s2) ∧
      t.length ≤ t2.length ∧ t2.length ≤ t.length + 1 ∧ t.length ≤ N + 1 ∧
      (∀ (i : Nat) (n : MCTSNode), t[i]? = some n → i ≠ 0 →
        1 ≤ n.visits ∧ (n.is_terminal = false → n.visits = 1 + children_visits t n)) ∧
      (∀ (i : Nat) (n : MCTSNode), t[i]? = some n →
        (n.is_terminal = true →
          ∀ (fuel : Nat) (s0 : Calls),
            select_node c_double o (fuel + 1) t s0 i = some (t, s0, i)) ∧
        (n.is_terminal = false → 0 < n.untried_moves.length →
          ∀ (fuel : Nat) (s0 : Calls),
            select_node c_double o (fuel + 1) t s0 i = expand_node o t s0 i) ∧
        (n.is_terminal = false → n.untried_moves = [] →
          n.children ≠ [] ∧ 1 ≤ n.visits ∧
          ∀ c ∈ n.children, ∃ cn : MCTSNode, t[c]? = some cn ∧ cn.parent = some i ∧
            1 ≤ cn.visits ∧ cn.visits ≠ 0 ∧ n.visits ≠ 0 ∧
            ucb1 c_double t c = some (c_double.ucb cn.wins cn.visits n.visits) ∧
            F64.Within (c_double.ucb cn.wins cn.visits n.visits) 0
              ((2 : ℚ) ^ (32 : Int)))) := by
  have hst := new_node_static true none (-1) board player
  have hterm : (new_node true none (-1) board player).is_terminal = false := by
    rw [← Bool.not_eq_true, hst.2.2.2.2.2.2.2.2]
    simp [hgo]
  obtain ⟨t, s', rn, h1, hinv, hfull, hvis, hrn, hnt, _, hlen, hble⟩ :=
    mcts_loop_visits c_double o N
      [new_node true none (-1) board player] s scoresBeatInitial_c_double hok
      (heapInv_root true board player)
      (fullInv_root board player) (visitInv_root true board player)
      (new_node true none (-1) board player) (by simp) hterm 0 (le_refl 0)
      (visitsLe_root true board player) (by omega)
  have hbmax : VisitsLe t INT_MAX := visitsLe_mono t _ INT_MAX (by omega) hble
  have hroot := lt_length_of_get hrn
  obtain ⟨t2, s2, h2, h3⟩ := mcts_round_facts c_double o t s' hinv hroot
  obtain ⟨_, hl1, hl2⟩ := roundFacts_visits c_double o t s' t2 s2 scoresBeatInitial_c_double
    hok hinv hfull hbmax hvis hroot h3
  have hchild : ∀ (i : Nat) (n : MCTSNode), t[i]? = some n → ∀ c ∈ n.children,
      ∃ cn : MCTSNode, t[c]? = some cn ∧ cn.parent = some i ∧ 1 ≤ cn.visits := by
    intro i n hn c hc
    obtain ⟨cn, h4, h5, _⟩ := (hinv.1 i n hn).child_ok c hc
    have hgt := (hinv.1 i n hn).child_gt c hc
    exact ⟨cn, h4, h5, (hvis c cn h4).1 (by omega)⟩
  refine ⟨t, s', t2, s2, h1, h2, ?_, hl1, hl2,
    by simp only [List.length_singleton] at hlen; omega, ?_, ?_⟩
  · rw [mcts_loop_succ_end, h1]
    exact h2
  · intro i n hn hi
    refine ⟨(hvis i n hn).1 hi, fun hnt => ?_⟩
    rw [(hvis i n hn).2 hnt]
    unfold own_visit
    rw [if_neg hi]
  · intro i n hn
    refine ⟨fun ht fuel s0 => select_node_terminal c_double o fuel t s0 i n hn ht,
      fun hnt hlen fuel s0 => select_node_untried c_double o fuel t s0 i n hn hnt hlen, ?_⟩
    intro hnt hun
    have hch := has_move_of_not_terminal t hinv hfull i n hn hnt hun
    have hsum : 1 ≤ children_visits t n := by
      unfold children_visits
      apply sum_ge_one
      · intro e
        exact hch (List.map_eq_nil_iff.1 e)
      · intro x hx
        obtain ⟨c, hc, rfl⟩ := List.mem_map.1 hx
        obtain ⟨cn, h4, _, h6⟩ := hchild i n hn c hc
        rw [visits_at_of_get t c cn h4]
        exact h6
    have hnv : 1 ≤ n.visits := by
      rw [(hvis i n hn).2 hnt]
      unfold own_visit
      split <;> omega
    refine ⟨hch, hnv, ?_⟩
    intro c hc
    obtain ⟨cn, h4, h5, h6⟩ := hchild i n hn c hc
    have hcnt := (hinv.2 c cn h4).counts
    exact ⟨cn, h4, h5, h6, by omega, by omega,
      ucb1_formula c_double t c i cn n h4 h5 hn h6 hnv,
      ucb_within cn.wins cn.visits n.visits hcnt.1 hcnt.2 (by omega) (hbmax c cn h4)
        (by omega) (hbmax i n hn)⟩

/-- An instance of C23: twenty passes from the empty board. -/
theorem c23_visit_accounting_witness :
    (∀ k, zero_oracle.malloc_ok k = true) ∧ check_game_over init_board = -1 ∧
    ∃ (t : Tree) (s' : Calls),
      mcts_loop c_double zero_oracle 20 [new_node true none (-1) init_board PLAYER1]
        { rands := 0, mallocs := 2 } 0 = some (t, s') ∧ t.length ≤ 20 + 1 ∧
      ∀ (i : Nat) (n : MCTSNode), t[i]? = some n → i ≠ 0 →
        1 ≤ n.visits ∧ (n.is_terminal = false → n.visits = 1 + children_visits t n) :=
  ⟨fun _ => rfl, by decide, by
    obtain ⟨t, s', _, _, h1, _, _, _, _, h6, h7, _⟩ :=
      c23_visit_accounting zero_oracle init_board PLAYER1
        { rands := 0, mallocs := 2 } 20 (fun _ => rfl) (by decide) (by decide)
    exact ⟨t, s', h1, h6, h7⟩⟩

/-! ## The child chosen by `select_node` -/

theorem sum_le_length_mul (l : List Int) (M : Int) (h : ∀ x ∈ l, x ≤ M) :
    l.sum ≤ (l.length : Int) * M := by
  induction l with
  | nil => simp
  | cons a as ih =>
    have ha := h a (List.mem_cons_self a as)
    have := ih (fun x hx => h x (List.mem_cons_of_mem a hx))
    simp only [List.sum_cons, List.length_cons]
    push_cast
    linarith

/-- The search without allocation failure in `double` arithmetic: after `N` passes the
visits of the children of the root sum to `N`, and the root has at most as many children
as the board has legal columns. -/
theorem loop_children_facts (o : Oracle) (board : Board) (player : Int) (N : Nat)
    (hok : ∀ k, o.malloc_ok k = true) (hgo : check_game_over board = -1)
    (hN : (N : Int) ≤ INT_MAX) :
    ∃ (t : Tree) (s : Calls) (rn : MCTSNode),
      mcts_loop c_double o N [new_node true none (-1) board player]
        { rands := 0, mallocs := 2 } 0 = some (t, s) ∧
      t[0]? = some rn ∧ children_visits t rn = N ∧
      rn.children.length ≤ (valid_columns board).length := by
  have hst := new_node_static true none (-1) board player
  have hterm : (new_node true none (-1) board player).is_terminal = false := by
    rw [← Bool.not_eq_true, hst.2.2.2.2.2.2.2.2]
    simp [hgo]
  obtain ⟨t, s, rn, h1, h2, _, h4, _, h6, _⟩ := mcts_loop_full c_double o N
    [new_node true none (-1) board player] { rands := 0, mallocs := 2 }
    scoresBeatInitial_c_double hok
    (heapInv_root true board player) (fullInv_root board player)
    (new_node true none (-1) board player) (by simp) hterm 0 (le_refl 0)
    (visitsLe_root true board player) (by omega)
  obtain ⟨t', s', rn', h1', _, h3', _, h5'⟩ := mcts_loop_inv c_double o N
    [new_node true none (-1) board player] { rands := 0, mallocs := 2 }
    (heapInv_root true board player) (new_node true none (-1) board player) (by simp)
  rw [h1] at h1'
  cases h1'
  rw [h4] at h3'
  cases h3'
  refine ⟨t, s, rn, h1, h4, ?_, ?_⟩
  · rw [h6]
    unfold children_visits
    rw [hst.2.2.2.2.1]
    simp
  · have hb := (h2.2 0 rn h4).budget
    rw [h5'.1, hst.1] at hb
    omega

/-- C14: when the loop has run its budget and the root has at least one child, the search
returns the move of a child of the root whose `visits` counter is the highest among the
children; the wins play no role; and every child listed before it has strictly fewer
visits, so among several most visited children the first in child order is chosen.  With
the budget `MCTS_ITERATIONS` this is the result of `mcts_get_best_move`.  (The hypotheses
say that the search reached the loop: the root was allocated with its list of moves on a
board that is not over.) -/
theorem c14_most_visited (fl : DoubleOps) (o : Oracle) (iters : Nat) (board : Board)
    (player : Int) (t : Tree) (s : Calls) (rn : MCTSNode) (h0 : o.malloc_ok 0 = true)
    (h1 : o.malloc_ok 1 = true) (hgo : check_game_over board = -1)
    (hloop : mcts_loop fl o iters [new_node true none (-1) board player]
      { rands := 0, mallocs := 2 } 0 = some (t, s))
    (hrn : t[0]? = some rn) (hc : rn.children ≠ []) :
    ∃ (k c : Nat) (cn : MCTSNode), rn.children[k]? = some c ∧ t[c]? = some cn ∧
      mcts_search fl o iters board player = some cn.move ∧
      (iters = MCTS_ITERATIONS → mcts_get_best_move fl o board player = some cn.move) ∧
      ∀ (j c' : Nat) (cn' : MCTSNode), rn.children[j]? = some c' → t[c']? = some cn' →
        cn'.visits ≤ cn.visits ∧ (j < k → cn'.visits < cn.visits) := by
  obtain ⟨t', s', rn', h2, h3, _⟩ := mcts_loop_inv fl o iters
    [new_node true none (-1) board player] { rands := 0, mallocs := 2 }
    (heapInv_root true board player) (new_node true none (-1) board player) (by simp)
  rw [hloop] at h2
  cases h2
  obtain ⟨k, c, cn, h4, h5, h6, h7⟩ := choose_move_most_visited o t s board rn h3 hrn hc
  have hsearch : mcts_search fl o iters board player = some cn.move := by
    rw [mcts_search_eq fl o iters board player h0 h1 hgo, hloop]
    exact h6
  refine ⟨k, c, cn, h4, h5, hsearch, ?_, h7⟩
  intro hit
  unfold mcts_get_best_move
  rw [← hit]
  exact hsearch

/-- Three instances of C14.  After two passes the root has two children with one visit
each, and the search returns the move of the first of them.  After eight passes from the
empty board the root has at most seven children whose visits sum to eight, and the search
returns the move of a child with at least two visits.  And with the budget
`MCTS_ITERATIONS` the function `mcts_get_best_move` returns the move of a child of the root
that no child exceeds in visits. -/
theorem c14_most_visited_witness :
    (∃ (t : Tree) (s : Calls) (rn : MCTSNode) (c0 : Nat) (cn0 : MCTSNode),
      mcts_loop c_double zero_oracle 2 [new_node true none (-1) three_in_column_3 PLAYER1]
        { rands := 0, mallocs := 2 } 0 = some (t, s) ∧
      t[0]? = some rn ∧ rn.children.length = 2 ∧ (∀ c ∈ rn.children, visits_at t c = 1) ∧
      rn.children[0]? = some c0 ∧ t[c0]? = some cn0 ∧
      mcts_search c_double zero_oracle 2 three_in_column_3 PLAYER1 = some cn0.move) ∧
    (∃ (t : Tree) (s : Calls) (rn : MCTSNode) (c : Nat) (cn : MCTSNode),
      mcts_loop c_double zero_oracle 8 [new_node true none (-1) init_board PLAYER1]
        { rands := 0, mallocs := 2 } 0 = some (t, s) ∧
      t[0]? = some rn ∧ rn.children.length ≤ 7 ∧ children_visits t rn = 8 ∧
      c ∈ rn.children ∧ t[c]? = some cn ∧ 2 ≤ cn.visits ∧
      mcts_search c_double zero_oracle 8 init_board PLAYER1 = some cn.move) ∧
    (∃ (t : Tree) (s : Calls) (rn : MCTSNode) (c : Nat) (cn : MCTSNode),
      mcts_loop c_double zero_oracle MCTS_ITERATIONS
        [new_node true none (-1) init_board PLAYER1]
        { rands := 0, mallocs := 2 } 0 = some (t, s) ∧
      t[0]? = some rn ∧ c ∈ rn.children ∧ t[c]? = some cn ∧
      mcts_get_best_move c_double zero_oracle init_board PLAYER1 = some cn.move ∧
      ∀ (c' : Nat) (cn' : MCTSNode), c' ∈ rn.children → t[c']? = some cn' →
        cn'.visits ≤ cn.visits) := by
  refine ⟨?_, ?_, ?_⟩
  · obtain ⟨t, s, rn, h1, _, _, h4, _, _, h7, h8⟩ := first_rounds c_double zero_oracle
      three_in_column_3 PLAYER1 { rands := 0, mallocs := 2 } (fun _ => rfl) (by decide) 2
      (by decide)
    have hc : rn.children ≠ [] := by
      intro hnil
      rw [hnil] at h7
      cases h7
    obtain ⟨k, c, cn, h9, h10, h11, _, h13⟩ := c14_most_visited c_double zero_oracle 2
      three_in_column_3 PLAYER1 t s rn rfl rfl (by decide) h1 h4 hc
    have hv : cn.visits = 1 := by
      rw [← visits_at_of_get t c cn h10]
      exact h8 c (List.getElem?_mem h9)
    have hk : k = 0 := by
      by_contra hne
      have h0lt : 0 < rn.children.length := by omega
      have hget : rn.children[0]? = some rn.children[0] := List.getElem?_eq_getElem h0lt
      have hmem : rn.children[0] ∈ rn.children := List.getElem?_mem hget
      have hv0 := h8 _ hmem
      unfold visits_at at hv0
      cases hx : t[rn.children[0]]? with
      | none =>
        rw [hx] at hv0
        cases hv0
      | some x =>
        rw [hx] at hv0
        simp only [] at hv0
        have := (h13 0 _ x hget hx).2 (by omega)
        omega
    subst hk
    exact ⟨t, s, rn, c, cn, h1, h4, h7, h8, h9, h10, h11⟩
  · obtain ⟨t, s, rn, h1, h4, h6, h7⟩ := loop_children_facts zero_oracle init_board PLAYER1 8
      (fun _ => rfl) (by decide) (by decide)
    have hlen : (valid_columns init_board).length = 7 := by decide
    rw [hlen] at h7
    have hc : rn.children ≠ [] := by
      intro hnil
      unfold children_visits at h6
      rw [hnil] at h6
      simp at h6
    obtain ⟨k, c, cn, h9, h10, h11, _, h13⟩ := c14_most_visited c_double zero_oracle 8
      init_board PLAYER1 t s rn rfl rfl (by decide) h1 h4 hc
    have hsum : children_visits t rn ≤ (rn.children.length : Int) * cn.visits := by
      unfold children_visits
      have := sum_le_length_mul (rn.children.map (visits_at t)) cn.visits (by
        intro x hx
        obtain ⟨c', hc', rfl⟩ := List.mem_map.1 hx
        obtain ⟨j, hj⟩ := List.getElem?_of_mem hc'
        unfold visits_at
        cases hx' : t[c']? with
        | none =>
          simp only []
          have := (h13 k c cn h9 h10).1
          by_contra hneg
          have hcv : cn.visits < 0 := by omega
          have hz := sum_le_length_mul (rn.children.map (visits_at t)) 0 (by
            intro y hy
            obtain ⟨c2, hc2, rfl⟩ := List.mem_map.1 hy
            obtain ⟨j2, hj2⟩ := List.getElem?_of_mem hc2
            unfold visits_at
            cases hy' : t[c2]? with
            | none => simp
            | some y2 =>
              simp only []
              have := (h13 j2 c2 y2 hj2 hy').1
              omega)
          unfold children_visits at h6
          rw [h6] at hz
          simp at hz
        | some x' =>
          simp only []
          exact (h13 j c' x' hj hx').1)
      simpa using this
    rw [h6] at hsum
    have hlen7 : (rn.children.length : Int) ≤ 7 := by exact_mod_cast h7
    have hcv : 2 ≤ cn.visits := by
      by_contra hlt
      have h1' : cn.visits ≤ 1 := by omega
      have hnn : (0 : Int) ≤ (rn.children.length : Int) := Int.natCast_nonneg _
      have hmul := mul_le_mul_of_nonneg_left h1' hnn
      push_cast at hsum
      linarith
    exact ⟨t, s, rn, c, cn, h1, h4, h7, h6, List.getElem?_mem h9, h10, hcv, h11⟩
  · obtain ⟨t, s, rn, h1, h4, h6, _⟩ := loop_children_facts zero_oracle init_board PLAYER1
      MCTS_ITERATIONS (fun _ => rfl) (by decide) (by decide)
    have hc : rn.children ≠ [] := by
      intro hnil
      unfold children_visits at h6
      rw [hnil] at h6
      simp [MCTS_ITERATIONS] at h6
    obtain ⟨k, c, cn, h9, h10, _, h12, h13⟩ := c14_most_visited c_double zero_oracle
      MCTS_ITERATIONS init_board PLAYER1 t s rn rfl rfl (by decide) h1 h4 hc
    refine ⟨t, s, rn, c, cn, h1, h4, List.getElem?_mem h9, h10, h12 rfl, ?_⟩
    intro c' cn' hc' hcn'
    obtain ⟨j, hj⟩ := List.getElem?_of_mem hc'
    exact (h13 j c' cn' hj hcn').1

end ConnectFour
